import Mathlib

/-!
Lock-free stacks and queues (Ch.7) and parallel algorithms (Ch.8, Ch.9) of "C++ Concurrency in
Action"

The containers of `Ch.7/lockfree_stack.h` and `Ch.7/lockfree_queue.h` are embedded as pure
functions over an explicit heap.  A pointer is `Option Nat` (`none` is `nullptr`), `new` returns
the next unused address, `delete` records the address in a log, and every dereference is
checked, so that a null dereference, a use after free or a double free shows up as a `Fault`.
Loops carry a fuel argument and report `Fault.out_of_fuel` when it is used up.

Atomic operations of the containers are given their sequential meaning: the executions described
are those of one thread, without spurious failure of `compare_exchange_weak`.  Where another
thread matters (`try_reclaim_entered`, the consumers of `run_threads`, the searches of
`Ch.8/find.h`, the pool of `Ch.9/threadpool.h`), what the other threads do is an explicit
argument: the order in which the threads run their parts.
-/

namespace LockFree

/-! ## Faults, heap, atomics -/

/-- The ways an execution can leave defined behaviour, or fail to finish within its fuel. -/
inductive Fault where
  | null_deref
  | wild_pointer
  | use_after_free
  | double_free
  | out_of_fuel
  | runtime_error (what : String)
  deriving DecidableEq, Repr

deriving instance DecidableEq for Except

/-- A heap of nodes of one type: `cells` holds every node ever allocated (its address is its
index) and `freed` logs the addresses passed to `delete`, most recent first. -/
structure Heap (N : Type) where
  cells : List N
  freed : List Nat
  deriving DecidableEq, Repr

namespace Heap

variable {N : Type}

/-- The heap before any allocation. -/
def empty : Heap N := ⟨[], []⟩

/-- Allocate with `new`: the node is stored at the next unused address, which is returned. -/
def alloc (h : Heap N) (n : N) : Nat × Heap N :=
  (h.cells.length, { h with cells := h.cells ++ [n] })

/-- Dereference the non-null pointer `a` for reading. -/
def read (h : Heap N) (a : Nat) : Except Fault N :=
  if a ∈ h.freed then .error .use_after_free
  else match h.cells[a]? with
    | some n => .ok n
    | none => .error .wild_pointer

/-- Dereference the non-null pointer `a` for writing. -/
def write (h : Heap N) (a : Nat) (n : N) : Except Fault (Heap N) :=
  if a ∈ h.freed then .error .use_after_free
  else if a < h.cells.length then .ok { h with cells := h.cells.set a n }
  else .error .wild_pointer

/-- The expression `delete p`: nothing happens for `nullptr`. -/
def delete (h : Heap N) (p : Option Nat) : Except Fault (Heap N) :=
  match p with
  | none => .ok h
  | some a =>
    if a ∈ h.freed then .error .double_free
    else if a < h.cells.length then .ok { h with freed := a :: h.freed }
    else .error .wild_pointer

end Heap

/-- The member `compare_exchange_strong(expected, desired)` of an atomic holding `cell`, also
`compare_exchange_weak` without spurious failure: the result is the success flag, the new content
of the atomic and the new content of `expected`. -/
def compare_exchange {α : Type} [DecidableEq α] (cell expected desired : α) : Bool × α × α :=
  if cell = expected then (true, desired, expected) else (false, cell, cell)

/-- One call made by the single thread driving a container. -/
inductive Op (T : Type) where
  | push (v : T)
  | pop
  deriving DecidableEq, Repr

/-- Run a list of calls against a container with the given `push` and `pop`, collecting what the
pops return (`none` is the null result). -/
def run_ops {σ T : Type} (push : σ → T → Except Fault σ) (pop : σ → Except Fault (Option T × σ)) :
    List (Op T) → σ → Except Fault (List (Option T) × σ)
  | [], s => .ok ([], s)
  | Op.push v :: ops, s =>
    match push s v with
    | .error e => .error e
    | .ok s1 => run_ops push pop ops s1
  | Op.pop :: ops, s =>
    match pop s with
    | .error e => .error e
    | .ok (r, s1) =>
      match run_ops push pop ops s1 with
      | .error e => .error e
      | .ok (rs, s2) => .ok (r :: rs, s2)

/-! ## The stack of Listing 7.2 -/

namespace stack_data

/-- The struct `stack_data<T>::node`. -/
structure node (T : Type) where
  data : Option T
  next : Option Nat
  deriving DecidableEq, Repr

end stack_data

/-- The class `stack_push<T>`: the atomic `head`, together with the heap its nodes live in. -/
structure stack_push (T : Type) where
  heap : Heap (stack_data.node T)
  head : Option Nat
  deriving DecidableEq, Repr

namespace stack_push

variable {T : Type}

/-- A freshly constructed stack: no node, `head` is null. -/
def fresh : stack_push T := ⟨Heap.empty, none⟩

/-- The loop `while (!head.compare_exchange_weak(new_node->next, new_node));` of `push`. -/
def push_loop : Nat → stack_push T → Nat → Except Fault (stack_push T)
  | 0, _, _ => .error .out_of_fuel
  | fuel + 1, s, new_node => do
    let n ← s.heap.read new_node
    match compare_exchange s.head n.next (some new_node) with
    | (true, head1, _) => pure { s with head := head1 }
    | (false, _, expected1) =>
      let heap1 ← s.heap.write new_node { n with next := expected1 }
      push_loop fuel { s with heap := heap1 } new_node

/-- The member `stack_push<T>::push`. -/
def push (fuel : Nat) (s : stack_push T) (data : T) : Except Fault (stack_push T) := do
  let (new_node, heap1) := s.heap.alloc { data := some data, next := none }
  let n ← heap1.read new_node
  let heap2 ← heap1.write new_node { n with next := s.head }
  push_loop fuel { s with heap := heap2 } new_node

/-- The loop `while (old_head && !head.compare_exchange_weak(old_head, old_head->next));` that
`lock_free_stack_7_2::pop` and `lock_free_stack_7_4::pop` both run: the result is the stack and
the final `old_head`. -/
def detach_loop : Nat → stack_push T → Option Nat → Except Fault (stack_push T × Option Nat)
  | 0, _, _ => .error .out_of_fuel
  | fuel + 1, s, old_head =>
    match old_head with
    | none => pure (s, none)
    | some a => do
      let n ← s.heap.read a
      match compare_exchange s.head old_head n.next with
      | (true, head1, old_head1) => pure ({ s with head := head1 }, old_head1)
      | (false, _, old_head1) => detach_loop fuel s old_head1

end stack_push

namespace lock_free_stack_7_2

variable {T : Type}

/-- The member `lock_free_stack_7_2<T>::pop`. -/
def pop (fuel : Nat) (s : stack_push T) : Except Fault (Option T × stack_push T) := do
  let (s1, old_head) ← stack_push.detach_loop fuel s s.head
  match old_head with
  | none => pure (none, s1)
  | some a =>
    let n ← s1.heap.read a
    pure (n.data, s1)

/-- The destructor, `while (!pop()) {}`: the result is the stack it leaves behind. -/
def destroy (fuel : Nat) : Nat → stack_push T → Except Fault (stack_push T)
  | 0, _ => .error .out_of_fuel
  | k + 1, s => do
    let (r, s1) ← pop fuel s
    if r.isNone then destroy fuel k s1 else pure s1

/-- A single-threaded run of pushes and pops. -/
def run (fuel : Nat) (ops : List (Op T)) (s : stack_push T) :
    Except Fault (List (Option T) × stack_push T) :=
  run_ops (stack_push.push fuel) (pop fuel) ops s

end lock_free_stack_7_2

/-! ## Listings 7.4 and 7.5: reclaiming nodes when no thread is in `pop` -/

/-- The class `lock_free_stack_7_4<T>`: the stack together with the members `to_delete` and
`threads_in_pop` it inherits from `ref_count_delete_machinery<T>`. -/
structure lock_free_stack_7_4 (T : Type) extends stack_push T where
  to_delete : Option Nat
  threads_in_pop : Nat
  deriving DecidableEq, Repr

/-- The number of values of an `unsigned`: 2 to the power 32. -/
def unsigned_mod : Nat := 4294967296

/-- The value of an `unsigned` after `++x`. -/
def unsigned_inc (x : Nat) : Nat := (x + 1) % unsigned_mod

/-- The value of an `unsigned` after `--x`: one less, and from 0 the largest value. -/
def unsigned_dec (x : Nat) : Nat := (if x = 0 then unsigned_mod - 1 else x - 1) % unsigned_mod

namespace ref_count_delete_machinery

variable {T : Type}

/-- The static member `delete_nodes`. -/
def delete_nodes : Nat → Heap (stack_data.node T) → Option Nat → Except Fault (Heap (stack_data.node T))
  | 0, _, _ => .error .out_of_fuel
  | fuel + 1, h, nodes =>
    match nodes with
    | none => pure h
    | some a => do
      let n ← h.read a
      let h1 ← h.delete (some a)
      delete_nodes fuel h1 n.next

/-- The loop `while (!to_delete.compare_exchange_weak(last->next, first));`. -/
def chain_loop : Nat → lock_free_stack_7_4 T → Option Nat → Nat → Except Fault (lock_free_stack_7_4 T)
  | 0, _, _, _ => .error .out_of_fuel
  | fuel + 1, s, first, last => do
    let n ← s.heap.read last
    match compare_exchange s.to_delete n.next first with
    | (true, cell1, _) => pure { s with to_delete := cell1 }
    | (false, _, expected1) =>
      let heap1 ← s.heap.write last { n with next := expected1 }
      chain_loop fuel { s with heap := heap1 } first last

/-- The member `chain_pending_nodes(first, last)`. -/
def chain_pending_nodes_range (fuel : Nat) (s : lock_free_stack_7_4 T) (first last : Option Nat) :
    Except Fault (lock_free_stack_7_4 T) :=
  match last with
  | none => .error .null_deref
  | some l => do
    let n ← s.heap.read l
    let heap1 ← s.heap.write l { n with next := s.to_delete }
    chain_loop fuel { s with heap := heap1 } first l

/-- The loop `while (node* const next = last->next) { last = next; }`. -/
def find_last : Nat → Heap (stack_data.node T) → Nat → Except Fault Nat
  | 0, _, _ => .error .out_of_fuel
  | fuel + 1, h, last => do
    let n ← h.read last
    match n.next with
    | none => pure last
    | some next => find_last fuel h next

/-- The member `chain_pending_nodes(nodes)`. -/
def chain_pending_nodes (fuel : Nat) (s : lock_free_stack_7_4 T) (nodes : Option Nat) :
    Except Fault (lock_free_stack_7_4 T) :=
  match nodes with
  | none => .error .null_deref
  | some a => do
    let last ← find_last fuel s.heap a
    chain_pending_nodes_range fuel s nodes (some last)

/-- The member `chain_pending_node(n)`. -/
def chain_pending_node (fuel : Nat) (s : lock_free_stack_7_4 T) (n : Option Nat) :
    Except Fault (lock_free_stack_7_4 T) :=
  chain_pending_nodes_range fuel s n n

/-- The member `try_reclaim(old_head)`. -/
def try_reclaim (fuel : Nat) (s : lock_free_stack_7_4 T) (old_head : Option Nat) :
    Except Fault (lock_free_stack_7_4 T) :=
  if s.threads_in_pop = 1 then do
    let nodes_to_delete := s.to_delete
    let s1 := { s with to_delete := none }
    let s2 := { s1 with threads_in_pop := unsigned_dec s1.threads_in_pop }
    let s3 ←
      if s2.threads_in_pop = 0 then do
        let heap1 ← delete_nodes fuel s2.heap nodes_to_delete
        pure { s2 with heap := heap1 }
      else if nodes_to_delete.isSome then chain_pending_nodes fuel s2 nodes_to_delete
      else pure s2
    let heap2 ← s3.heap.delete old_head
    pure { s3 with heap := heap2 }
  else do
    let s1 ← chain_pending_node fuel s old_head
    pure { s1 with threads_in_pop := unsigned_dec s1.threads_in_pop }

end ref_count_delete_machinery

namespace lock_free_stack_7_4

variable {T : Type}

/-- A freshly constructed stack: `head` and `to_delete` are null, nobody is in `pop`. -/
def fresh : lock_free_stack_7_4 T := ⟨stack_push.fresh, none, 0⟩

/-- The member `push`, inherited from `stack_push<T>`. -/
def push (fuel : Nat) (s : lock_free_stack_7_4 T) (data : T) : Except Fault (lock_free_stack_7_4 T) := do
  let b ← stack_push.push fuel s.tostack_push data
  pure { s with tostack_push := b }

/-- The member `lock_free_stack_7_4<T>::pop`. -/
def pop (fuel : Nat) (s : lock_free_stack_7_4 T) : Except Fault (Option T × lock_free_stack_7_4 T) := do
  let s0 := { s with threads_in_pop := unsigned_inc s.threads_in_pop }
  let (b1, old_head) ← stack_push.detach_loop fuel s0.tostack_push s0.head
  let (res, heap2) ←
    match old_head with
    | none => pure (none, b1.heap)
    | some a => do
      let n ← b1.heap.read a
      let h ← b1.heap.write a { n with data := none }
      pure (n.data, h)
  let s2 ← ref_count_delete_machinery.try_reclaim fuel
    { s0 with tostack_push := { b1 with heap := heap2 } } old_head
  pure (res, s2)

/-- The destructor, `while (!pop()) {}`. -/
def destroy (fuel : Nat) : Nat → lock_free_stack_7_4 T → Except Fault (lock_free_stack_7_4 T)
  | 0, _ => .error .out_of_fuel
  | k + 1, s => do
    let (r, s1) ← pop fuel s
    if r.isNone then destroy fuel k s1 else pure s1

/-- A single-threaded run of pushes and pops. -/
def run (fuel : Nat) (ops : List (Op T)) (s : lock_free_stack_7_4 T) :
    Except Fault (List (Option T) × lock_free_stack_7_4 T) :=
  run_ops (push fuel) (pop fuel) ops s

end lock_free_stack_7_4

/-! ## Listings 7.6 and 7.7: hazard pointers -/

namespace hazardous_pointer_machinery

/-- The constant `max_hazard_pointers`. -/
def max_hazard_pointers : Nat := 100

/-- The struct `hazard_pointer`: `id` is the owning thread (`none` is the default-constructed
`std::thread::id`, which names no thread) and `pointer` the published address. -/
structure hazard_pointer where
  id : Option Nat
  pointer : Option Nat
  deriving DecidableEq, Repr

/-- The static array `hazard_pointers[max_hazard_pointers]`. -/
abbrev table : Type := Fin max_hazard_pointers → hazard_pointer

/-- The table at program start: static storage is zero-initialised. -/
def table.zero : table := fun _ => ⟨none, none⟩

/-- The `for` loop of the constructor of `hp_owner`, over the indices still to visit: the result
is the table and the claimed entry `hp` (`none` while `hp` is null). -/
def hp_owner_scan (this_id : Nat) : List (Fin max_hazard_pointers) → table →
    table × Option (Fin max_hazard_pointers)
  | [], t => (t, none)
  | i :: rest, t =>
    match compare_exchange (t i).id none (some this_id) with
    | (true, id1, _) => (Function.update t i { t i with id := id1 }, some i)
    | (false, _, _) => hp_owner_scan this_id rest t

/-- The constructor of `hp_owner`, run by the thread `this_id`: the table it leaves, and either
the claimed entry or the exception thrown. -/
def hp_owner (this_id : Nat) (t : table) : table × Except Fault (Fin max_hazard_pointers) :=
  match hp_owner_scan this_id (List.finRange max_hazard_pointers) t with
  | (t1, some hp) => (t1, .ok hp)
  | (t1, none) => (t1, .error (.runtime_error "No hazard pointers available"))

/-- The member `outstanding_hazard_pointers_for(p)`. -/
def outstanding_hazard_pointers_for (t : table) (p : Option Nat) : Bool :=
  (List.finRange max_hazard_pointers).any (fun i => decide ((t i).pointer = p))

end hazardous_pointer_machinery

open hazardous_pointer_machinery in
/-- The class `lock_free_stack_7_6<T>` as seen by one thread: the stack, the static table
`hazard_pointers`, that thread's `thread_local` object `hazard` (`none` until its first use; the
value is the entry it owns) and the list `nodes_to_reclaim`, given by the `data` field of its
entries, first entry first. -/
structure lock_free_stack_7_6 (T : Type) extends stack_push T where
  hazard_pointers : table
  hazard : Option (Fin max_hazard_pointers)
  nodes_to_reclaim : List Nat

namespace lock_free_stack_7_6

open hazardous_pointer_machinery

variable {T : Type}

/-- A freshly constructed stack, next to a table in the state `t`. -/
def fresh (t : table) : lock_free_stack_7_6 T := ⟨stack_push.fresh, t, none, []⟩

/-- The member `get_hazard_pointer_for_current_thread`: the first call of a thread constructs
its `hp_owner`. -/
def get_hazard_pointer_for_current_thread (this_id : Nat) (s : lock_free_stack_7_6 T) :
    Except Fault (Fin max_hazard_pointers × lock_free_stack_7_6 T) :=
  match s.hazard with
  | some hp => pure (hp, s)
  | none =>
    match hp_owner this_id s.hazard_pointers with
    | (t1, .ok hp) => pure (hp, { s with hazard_pointers := t1, hazard := some hp })
    | (_, .error e) => .error e

/-- The statement `hp.store(p)`. -/
def hp_store (s : lock_free_stack_7_6 T) (hp : Fin max_hazard_pointers) (p : Option Nat) :
    lock_free_stack_7_6 T :=
  { s with hazard_pointers := Function.update s.hazard_pointers hp { s.hazard_pointers hp with pointer := p } }

/-- The member `reclaim_later`, that is `add_to_reclaim_list(new data_to_reclaim(data))`. -/
def reclaim_later (s : lock_free_stack_7_6 T) (data : Nat) : lock_free_stack_7_6 T :=
  { s with nodes_to_reclaim := data :: s.nodes_to_reclaim }

/-- The loop of `delete_nodes_with_no_hazards` over the entries from `current` on; deleting an
entry runs its deleter, which deletes the stack node it holds. -/
def delete_nodes_loop : List Nat → lock_free_stack_7_6 T → Except Fault (lock_free_stack_7_6 T)
  | [], s => pure s
  | data :: next, s =>
    if !outstanding_hazard_pointers_for s.hazard_pointers (some data) then do
      let heap1 ← s.heap.delete (some data)
      delete_nodes_loop next { s with heap := heap1 }
    else
      delete_nodes_loop next (reclaim_later s data)

/-- The member `delete_nodes_with_no_hazards`. -/
def delete_nodes_with_no_hazards (s : lock_free_stack_7_6 T) : Except Fault (lock_free_stack_7_6 T) :=
  delete_nodes_loop s.nodes_to_reclaim { s with nodes_to_reclaim := [] }

/-- The inner loop of `pop`: publish `old_head`, then read `head` again until both agree. -/
def publish_loop : Nat → lock_free_stack_7_6 T → Fin max_hazard_pointers → Option Nat →
    Except Fault (lock_free_stack_7_6 T × Option Nat)
  | 0, _, _, _ => .error .out_of_fuel
  | fuel + 1, s, hp, old_head =>
    let temp := old_head
    let s1 := hp_store s hp old_head
    let old_head1 := s1.head
    if old_head1 ≠ temp then publish_loop fuel s1 hp old_head1 else pure (s1, old_head1)

/-- The outer loop of `pop`, ending with the detached node in `old_head`. -/
def pop_loop (inner : Nat) : Nat → lock_free_stack_7_6 T → Fin max_hazard_pointers → Option Nat →
    Except Fault (lock_free_stack_7_6 T × Option Nat)
  | 0, _, _, _ => .error .out_of_fuel
  | fuel + 1, s, hp, old_head => do
    let (s1, old_head1) ← publish_loop inner s hp old_head
    match old_head1 with
    | none => pure (s1, none)
    | some a =>
      let n ← s1.heap.read a
      match compare_exchange s1.head old_head1 n.next with
      | (true, head1, old_head2) => pure ({ s1 with head := head1 }, old_head2)
      | (false, _, old_head2) => pop_loop inner fuel s1 hp old_head2

/-- The member `push`, inherited from `stack_push<T>`. -/
def push (fuel : Nat) (s : lock_free_stack_7_6 T) (data : T) : Except Fault (lock_free_stack_7_6 T) := do
  let b ← stack_push.push fuel s.tostack_push data
  pure { s with tostack_push := b }

/-- The member `lock_free_stack_7_6<T>::pop`, called by the thread `this_id`. -/
def pop (fuel : Nat) (this_id : Nat) (s : lock_free_stack_7_6 T) :
    Except Fault (Option T × lock_free_stack_7_6 T) := do
  let (hp, s0) ← get_hazard_pointer_for_current_thread this_id s
  let (s1, old_head) ← pop_loop fuel fuel s0 hp s0.head
  let s2 := hp_store s1 hp none
  match old_head with
  | none => pure (none, s2)
  | some a =>
    let n ← s2.heap.read a
    let heap3 ← s2.heap.write a { n with data := none }
    let s3 := { s2 with heap := heap3 }
    let s4 ←
      if outstanding_hazard_pointers_for s3.hazard_pointers old_head then
        pure (reclaim_later s3 a)
      else do
        let heap4 ← s3.heap.delete old_head
        pure { s3 with heap := heap4 }
    let s5 ← delete_nodes_with_no_hazards s4
    pure (n.data, s5)

/-- The destructor, `while (!pop()) {}`. -/
def destroy (fuel : Nat) (this_id : Nat) : Nat → lock_free_stack_7_6 T →
    Except Fault (lock_free_stack_7_6 T)
  | 0, _ => .error .out_of_fuel
  | k + 1, s => do
    let (r, s1) ← pop fuel this_id s
    if r.isNone then destroy fuel this_id k s1 else pure s1

/-- A single-threaded run of pushes and pops by the thread `this_id`. -/
def run (fuel : Nat) (this_id : Nat) (ops : List (Op T)) (s : lock_free_stack_7_6 T) :
    Except Fault (List (Option T) × lock_free_stack_7_6 T) :=
  run_ops (push fuel) (pop fuel this_id) ops s

end lock_free_stack_7_6

/-! ## Listings 7.10 and 7.11: split reference counts -/

/-- The value an `int` holds after an arithmetic result `x` is stored in it (two's complement,
32 bits: the result is taken modulo 2 to the power 32 into the range from minus 2 to the power 31
on). -/
def wrap_int (x : Int) : Int := (x + 2147483648) % 4294967296 - 2147483648

/-- The sum `a + b` of two `int` as it is stored in an `int`: a sum that leaves the range wraps
around. -/
def int_add (a b : Int) : Int := wrap_int (a + b)

namespace stack_ref_counted_data

/-- The struct `counted_node_ptr`. -/
structure counted_node_ptr where
  external_count : Int
  ptr : Option Nat
  deriving DecidableEq, Repr

/-- The struct `stack_ref_counted_data<T>::node`. -/
structure node (T : Type) where
  data : Option T
  internal_count : Int
  next : counted_node_ptr
  deriving DecidableEq, Repr

end stack_ref_counted_data

/-- The class `lock_free_stack_7_11<T>` (with its base `stack_ref_counted_push<T>`): the atomic
`head` and the heap of its nodes. -/
structure lock_free_stack_7_11 (T : Type) where
  heap : Heap (stack_ref_counted_data.node T)
  head : stack_ref_counted_data.counted_node_ptr
  deriving DecidableEq, Repr

namespace lock_free_stack_7_11

open stack_ref_counted_data

variable {T : Type}

/-- A freshly constructed stack: `head` is value-initialised. -/
def fresh : lock_free_stack_7_11 T := ⟨Heap.empty, ⟨0, none⟩⟩

/-- The loop `while (!head.compare_exchange_weak(new_node.ptr->next, new_node, ...));`. -/
def push_loop : Nat → lock_free_stack_7_11 T → counted_node_ptr → Nat →
    Except Fault (lock_free_stack_7_11 T)
  | 0, _, _, _ => .error .out_of_fuel
  | fuel + 1, s, new_node, a => do
    let n ← s.heap.read a
    match compare_exchange s.head n.next new_node with
    | (true, head1, _) => pure { s with head := head1 }
    | (false, _, expected1) =>
      let heap1 ← s.heap.write a { n with next := expected1 }
      push_loop fuel { s with heap := heap1 } new_node a

/-- The member `stack_ref_counted_push<T>::push`. -/
def push (fuel : Nat) (s : lock_free_stack_7_11 T) (data : T) : Except Fault (lock_free_stack_7_11 T) := do
  let (a, heap1) := s.heap.alloc { data := some data, internal_count := 0, next := ⟨0, none⟩ }
  let new_node : counted_node_ptr := ⟨1, some a⟩
  let n ← heap1.read a
  let heap2 ← heap1.write a { n with next := s.head }
  push_loop fuel { s with heap := heap2 } new_node a

/-- The member `increase_head_count(old_counter)`: the result is the new content of `head` and
of `old_counter`. -/
def increase_head_count : Nat → counted_node_ptr → counted_node_ptr →
    Except Fault (counted_node_ptr × counted_node_ptr)
  | 0, _, _ => .error .out_of_fuel
  | fuel + 1, head, old_counter =>
    let new_counter := { old_counter with external_count := wrap_int (old_counter.external_count + 1) }
    match compare_exchange head old_counter new_counter with
    | (true, head1, old1) => pure (head1, { old1 with external_count := new_counter.external_count })
    | (false, _, old1) => increase_head_count fuel head old1

/-- The loop `for (;;)` of `pop`. -/
def pop_loop (inner : Nat) : Nat → lock_free_stack_7_11 T → counted_node_ptr →
    Except Fault (Option T × lock_free_stack_7_11 T)
  | 0, _, _ => .error .out_of_fuel
  | fuel + 1, s, old_head => do
    let (head1, old_head1) ← increase_head_count inner s.head old_head
    let s1 := { s with head := head1 }
    match old_head1.ptr with
    | none => pure (none, s1)
    | some ptr =>
      let n ← s1.heap.read ptr
      match compare_exchange s1.head old_head1 n.next with
      | (true, head2, old_head2) =>
        let heap2 ← s1.heap.write ptr { n with data := none }
        let count_increase := wrap_int (old_head2.external_count - 2)
        let n2 ← heap2.read ptr
        let heap3 ← heap2.write ptr { n2 with internal_count := wrap_int (n2.internal_count + count_increase) }
        let heap4 ← if n2.internal_count = wrap_int (-count_increase) then heap3.delete (some ptr) else pure heap3
        pure (n.data, { heap := heap4, head := head2 })
      | (false, _, old_head2) =>
        let n2 ← s1.heap.read ptr
        let heap2 ← s1.heap.write ptr { n2 with internal_count := wrap_int (n2.internal_count - 1) }
        let heap3 ← if n2.internal_count = 1 then heap2.delete (some ptr) else pure heap2
        pop_loop inner fuel { s1 with heap := heap3 } old_head2

/-- The member `lock_free_stack_7_11<T>::pop`. -/
def pop (fuel : Nat) (s : lock_free_stack_7_11 T) : Except Fault (Option T × lock_free_stack_7_11 T) :=
  pop_loop fuel fuel s s.head

/-- The destructor, `while (!pop());`. -/
def destroy (fuel : Nat) : Nat → lock_free_stack_7_11 T → Except Fault (lock_free_stack_7_11 T)
  | 0, _ => .error .out_of_fuel
  | k + 1, s => do
    let (r, s1) ← pop fuel s
    if r.isNone then destroy fuel k s1 else pure s1

/-- A single-threaded run of pushes and pops. -/
def run (fuel : Nat) (ops : List (Op T)) (s : lock_free_stack_7_11 T) :
    Except Fault (List (Option T) × lock_free_stack_7_11 T) :=
  run_ops (push fuel) (pop fuel) ops s

end lock_free_stack_7_11

/-! ## Listing 7.13: the single-producer, single-consumer queue -/

namespace lock_free_queue_7_13_SPSC

/-- The struct `lock_free_queue_7_13_SPSC<T>::node`. -/
structure node (T : Type) where
  data : Option T
  next : Option Nat
  deriving DecidableEq, Repr

end lock_free_queue_7_13_SPSC

/-- The class `lock_free_queue_7_13_SPSC<T>`: the atomics `head` and `tail` and the heap of its
nodes. -/
structure lock_free_queue_7_13_SPSC (T : Type) where
  heap : Heap (lock_free_queue_7_13_SPSC.node T)
  head : Option Nat
  tail : Option Nat
  deriving DecidableEq, Repr

namespace lock_free_queue_7_13_SPSC

variable {T : Type}

/-- The constructor: `head(new node), tail(head.load())`. -/
def fresh : lock_free_queue_7_13_SPSC T :=
  let (a, heap1) := (Heap.empty : Heap (node T)).alloc { data := none, next := none }
  ⟨heap1, some a, some a⟩

/-- The member `pop_head`. -/
def pop_head (s : lock_free_queue_7_13_SPSC T) :
    Except Fault (Option Nat × lock_free_queue_7_13_SPSC T) :=
  let old_head := s.head
  if old_head = s.tail then pure (none, s)
  else
    match old_head with
    | none => .error .null_deref
    | some a => do
      let n ← s.heap.read a
      pure (old_head, { s with head := n.next })

/-- The member `pop`. -/
def pop (s : lock_free_queue_7_13_SPSC T) :
    Except Fault (Option T × lock_free_queue_7_13_SPSC T) := do
  let (old_head, s1) ← pop_head s
  match old_head with
  | none => pure (none, s1)
  | some a =>
    let n ← s1.heap.read a
    let heap2 ← s1.heap.delete old_head
    pure (n.data, { s1 with heap := heap2 })

/-- The member `push`. -/
def push (s : lock_free_queue_7_13_SPSC T) (new_value : T) :
    Except Fault (lock_free_queue_7_13_SPSC T) :=
  let (p, heap1) := s.heap.alloc { data := none, next := none }
  match s.tail with
  | none => .error .null_deref
  | some old_tail => do
    let n ← heap1.read old_tail
    let heap2 ← heap1.write old_tail { n with data := some new_value }
    let n2 ← heap2.read old_tail
    let heap3 ← heap2.write old_tail { n2 with next := some p }
    pure { s with heap := heap3, tail := some p }

/-- The destructor: `while (node* const old_head = head.load()) { ... }`. -/
def destroy : Nat → lock_free_queue_7_13_SPSC T → Except Fault (lock_free_queue_7_13_SPSC T)
  | 0, _ => .error .out_of_fuel
  | fuel + 1, s =>
    match s.head with
    | none => pure s
    | some old_head => do
      let n ← s.heap.read old_head
      let s1 := { s with head := n.next }
      let heap2 ← s1.heap.delete (some old_head)
      destroy fuel { s1 with heap := heap2 }

/-- A single-threaded run of pushes and pops. -/
def run (ops : List (Op T)) (s : lock_free_queue_7_13_SPSC T) :
    Except Fault (List (Option T) × lock_free_queue_7_13_SPSC T) :=
  run_ops push pop ops s

end lock_free_queue_7_13_SPSC

/-! ## Listing 7.15: the queue with a reference-counted tail -/

namespace lock_free_queue_RC_tail

/-- The struct `counted_node_ptr`. -/
structure counted_node_ptr where
  external_count : Int
  ptr : Option Nat
  deriving DecidableEq, Repr

/-- The struct `node_counter`: the bit-fields `internal_count : 30` and
`external_counters : 2`. -/
structure node_counter where
  internal_count : Nat
  external_counters : Nat
  deriving DecidableEq, Repr

/-- The struct `node`; `data` stands for the `T*` together with the object it points to. -/
structure node (T : Type) where
  data : Option T
  count : node_counter
  next : counted_node_ptr
  deriving DecidableEq, Repr

/-- The constructor of `node`. -/
def node.new {T : Type} : node T := ⟨none, ⟨0, 2⟩, ⟨0, none⟩⟩

/-- The loop of `release_ref` and of `free_external_counter`: store the counter computed by
`update` from the counter last seen. -/
def count_loop {T : Type} (update : node_counter → node_counter) :
    Nat → Heap (node T) → Nat → node_counter → Except Fault (Heap (node T) × node_counter)
  | 0, _, _, _ => .error .out_of_fuel
  | fuel + 1, h, ptr, old_counter => do
    let new_counter := update old_counter
    let n ← h.read ptr
    match compare_exchange n.count old_counter new_counter with
    | (true, count1, _) =>
      let h1 ← h.write ptr { n with count := count1 }
      pure (h1, new_counter)
    | (false, _, old1) => count_loop update fuel h ptr old1

/-- The value of the bit-field `internal_count : 30` after `--internal_count`: one less, and
from 0 the largest value (1073741824 is 2 to the power 30). -/
def internal_dec (x : Nat) : Nat := (if x = 0 then 1073741823 else x - 1) % 1073741824

/-- The counter `release_ref` computes from the one it has seen:
`new_counter = old_counter; --new_counter.internal_count;`. -/
def released (c : node_counter) : node_counter :=
  { c with internal_count := internal_dec c.internal_count }

/-- The counter `free_external_counter` computes from the one it has seen, for a counted pointer
with the given `external_count`: `--new_counter.external_counters;` on a field of 2 bits and
`new_counter.internal_count += count_increase;` on a field of 30 bits, where
`count_increase = external_count - 2`. -/
def freed_external (external_count : Int) (c : node_counter) : node_counter :=
  { external_counters := (c.external_counters + 4 - 1) % 4,
    internal_count :=
      (((c.internal_count : Int) + wrap_int (external_count - 2)) % 1073741824).toNat }

/-- The member `node::release_ref`, called on the node at `ptr`. -/
def release_ref {T : Type} (fuel : Nat) (h : Heap (node T)) (ptr : Option Nat) :
    Except Fault (Heap (node T)) :=
  match ptr with
  | none => .error .null_deref
  | some a => do
    let n ← h.read a
    let old_counter := n.count
    let (h1, new_counter) ← count_loop released fuel h a old_counter
    if new_counter.internal_count = 0 ∧ new_counter.external_counters = 0 then h1.delete (some a)
    else pure h1

/-- The static member `increase_external_count(counter, old_counter)`: the result is the new
content of the atomic `counter` and of `old_counter`. -/
def increase_external_count : Nat → counted_node_ptr → counted_node_ptr →
    Except Fault (counted_node_ptr × counted_node_ptr)
  | 0, _, _ => .error .out_of_fuel
  | fuel + 1, counter, old_counter =>
    let new_counter := { old_counter with external_count := wrap_int (old_counter.external_count + 1) }
    match compare_exchange counter old_counter new_counter with
    | (true, counter1, old1) => pure (counter1, { old1 with external_count := new_counter.external_count })
    | (false, _, old1) => increase_external_count fuel counter old1

/-- The static member `free_external_counter(old_node_ptr)`. -/
def free_external_counter {T : Type} (fuel : Nat) (h : Heap (node T)) (old_node_ptr : counted_node_ptr) :
    Except Fault (Heap (node T)) :=
  match old_node_ptr.ptr with
  | none => .error .null_deref
  | some ptr => do
    let n ← h.read ptr
    let old_counter := n.count
    let (h1, new_counter) ← count_loop (freed_external old_node_ptr.external_count) fuel h ptr
      old_counter
    if new_counter.internal_count = 0 ∧ new_counter.external_counters = 0 then h1.delete (some ptr)
    else pure h1

end lock_free_queue_RC_tail

/-- The class `lock_free_queue_RC_tail<T>`: the atomics `head` and `tail` and the heap of its
nodes. -/
structure lock_free_queue_RC_tail (T : Type) where
  heap : Heap (lock_free_queue_RC_tail.node T)
  head : lock_free_queue_RC_tail.counted_node_ptr
  tail : lock_free_queue_RC_tail.counted_node_ptr
  deriving DecidableEq, Repr

namespace lock_free_queue_RC_tail

variable {T : Type}

/-- The constructor: `head(counted_node_ptr{0, new node}), tail(head.load())`. -/
def fresh : lock_free_queue_RC_tail T :=
  let (a, heap1) := (Heap.empty : Heap (node T)).alloc node.new
  ⟨heap1, ⟨0, some a⟩, ⟨0, some a⟩⟩

/-- The loop `for (;;)` of `push`.  The exchange
`data.compare_exchange_strong(old_data, new_data.get())` expects a null `data` and succeeds
exactly when it finds one. -/
def push_loop (inner : Nat) (new_value : T) (new_next : counted_node_ptr) :
    Nat → lock_free_queue_RC_tail T → counted_node_ptr → Except Fault (lock_free_queue_RC_tail T)
  | 0, _, _ => .error .out_of_fuel
  | fuel + 1, s, old_tail => do
    let (tail1, old_tail1) ← increase_external_count inner s.tail old_tail
    let s1 := { s with tail := tail1 }
    match old_tail1.ptr with
    | none => .error .null_deref
    | some a =>
      let n ← s1.heap.read a
      match n.data with
      | none =>
        let heap2 ← s1.heap.write a { n with data := some new_value }
        let n2 ← heap2.read a
        let heap3 ← heap2.write a { n2 with next := new_next }
        let old_tail2 := s1.tail
        let s3 := { s1 with heap := heap3, tail := new_next }
        let heap4 ← free_external_counter inner s3.heap old_tail2
        pure { s3 with heap := heap4 }
      | some _ =>
        let heap2 ← release_ref inner s1.heap old_tail1.ptr
        push_loop inner new_value new_next fuel { s1 with heap := heap2 } old_tail1

/-- The member `push`. -/
def push (fuel : Nat) (s : lock_free_queue_RC_tail T) (new_value : T) :
    Except Fault (lock_free_queue_RC_tail T) :=
  let (a, heap1) := s.heap.alloc node.new
  let new_next : counted_node_ptr := ⟨1, some a⟩
  push_loop fuel new_value new_next fuel { s with heap := heap1 } s.tail

/-- The loop `for (;;)` of `pop`. -/
def pop_loop (inner : Nat) : Nat → lock_free_queue_RC_tail T → counted_node_ptr →
    Except Fault (Option T × lock_free_queue_RC_tail T)
  | 0, _, _ => .error .out_of_fuel
  | fuel + 1, s, old_head => do
    let (head1, old_head1) ← increase_external_count inner s.head old_head
    let s1 := { s with head := head1 }
    let ptr := old_head1.ptr
    if ptr = s1.tail.ptr then do
      let heap2 ← release_ref inner s1.heap ptr
      pure (none, { s1 with heap := heap2 })
    else
      match ptr with
      | none => .error .null_deref
      | some a => do
        let n ← s1.heap.read a
        match compare_exchange s1.head old_head1 n.next with
        | (true, head2, old_head2) =>
          let s2 := { s1 with head := head2 }
          let n2 ← s2.heap.read a
          let heap3 ← s2.heap.write a { n2 with data := none }
          let heap4 ← free_external_counter inner heap3 old_head2
          pure (n2.data, { s2 with heap := heap4 })
        | (false, _, old_head2) =>
          let heap2 ← release_ref inner s1.heap ptr
          pop_loop inner fuel { s1 with heap := heap2 } old_head2

/-- The member `pop`. -/
def pop (fuel : Nat) (s : lock_free_queue_RC_tail T) :
    Except Fault (Option T × lock_free_queue_RC_tail T) :=
  pop_loop fuel fuel s s.head

/-- The destructor. -/
def destroy : Nat → lock_free_queue_RC_tail T → Except Fault (lock_free_queue_RC_tail T)
  | 0, _ => .error .out_of_fuel
  | fuel + 1, s =>
    let old_head := s.head
    match old_head.ptr with
    | none => pure s
    | some a => do
      let n ← s.heap.read a
      let s1 := { s with head := n.next }
      let heap2 ← s1.heap.delete (some a)
      destroy fuel { s1 with heap := heap2 }

/-- A single-threaded run of pushes and pops. -/
def run (fuel : Nat) (ops : List (Op T)) (s : lock_free_queue_RC_tail T) :
    Except Fault (List (Option T) × lock_free_queue_RC_tail T) :=
  run_ops (push fuel) (pop fuel) ops s

end lock_free_queue_RC_tail

/-! ## Listings 7.20 and 7.21: the queue whose pushers help each other -/

/-- The class `lock_free_queue_RC_tail_modified<T>`.  Its `counted_node_ptr`, `node_counter`,
`node`, `release_ref`, `increase_external_count` and `free_external_counter` repeat those of
`lock_free_queue_RC_tail` word for word (the `next` of a node being atomic), so they are used
from there. -/
structure lock_free_queue_RC_tail_modified (T : Type) where
  heap : Heap (lock_free_queue_RC_tail.node T)
  head : lock_free_queue_RC_tail.counted_node_ptr
  tail : lock_free_queue_RC_tail.counted_node_ptr
  deriving DecidableEq, Repr

namespace lock_free_queue_RC_tail_modified

open lock_free_queue_RC_tail (counted_node_ptr node_counter node release_ref increase_external_count
  free_external_counter)

variable {T : Type}

/-- The constructor: `head(counted_node_ptr{0, new node}), tail(head.load())`. -/
def fresh : lock_free_queue_RC_tail_modified T :=
  let (a, heap1) := (Heap.empty : Heap (node T)).alloc node.new
  ⟨heap1, ⟨0, some a⟩, ⟨0, some a⟩⟩

/-- The loop of `set_new_tail`: the result is the new content of `tail` and of `old_tail`. -/
def set_new_tail_loop (current_tail_ptr : Option Nat) (new_tail : counted_node_ptr) :
    Nat → counted_node_ptr → counted_node_ptr → Except Fault (counted_node_ptr × counted_node_ptr)
  | 0, _, _ => .error .out_of_fuel
  | fuel + 1, tail, old_tail =>
    match compare_exchange tail old_tail new_tail with
    | (true, tail1, old_tail1) => pure (tail1, old_tail1)
    | (false, tail1, old_tail1) =>
      if old_tail1.ptr = current_tail_ptr then set_new_tail_loop current_tail_ptr new_tail fuel tail1 old_tail1
      else pure (tail1, old_tail1)

/-- The member `set_new_tail(old_tail, new_tail)`: the result is the queue and the new content
of `old_tail`. -/
def set_new_tail (fuel : Nat) (s : lock_free_queue_RC_tail_modified T)
    (old_tail new_tail : counted_node_ptr) :
    Except Fault (lock_free_queue_RC_tail_modified T × counted_node_ptr) := do
  let current_tail_ptr := old_tail.ptr
  let (tail1, old_tail1) ← set_new_tail_loop current_tail_ptr new_tail fuel s.tail old_tail
  let s1 := { s with tail := tail1 }
  if old_tail1.ptr = current_tail_ptr then do
    let heap2 ← free_external_counter fuel s1.heap old_tail1
    pure ({ s1 with heap := heap2 }, old_tail1)
  else do
    let heap2 ← release_ref fuel s1.heap current_tail_ptr
    pure ({ s1 with heap := heap2 }, old_tail1)

/-- The loop `for (;;)` of `push`; `new_next` is the spare node of the pusher.  The exchange
`data.compare_exchange_strong(old_data, new_data.get())` expects a null `data` and succeeds
exactly when it finds one. -/
def push_loop (inner : Nat) (new_value : T) :
    Nat → lock_free_queue_RC_tail_modified T → counted_node_ptr → counted_node_ptr →
    Except Fault (lock_free_queue_RC_tail_modified T)
  | 0, _, _, _ => .error .out_of_fuel
  | fuel + 1, s, new_next, old_tail => do
    let (tail1, old_tail1) ← increase_external_count inner s.tail old_tail
    let s1 := { s with tail := tail1 }
    match old_tail1.ptr with
    | none => .error .null_deref
    | some a =>
      let n ← s1.heap.read a
      match n.data with
      | none =>
        let heap2 ← s1.heap.write a { n with data := some new_value }
        let n2 ← heap2.read a
        match compare_exchange n2.next ⟨0, none⟩ new_next with
        | (true, next1, _) =>
          let heap3 ← heap2.write a { n2 with next := next1 }
          let (s4, _) ← set_new_tail inner { s1 with heap := heap3 } old_tail1 new_next
          pure s4
        | (false, _, old_next) =>
          let heap3 ← heap2.delete new_next.ptr
          let (s4, _) ← set_new_tail inner { s1 with heap := heap3 } old_tail1 old_next
          pure s4
      | some _ =>
        match compare_exchange n.next ⟨0, none⟩ new_next with
        | (true, next1, _) =>
          let heap2 ← s1.heap.write a { n with next := next1 }
          let old_next := new_next
          let (p, heap3) := heap2.alloc node.new
          let new_next1 := { new_next with ptr := some p }
          let (s4, old_tail2) ← set_new_tail inner { s1 with heap := heap3 } old_tail1 old_next
          push_loop inner new_value fuel s4 new_next1 old_tail2
        | (false, _, old_next) =>
          let (s4, old_tail2) ← set_new_tail inner s1 old_tail1 old_next
          push_loop inner new_value fuel s4 new_next old_tail2

/-- The member `push`. -/
def push (fuel : Nat) (s : lock_free_queue_RC_tail_modified T) (new_value : T) :
    Except Fault (lock_free_queue_RC_tail_modified T) :=
  let (a, heap1) := s.heap.alloc node.new
  let new_next : counted_node_ptr := ⟨1, some a⟩
  push_loop fuel new_value fuel { s with heap := heap1 } new_next s.tail

/-- The loop `for (;;)` of `pop`. -/
def pop_loop (inner : Nat) : Nat → lock_free_queue_RC_tail_modified T → counted_node_ptr →
    Except Fault (Option T × lock_free_queue_RC_tail_modified T)
  | 0, _, _ => .error .out_of_fuel
  | fuel + 1, s, old_head => do
    let (head1, old_head1) ← increase_external_count inner s.head old_head
    let s1 := { s with head := head1 }
    let ptr := old_head1.ptr
    if ptr = s1.tail.ptr then pure (none, s1)
    else
      match ptr with
      | none => .error .null_deref
      | some a => do
        let n ← s1.heap.read a
        let next := n.next
        match compare_exchange s1.head old_head1 next with
        | (true, head2, old_head2) =>
          let s2 := { s1 with head := head2 }
          let n2 ← s2.heap.read a
          let heap3 ← s2.heap.write a { n2 with data := none }
          let heap4 ← free_external_counter inner heap3 old_head2
          pure (n2.data, { s2 with heap := heap4 })
        | (false, _, old_head2) =>
          let heap2 ← release_ref inner s1.heap ptr
          pop_loop inner fuel { s1 with heap := heap2 } old_head2

/-- The member `pop`. -/
def pop (fuel : Nat) (s : lock_free_queue_RC_tail_modified T) :
    Except Fault (Option T × lock_free_queue_RC_tail_modified T) :=
  pop_loop fuel fuel s s.head

/-- The destructor. -/
def destroy : Nat → lock_free_queue_RC_tail_modified T →
    Except Fault (lock_free_queue_RC_tail_modified T)
  | 0, _ => .error .out_of_fuel
  | fuel + 1, s =>
    let old_head := s.head
    match old_head.ptr with
    | none => pure s
    | some a => do
      let n ← s.heap.read a
      let s1 := { s with head := n.next }
      let heap2 ← s1.heap.delete (some a)
      destroy fuel { s1 with heap := heap2 }

/-- A single-threaded run of pushes and pops. -/
def run (fuel : Nat) (ops : List (Op T)) (s : lock_free_queue_RC_tail_modified T) :
    Except Fault (List (Option T) × lock_free_queue_RC_tail_modified T) :=
  run_ops (push fuel) (pop fuel) ops s

end lock_free_queue_RC_tail_modified

/-! ## Listing 7.21 used by several threads

A producer runs a call of `push` without interruption.  A consumer runs `pop` in two parts, and
other threads may run between them: the first part ends with its first
`increase_external_count(head, old_head)`, the second part is the rest of the call. -/

namespace lock_free_queue_RC_tail_modified

open lock_free_queue_RC_tail (counted_node_ptr node_counter node release_ref increase_external_count
  free_external_counter)

variable {T : Type}

/-- The part of `pop` that follows its first `increase_external_count(head, old_head)`, for a
thread whose `old_head` holds `old_head1`: from `node* const ptr = old_head.ptr;` on.  After a
failed exchange on `head` and `ptr->release_ref()` the thread goes round the loop of `pop`. -/
def pop_after_increase (inner fuel : Nat) (s1 : lock_free_queue_RC_tail_modified T)
    (old_head1 : counted_node_ptr) :
    Except Fault (Option T × lock_free_queue_RC_tail_modified T) :=
  let ptr := old_head1.ptr
  if ptr = s1.tail.ptr then pure (none, s1)
  else
    match ptr with
    | none => .error .null_deref
    | some a => do
      let n ← s1.heap.read a
      let next := n.next
      match compare_exchange s1.head old_head1 next with
      | (true, head2, old_head2) =>
        let s2 := { s1 with head := head2 }
        let n2 ← s2.heap.read a
        let heap3 ← s2.heap.write a { n2 with data := none }
        let heap4 ← free_external_counter inner heap3 old_head2
        pure (n2.data, { s2 with heap := heap4 })
      | (false, _, old_head2) =>
        let heap2 ← release_ref inner s1.heap ptr
        pop_loop inner fuel { s1 with heap := heap2 } old_head2

/-- What a thread does when it is scheduled in a run of several threads on one queue: a producer
runs a call of `push`; a consumer that is not inside `pop` runs the first part of `pop`, and a
consumer that is inside `pop` runs the second part. -/
inductive thread_step (T : Type) where
  | produce (value : T)
  | consume (consumer : Nat)
  deriving DecidableEq, Repr

/-- A run of several threads on one queue: the queue, the `old_head` of every consumer that is
inside `pop`, and the results of the calls of `pop` that have returned, in the order in which
they returned. -/
structure threads_run (T : Type) where
  queue : lock_free_queue_RC_tail_modified T
  inside_pop : List (Nat × counted_node_ptr)
  popped : List (Option T)
  deriving DecidableEq, Repr

/-- The threads before they start, on a freshly constructed queue. -/
def threads_run.fresh : threads_run T := ⟨lock_free_queue_RC_tail_modified.fresh, [], []⟩

/-- One step of a run of several threads; the calls are `push (fuel + 1)` and the two parts of
`pop (fuel + 1)`. -/
def threads_run.step (fuel : Nat) (r : threads_run T) : thread_step T → Except Fault (threads_run T)
  | .produce value => do
    let queue1 ← push (fuel + 1) r.queue value
    pure { r with queue := queue1 }
  | .consume consumer =>
    match r.inside_pop.lookup consumer with
    | none => do
      let (head1, old_head1) ← increase_external_count (fuel + 1) r.queue.head r.queue.head
      pure { r with
        queue := { r.queue with head := head1 }
        inside_pop := (consumer, old_head1) :: r.inside_pop }
    | some old_head1 => do
      let (res, queue1) ← pop_after_increase (fuel + 1) fuel r.queue old_head1
      pure { queue := queue1
             inside_pop := r.inside_pop.filter (fun e => e.1 ≠ consumer)
             popped := r.popped ++ [res] }

/-- A run of several threads, scheduled in the order of `steps`. -/
def run_threads (fuel : Nat) : List (thread_step T) → threads_run T → Except Fault (threads_run T)
  | [], r => pure r
  | step :: steps, r => do
    let r1 ← r.step fuel step
    run_threads fuel steps r1

end lock_free_queue_RC_tail_modified

/-! ## The containers of the specification -/

/-- The results of the pops of a run against the container the specification describes: it holds
the values `l`, the next one to pop first; `put` says where a pushed value goes. -/
def spec_results {T : Type} (put : List T → T → List T) : List (Op T) → List T → List (Option T)
  | [], _ => []
  | Op.push v :: ops, l => spec_results put ops (put l v)
  | Op.pop :: ops, l => l.head? :: spec_results put ops l.tail

/-- The content of the specification's container after a run. -/
def spec_state {T : Type} (put : List T → T → List T) : List (Op T) → List T → List T
  | [], l => l
  | Op.push v :: ops, l => spec_state put ops (put l v)
  | Op.pop :: ops, l => spec_state put ops l.tail

/-- A stack: a pushed value is the next one to pop (last in, first out). -/
def lifo_put {T : Type} (l : List T) (v : T) : List T := v :: l

/-- A queue: a pushed value is popped after every value already there (first in, first out). -/
def fifo_put {T : Type} (l : List T) (v : T) : List T := l ++ [v]

/-- The calls `push(v1); ...; push(vn)`. -/
def pushes {T : Type} (vs : List T) : List (Op T) := vs.map Op.push

/-- The same call `pop()` made `k` times. -/
def pops {T : Type} (k : Nat) : List (Op T) := List.replicate k Op.pop

/-! ## Invariants: what the heap of each container looks like between two calls -/

/-- The chain of nodes starting at the pointer `p` and ending with a null link: `al` lists the
address and the payload of each node, in the order of the links. -/
def Chain {N T : Type} (dataOf : N → Option T) (nextOf : N → Option Nat) (cells : List N) :
    Option Nat → List (Nat × T) → Prop
  | p, [] => p = none
  | p, x :: al => ∃ n, p = some x.1 ∧ cells[x.1]? = some n ∧ dataOf n = some x.2 ∧
      Chain dataOf nextOf cells (nextOf n) al

/-- The state of a heap that holds a stack: the chain from `head` consists of distinct nodes that
have not been deleted, and only allocated addresses have been deleted. -/
structure ChainInv {N T : Type} (dataOf : N → Option T) (nextOf : N → Option Nat) (h : Heap N)
    (head : Option Nat) (al : List (Nat × T)) : Prop where
  chain : Chain dataOf nextOf h.cells head al
  live : ∀ x ∈ al, x.1 ∉ h.freed
  nodup : (al.map Prod.fst).Nodup
  freed_lt : ∀ a ∈ h.freed, a < h.cells.length

namespace stack_push

variable {T : Type}

/-- What a stack over `stack_data<T>::node` looks like when it holds `l`, most recent first. -/
def Holds (h : Heap (stack_data.node T)) (head : Option Nat) (l : List T) : Prop :=
  ∃ al : List (Nat × T), ChainInv stack_data.node.data stack_data.node.next h head al ∧
    al.map Prod.snd = l

end stack_push

namespace lock_free_stack_7_4

variable {T : Type}

/-- Between two calls of a single-threaded run the stack holds `l`, nothing is pending and
nobody is in `pop`. -/
def Holds (s : lock_free_stack_7_4 T) (l : List T) : Prop :=
  stack_push.Holds s.heap s.head l ∧ s.to_delete = none ∧ s.threads_in_pop = 0

end lock_free_stack_7_4

namespace lock_free_stack_7_11

open stack_ref_counted_data

variable {T : Type}

/-- What the split-reference-count stack looks like when it holds `l`, most recent first. -/
def Holds (s : lock_free_stack_7_11 T) (l : List T) : Prop :=
  ∃ al : List (Nat × T), ChainInv node.data (fun n => n.next.ptr) s.heap s.head.ptr al ∧
    al.map Prod.snd = l

end lock_free_stack_7_11

namespace hazardous_pointer_machinery

variable {T : Type}

/-- The first entry of `l` without an owner, if any: the entry a first-fit search claims. -/
def first_free (t : table) (l : List (Fin max_hazard_pointers)) : Option (Fin max_hazard_pointers) :=
  l.find? (fun i => decide ((t i).id = none))

/-- The table after the thread `this_id` has claimed the entry `i`. -/
def claim (this_id : Nat) (t : table) (i : Fin max_hazard_pointers) : table :=
  Function.update t i { t i with id := some this_id }

end hazardous_pointer_machinery

namespace lock_free_stack_7_6

open hazardous_pointer_machinery

variable {T : Type}

/-- The nodes waiting on a list for their deletion: distinct, not deleted, and no longer part of
the chain `al` of the stack. -/
structure Retired (h : Heap (stack_data.node T)) (al : List (Nat × T)) (L : List Nat) : Prop where
  nodup : L.Nodup
  live : ∀ d ∈ L, d ∉ h.freed
  lt : ∀ d ∈ L, d < h.cells.length
  off : ∀ d ∈ L, ∀ x ∈ al, x.1 ≠ d

/-- Between two calls of a single-threaded run: the stack holds `l`, the retire list is sound,
and the thread owns an entry of the hazard table or can still claim one. -/
def Holds (s : lock_free_stack_7_6 T) (l : List T) : Prop :=
  ∃ al : List (Nat × T), ChainInv stack_data.node.data stack_data.node.next s.heap s.head al ∧
    al.map Prod.snd = l ∧ Retired s.heap al s.nodes_to_reclaim ∧
    (s.hazard.isSome ∨ ∃ i, (s.hazard_pointers i).id = none)

/-- The state of `pop` once it has detached the node `n` at `a`, cleared its hazard pointer and
taken the payload: what is left to do is to delete or retire the node. -/
def detached (s : lock_free_stack_7_6 T) (t1 : table) (hp : Fin max_hazard_pointers) (a : Nat)
    (n : stack_data.node T) : lock_free_stack_7_6 T :=
  { heap := ⟨s.heap.cells.set a { n with data := none }, s.heap.freed⟩
    head := n.next
    hazard_pointers := Function.update t1 hp { t1 hp with pointer := none }
    hazard := some hp
    nodes_to_reclaim := s.nodes_to_reclaim }

end lock_free_stack_7_6

/-- The nodes linked from the pointer `p` up to, and without, the node `q` points to: `al` lists
the address and the payload of each of them, in the order of the links. -/
def Seg {N T : Type} (dataOf : N → Option T) (nextOf : N → Option Nat) (cells : List N) :
    Option Nat → Option Nat → List (Nat × T) → Prop
  | p, q, [] => p = q
  | p, q, x :: al => ∃ n, p = some x.1 ∧ cells[x.1]? = some n ∧ dataOf n = some x.2 ∧
      Seg dataOf nextOf cells (nextOf n) q al

/-- The state of a heap that holds a queue: the nodes `al` carry the queued values, oldest first,
and lead from `head` to the node `t` that `tail` points to, which satisfies `sentinel`; the nodes
are distinct and none of them has been deleted. -/
structure QueueInv {N T : Type} (dataOf : N → Option T) (nextOf : N → Option Nat)
    (sentinel : N → Prop) (h : Heap N) (head tail : Option Nat) (al : List (Nat × T)) (t : Nat) :
    Prop where
  seg : Seg dataOf nextOf h.cells head (some t) al
  tail_eq : tail = some t
  tail_node : ∃ n, h.cells[t]? = some n ∧ sentinel n
  nodup : (t :: al.map Prod.fst).Nodup
  live : ∀ a ∈ t :: al.map Prod.fst, a ∉ h.freed
  freed_lt : ∀ a ∈ h.freed, a < h.cells.length

namespace lock_free_queue_7_13_SPSC

variable {T : Type}

/-- The node at `tail`: an empty placeholder without a successor. -/
def is_sentinel (n : node T) : Prop := n.data = none ∧ n.next = none

/-- What the queue looks like when it holds `l`, oldest value first. -/
def Holds (s : lock_free_queue_7_13_SPSC T) (l : List T) : Prop :=
  ∃ (al : List (Nat × T)) (t : Nat),
    QueueInv node.data node.next is_sentinel s.heap s.head s.tail al t ∧ al.map Prod.snd = l

end lock_free_queue_7_13_SPSC

/-- The nodes reachable from a pointer by following `next` links. -/
inductive Reachable {N : Type} (nextOf : N → Option Nat) (cells : List N) : Option Nat → Nat → Prop
  | here (a : Nat) : Reachable nextOf cells (some a) a
  | step (a : Nat) (n : N) (b : Nat) : cells[a]? = some n → Reachable nextOf cells (nextOf n) b →
      Reachable nextOf cells (some a) b

namespace lock_free_queue_RC_tail

variable {T : Type}

/-- The node at `tail`: no payload, no successor, and still counted by both `head` and
`tail`. -/
def is_sentinel (n : node T) : Prop :=
  n.data = none ∧ n.next = ⟨0, none⟩ ∧ n.count.external_counters = 2

/-- What a queue with a reference-counted tail looks like, in its heap and the pointers held by
`head` and `tail`, when it holds `l`, oldest value first. -/
def HoldsIn (h : Heap (node T)) (head tail : counted_node_ptr) (l : List T) : Prop :=
  ∃ (al : List (Nat × T)) (t : Nat),
    QueueInv node.data (fun n => n.next.ptr) is_sentinel h head.ptr tail.ptr al t ∧
      al.map Prod.snd = l

end lock_free_queue_RC_tail

/-! ## Listing 9.7: the lock-based queue for work stealing -/

/-- The class `work_stealing_queue_9_7`: `the_queue` lists the deque from its front.  The type
`function_wrapper` of the items is declared in a header that is not among the sources, so it is
the parameter `data_type`.  Every member holds `the_mutex` from its first to its last statement,
so each member is one step. -/
structure work_stealing_queue_9_7 (data_type : Type) where
  the_queue : List data_type
  deriving DecidableEq, Repr

namespace work_stealing_queue_9_7

variable {data_type : Type}

/-- The constructor. -/
def fresh : work_stealing_queue_9_7 data_type := ⟨[]⟩

/-- The member `push`: `the_queue.push_front(std::move(data))`. -/
def push (q : work_stealing_queue_9_7 data_type) (data : data_type) :
    work_stealing_queue_9_7 data_type :=
  ⟨data :: q.the_queue⟩

/-- The member `empty`. -/
def empty (q : work_stealing_queue_9_7 data_type) : Bool := q.the_queue.isEmpty

/-- The member `try_pop(res)`: the result is the returned `bool`, the queue and the content of
`res` afterwards. -/
def try_pop (q : work_stealing_queue_9_7 data_type) (res : data_type) :
    Bool × work_stealing_queue_9_7 data_type × data_type :=
  match q.the_queue with
  | [] => (false, q, res)
  | front :: rest => (true, ⟨rest⟩, front)

/-- The member `try_steal(res)`: the result is the returned `bool`, the queue and the content of
`res` afterwards. -/
def try_steal (q : work_stealing_queue_9_7 data_type) (res : data_type) :
    Bool × work_stealing_queue_9_7 data_type × data_type :=
  match q.the_queue.getLast? with
  | none => (false, q, res)
  | some back => (true, ⟨q.the_queue.dropLast⟩, back)

/-- The queue after the items `ts` have been pushed, in this order, on a new queue. -/
def pushed (ts : List data_type) : work_stealing_queue_9_7 data_type := ts.foldl push fresh

end work_stealing_queue_9_7

namespace ref_count_delete_machinery

variable {T : Type}

/-- The member `try_reclaim(old_head)` as run by a thread while other threads enter `pop`:
`entered` of them execute the `++threads_in_pop` that starts their `pop` after this thread has
tested `threads_in_pop == 1` and before its `--threads_in_pop`; nothing else interferes.  With
`entered = 0` this is `try_reclaim`. -/
def try_reclaim_entered (entered : Nat) (fuel : Nat) (s : lock_free_stack_7_4 T)
    (old_head : Option Nat) : Except Fault (lock_free_stack_7_4 T) :=
  if s.threads_in_pop = 1 then do
    let nodes_to_delete := s.to_delete
    let s1 := { s with to_delete := none }
    let s1e := { s1 with threads_in_pop := Nat.iterate unsigned_inc entered s1.threads_in_pop }
    let s2 := { s1e with threads_in_pop := unsigned_dec s1e.threads_in_pop }
    let s3 ←
      if s2.threads_in_pop = 0 then do
        let heap1 ← delete_nodes fuel s2.heap nodes_to_delete
        pure { s2 with heap := heap1 }
      else if nodes_to_delete.isSome then chain_pending_nodes fuel s2 nodes_to_delete
      else pure s2
    let heap2 ← s3.heap.delete old_head
    pure { s3 with heap := heap2 }
  else do
    let s1 ← chain_pending_node fuel s old_head
    pure { s1 with threads_in_pop := unsigned_dec s1.threads_in_pop }

end ref_count_delete_machinery

/-- The nodes at the addresses `pl`, linked in this order from the pointer `p` to a null
link. -/
def Links {N : Type} (nextOf : N → Option Nat) (cells : List N) : Option Nat → List Nat → Prop
  | p, [] => p = none
  | p, a :: pl => ∃ n, p = some a ∧ cells[a]? = some n ∧ Links nextOf cells (nextOf n) pl

namespace lock_free_queue_RC_tail_modified

open lock_free_queue_RC_tail (counted_node_ptr node_counter node)

variable {T : Type}

/-- The node at `tail` of a queue on which a pusher has stalled after it won the race to install
its payload `u`: the payload is there, the `next` link is still null, and the node is still
counted by both `head` and `tail`. -/
def is_stalled (u : T) (n : node T) : Prop :=
  n.data = some u ∧ n.next = ⟨0, none⟩ ∧ n.count.external_counters = 2

/-- What the queue looks like when it holds `l`, oldest value first, and a pusher has stalled
with its payload `u` installed in the node at `tail`, before linking a `next` node and before
any advance of `tail`. -/
def Stalled (s : lock_free_queue_RC_tail_modified T) (l : List T) (u : T) : Prop :=
  ∃ (al : List (Nat × T)) (t : Nat),
    QueueInv node.data (fun n => n.next.ptr) (is_stalled u) s.heap s.head.ptr s.tail.ptr al t ∧
      al.map Prod.snd = l

end lock_free_queue_RC_tail_modified

/-! ## Listings 8.2, 8.4, 8.5 and 9.3: parallel versions of `std::accumulate`

The ranges are ranges of `int`, modelled as lists of integers, and the sums are sums of `int`,
which wrap around when they leave the range of `int`.  In Listings 8.2, 8.4 and 8.5 a thread, a
packaged task or an asynchronous call that works on a block only reads the block and writes a
result of its own, and the caller reads that result after `join` or through `get`: the result is
the value the block function returns, whatever the interleaving.  In Listing 9.3 the tasks go
through the queue of a thread pool, which the worker threads of the pool and the caller share.
Lengths are far below 2 to the power 64, so the `unsigned long` arithmetic of the block sizes
does not wrap. -/

/-- The call `std::accumulate(first, last, init)` on the range holding `xs`. -/
def accumulate (xs : List Int) (init : Int) : Int := xs.foldl (fun acc x => int_add acc x) init

/-- The call `operator()(first, last, result)` of `accumulate_block`: the new content of
`result`. -/
def accumulate_block_into (block : List Int) (result : Int) : Int := accumulate block result

/-- The call `operator()(first, last)` of `accumulate_block`. -/
def accumulate_block (block : List Int) : Int := accumulate block 0

/-- The call `std::advance(it, n)` on an iterator with the elements `rest` between it and `last`:
the elements it passes and the elements left.  Passing `last` is a fault. -/
def advance (rest : List Int) (n : Nat) : Except Fault (List Int × List Int) :=
  if n ≤ rest.length then .ok (rest.take n, rest.drop n) else .error .wild_pointer

/-- An `unsigned long` division; dividing by zero is a fault. -/
def divide (a b : Nat) : Except Fault Nat :=
  if b = 0 then .error (.runtime_error "division by zero") else .ok (a / b)

/-- The loop `for (unsigned long i = 0; i < count; ++i)` that hands the blocks to the threads:
each round advances `block_end` by `block_size` from `block_start` and starts `task` on the
block.  The result lists what the tasks produce, in the order of `i`, and what is left of the
range. -/
def start_blocks (task : List Int → Int) (block_size : Nat) :
    Nat → List Int → Except Fault (List Int × List Int)
  | 0, rest => .ok ([], rest)
  | count + 1, rest => do
    let (block, rest1) ← advance rest block_size
    let (results, rest2) ← start_blocks task block_size count rest1
    pure (task block :: results, rest2)

/-- The number of threads `parallel_accumulate_8_2`, `parallel_accumulate_8_4`,
`parallel_find_8_9` and `parallel_partial_sum_8_11` compute for a range of `length` elements. -/
def num_threads_for (hardware_concurrency length : Nat) : Nat :=
  let min_per_thread := 25
  let max_threads := (length + min_per_thread - 1) / min_per_thread
  let hardware_threads := hardware_concurrency
  min (if hardware_threads ≠ 0 then hardware_threads else 2) max_threads

/-- The function `parallel_accumulate_8_2`, where `std::thread::hardware_concurrency()` returns
`hardware_concurrency`. -/
def parallel_accumulate_8_2 (hardware_concurrency : Nat) (xs : List Int) (init : Int) :
    Except Fault Int :=
  let length := xs.length
  if length = 0 then pure init
  else do
    let num_threads := num_threads_for hardware_concurrency length
    let block_size ← divide length num_threads
    let (results, rest) ← start_blocks (fun block => accumulate_block_into block 0) block_size
      (num_threads - 1) xs
    let last_result := accumulate_block_into rest 0
    pure (accumulate (results ++ [last_result]) init)

/-- The function `parallel_accumulate_8_4`. -/
def parallel_accumulate_8_4 (hardware_concurrency : Nat) (xs : List Int) (init : Int) :
    Except Fault Int :=
  let length := xs.length
  if length = 0 then pure init
  else do
    let num_threads := num_threads_for hardware_concurrency length
    let block_size ← divide length num_threads
    let (futures, rest) ← start_blocks accumulate_block block_size (num_threads - 1) xs
    let last_result := accumulate_block rest
    let result := futures.foldl (fun result future => int_add result future) init
    pure (int_add result last_result)

/-- The function `parallel_accumulate_8_5`; `fuel` bounds the depth of its recursion. -/
def parallel_accumulate_8_5 : Nat → List Int → Int → Except Fault Int
  | 0, _, _ => .error .out_of_fuel
  | fuel + 1, xs, init =>
    let length := xs.length
    let max_chunk_size := 25
    if length ≤ max_chunk_size then pure (accumulate xs init)
    else do
      let (first_half, second_half) ← advance xs (length / 2)
      let first_half_result ← parallel_accumulate_8_5 fuel first_half init
      let second_half_result ← parallel_accumulate_8_5 fuel second_half 0
      pure (int_add first_half_result second_half_result)

/-- A task of `parallel_accumulate_9_3` on the queue of the pool: the `std::packaged_task` that
`submit` makes from `std::bind(accumulate_block{}, block_start, block_end)`, given by the block
and by the number of the future that receives its result.  The type `function_wrapper` that holds
it is declared in a header that is not among the sources. -/
structure packaged_task where
  block : List Int
  future : Nat
  deriving DecidableEq, Repr

/-- Where a worker thread of the pool is in `worker_thread`: at the test of `while (!done)`;
inside the `work_queue.pop()` of `run_pending_task`, past its first
`increase_external_count(head, old_head)` with the given `old_head`; or past the loop. -/
inductive worker_pc where
  | idle
  | popping (old_head : lock_free_queue_RC_tail.counted_node_ptr)
  | finished
  deriving DecidableEq, Repr

/-- The class `thread_pool_9_2`: the flag `done`, the queue `work_queue`, and the worker threads,
as many as `std::thread::hardware_concurrency()` returns.  With it are the shared states of the
futures that `submit` has handed out, in the order of submission: `none` until the task has
run, then the value it returned. -/
structure thread_pool_9_2 where
  done : Bool
  work_queue : lock_free_queue_RC_tail_modified packaged_task
  threads : List worker_pc
  futures : List (Option Int)
  deriving DecidableEq, Repr

namespace thread_pool_9_2

/-- The constructor. -/
def fresh (hardware_concurrency : Nat) : thread_pool_9_2 :=
  ⟨false, lock_free_queue_RC_tail_modified.fresh, List.replicate hardware_concurrency .idle, []⟩

/-- The member `submit(f)`, run without interruption, for the task that accumulates `block`: the
task is pushed on `work_queue`, and the result is the pool and the number of the future. -/
def submit (fuel : Nat) (pool : thread_pool_9_2) (block : List Int) :
    Except Fault (thread_pool_9_2 × Nat) := do
  let future := pool.futures.length
  let queue1 ← lock_free_queue_RC_tail_modified.push (fuel + 1) pool.work_queue ⟨block, future⟩
  pure ({ pool with work_queue := queue1, futures := pool.futures ++ [none] }, future)

/-- What the worker thread `i` does when it is scheduled.  At the test of its loop it leaves the
loop when `done` is set, and otherwise enters `work_queue.pop()` and runs it up to and including
its first `increase_external_count(head, old_head)`.  Inside `pop` it runs the rest of the call
and then the task it got, which makes its future ready, or yields when it got none.  The two
parts are those of `pop (fuel + 1)`. -/
def worker_step (fuel : Nat) (pool : thread_pool_9_2) (i : Nat) : Except Fault thread_pool_9_2 :=
  match pool.threads[i]? with
  | none => pure pool
  | some .finished => pure pool
  | some .idle =>
    if pool.done then pure { pool with threads := pool.threads.set i .finished }
    else do
      let (head1, old_head1) ← lock_free_queue_RC_tail.increase_external_count (fuel + 1)
        pool.work_queue.head pool.work_queue.head
      pure { pool with
        work_queue := { pool.work_queue with head := head1 }
        threads := pool.threads.set i (.popping old_head1) }
  | some (.popping old_head1) => do
    let (task, queue1) ← lock_free_queue_RC_tail_modified.pop_after_increase (fuel + 1) fuel
      pool.work_queue old_head1
    let futures1 :=
      match task with
      | some t => pool.futures.set t.future (some (accumulate_block t.block))
      | none => pool.futures
    pure { pool with work_queue := queue1, threads := pool.threads.set i .idle, futures := futures1 }

end thread_pool_9_2

/-- Where the thread that called `parallel_accumulate_9_3` is: before round `i` of the loop that
submits the blocks; before round `i` of the loop `result += futures[i].get()`; in the destructor
of `pool`, where `joiner` waits for the worker threads; or past its `return`. -/
inductive accumulate_9_3_pc where
  | submitting (i : Nat)
  | getting (i : Nat)
  | joining
  | returned
  deriving DecidableEq, Repr

/-- The state of a call of `parallel_accumulate_9_3`: the pool, the calling thread's position,
the elements from `block_start` to `last`, and its variables `futures`, `last_result` and
`result`. -/
structure accumulate_9_3_state where
  pool : thread_pool_9_2
  pc : accumulate_9_3_pc
  block_start : List Int
  futures : List Nat
  last_result : Int
  result : Int
  deriving DecidableEq, Repr

/-- What the calling thread does when it is scheduled.  In the first loop it submits the next
block, and after the loop it accumulates the last block.  In the second loop it takes the value
of `futures[i]` when the future is ready and waits otherwise; after the loop it adds
`last_result`, and the destructor of `pool` sets `done`.  Then `joiner` waits until every worker
thread has left its loop, the destructor of `work_queue` runs, and the call returns. -/
def accumulate_9_3_step (fuel num_blocks : Nat) (s : accumulate_9_3_state) :
    Except Fault accumulate_9_3_state :=
  match s.pc with
  | .submitting i =>
    if i < num_blocks - 1 then do
      let (block, rest) ← advance s.block_start 25
      let (pool1, future) ← s.pool.submit fuel block
      pure { s with pool := pool1, pc := .submitting (i + 1), block_start := rest,
                    futures := s.futures ++ [future] }
    else pure { s with last_result := accumulate_block s.block_start, pc := .getting 0 }
  | .getting i =>
    if i < num_blocks - 1 then
      match s.futures[i]? with
      | none => .error .wild_pointer
      | some future =>
        match s.pool.futures[future]? with
        | some (some value) => pure { s with result := int_add s.result value, pc := .getting (i + 1) }
        | _ => pure s
    else
      pure { s with result := int_add s.result s.last_result, pool := { s.pool with done := true },
                    pc := .joining }
  | .joining =>
    if s.pool.threads.all (fun t => decide (t = .finished)) then do
      let queue1 ← lock_free_queue_RC_tail_modified.destroy fuel s.pool.work_queue
      pure { s with pool := { s.pool with work_queue := queue1 }, pc := .returned }
    else pure s
  | .returned => pure s

/-- The threads of a call of `parallel_accumulate_9_3`, scheduled in the order of `schedule`:
`none` is the calling thread and `some i` the worker thread `i` of the pool. -/
def accumulate_9_3_run (fuel num_blocks : Nat) :
    List (Option Nat) → accumulate_9_3_state → Except Fault accumulate_9_3_state
  | [], s => pure s
  | none :: schedule, s => do
    let s1 ← accumulate_9_3_step fuel num_blocks s
    accumulate_9_3_run fuel num_blocks schedule s1
  | some i :: schedule, s => do
    let pool1 ← s.pool.worker_step fuel i
    accumulate_9_3_run fuel num_blocks schedule { s with pool := pool1 }

/-- The function `parallel_accumulate_9_3`, where `std::thread::hardware_concurrency()` returns
`hardware_concurrency` and the threads run in the order of `schedule`; a schedule that ends
before the call has returned is out of fuel. -/
def parallel_accumulate_9_3 (fuel : Nat) (hardware_concurrency : Nat) (xs : List Int) (init : Int)
    (schedule : List (Option Nat)) : Except Fault Int :=
  let length := xs.length
  if length = 0 then pure init
  else do
    let block_size := 25
    let num_blocks := (length + block_size - 1) / block_size
    let s0 : accumulate_9_3_state :=
      ⟨thread_pool_9_2.fresh hardware_concurrency, .submitting 0, xs, [], 0, init⟩
    let s ← accumulate_9_3_run fuel num_blocks schedule s0
    if s.pc = .returned then pure s.result else .error .out_of_fuel

/-! ## Listings 8.11 and 8.13: partial sums in parallel -/

/-- The loop of `std::partial_sum` after its first element, with the running sum `acc`. -/
def partial_sum_from (acc : Int) : List Int → List Int
  | [] => []
  | x :: xs => int_add acc x :: partial_sum_from (int_add acc x) xs

/-- The call `std::partial_sum(first, last, first)` on the range holding `xs`: the new content of
the range. -/
def partial_sum : List Int → List Int
  | [] => []
  | x :: xs => x :: partial_sum_from x xs

/-- The call operator of `process_chunk` on the chunk from `begin` to `last`, `last` included:
`previous_end_value` is the value its future yields, or `none` for a null pointer, and
`has_end_value` tells whether `end_value` is a promise or a null pointer.  The result is the new
content of the chunk and the value set in the promise.  The chunk holds `*last`, so an empty
chunk is a fault. -/
def process_chunk (chunk : List Int) (previous_end_value : Option Int) (has_end_value : Bool) :
    Except Fault (List Int × Option Int) :=
  let summed := partial_sum chunk
  match summed.getLast? with
  | none => .error .wild_pointer
  | some last_value =>
    match previous_end_value with
    | some addend =>
      let last1 := int_add last_value addend
      let end_value := if has_end_value then some last1 else none
      .ok (summed.dropLast.map (fun item => int_add item addend) ++ [last1], end_value)
    | none => .ok (summed, if has_end_value then some last_value else none)

/-- The loop of `parallel_partial_sum_8_11` that starts the threads.  Each round advances
`block_last` by `block_size - 1` from `block_start`, an `unsigned long` that wraps when
`block_size` is 0, and runs `process_chunk` on the chunk up to `block_last`, with the future of
the chunk before, a null pointer in the first round.  The result is the new content of the
chunks, what is left of the range, and the end value of the last chunk. -/
def chunk_threads (block_size : Nat) :
    Nat → List Int → Option Int → Except Fault (List Int × List Int × Option Int)
  | 0, rest, previous => .ok ([], rest, previous)
  | count + 1, rest, previous =>
    if block_size = 0 then .error .wild_pointer
    else do
      let (chunk, rest1) ← advance rest block_size
      let (chunk1, end_value) ← process_chunk chunk previous true
      let (chunks, rest2, last_end) ← chunk_threads block_size count rest1 end_value
      pure (chunk1 ++ chunks, rest2, last_end)

/-- The data shared by the threads of `parallel_partial_sum_8_13`: the range and `buffer`. -/
structure pairwise_state where
  range : List Int
  buffer : List Int
  deriving DecidableEq, Repr

/-- One pass through the body of the loop of `process_element` for the element `i`, up to its
`b.arrive_and_wait()`: it reads from the data `s0` as it is when the round begins and writes
`dest` in `s`.  The loop condition keeps `i` and `i - stride` inside the range. -/
def process_element_body (i step stride : Nat) (s0 s : pairwise_state) : pairwise_state :=
  let source := if step % 2 = 1 then s0.buffer.getD i 0 else s0.range.getD i 0
  let addend :=
    if step % 2 = 1 then s0.buffer.getD (i - stride) 0 else s0.range.getD (i - stride) 0
  if step % 2 = 1 then { s with range := s.range.set i (int_add source addend) }
  else { s with buffer := s.buffer.set i (int_add source addend) }

/-- What the thread of the element `i` does in the round `step` of the barrier, where `stride` is
2 to the power `step`.  While `stride <= i` it passes through the body of its loop.  In the round
after its last pass (`stride / 2 <= i < stride`) it executes
`if (update_source) { ith_element = buffer[i]; }`, where `update_source` is `!(step % 2)` of that
last pass, and `b.arrive_and_drop()`.  The thread of the element 0 never enters the loop and
leaves in round 0 with `update_source` false.  After that the thread has finished. -/
def process_element_round (i step stride : Nat) (s0 s : pairwise_state) : pairwise_state :=
  if stride ≤ i then process_element_body i step stride s0 s
  else if step ≠ 0 ∧ stride / 2 ≤ i then
    if (step - 1) % 2 = 0 then { s with range := s.range.set i (s0.buffer.getD i 0) } else s
  else s

/-- The rounds of the barrier, all threads in lockstep: in each round every thread does its part
on the data the round began with. -/
def barrier_rounds (length : Nat) : Nat → Nat → Nat → pairwise_state → pairwise_state
  | 0, _, _, s => s
  | count + 1, step, stride, s =>
    let s1 := (List.range length).foldl (fun acc i => process_element_round i step stride s acc) s
    barrier_rounds length count (step + 1) (stride * 2) s1

/-- The function `parallel_partial_sum_8_13`: the new content of the range.  There is one thread
for each element; after `length` rounds of the barrier every thread has finished. -/
def parallel_partial_sum_8_13 (xs : List Int) : List Int :=
  let length := xs.length
  if length ≤ 1 then xs
  else (barrier_rounds length length 0 1 ⟨xs, List.replicate length 0⟩).range

/-! ## Listings 8.9 and 8.10: parallel find

The threads of a search share a flag, and `parallel_find_8_9` a promise as well; they are run one
step at a time in the order a schedule gives, a step being the part of a thread up to and
including its next access to the shared data.  The elements and `match` are of type `int`;
positions are counted from `first`, so that `last` is the length of the range. -/

/-- Where a thread is in `find_element::operator()`: at the test of its loop, at
`result->set_value(begin)`, at `done_flag->store(true)`, or past its `return`. -/
inductive find_element_pc where
  | looping
  | setting
  | storing
  | finished
  deriving DecidableEq, Repr

/-- A thread running `find_element::operator()`: its arguments `begin` and `end`. -/
structure find_element_thread where
  begin : Nat
  block_end : Nat
  pc : find_element_pc
  deriving DecidableEq, Repr

/-- One step of a thread of `parallel_find_8_9`, given the promise `result` (the position it
holds, if it is satisfied) and `done_flag`.  A second `set_value` on the promise throws; the
handler calls `set_exception`, which throws as well, and the inner handler ends the thread. -/
def find_element_step (xs : List Int) (m : Int) (t : find_element_thread) (result : Option Nat)
    (done_flag : Bool) : find_element_thread × Option Nat × Bool :=
  match t.pc with
  | .looping =>
    if t.begin = t.block_end ∨ done_flag = true then ({ t with pc := .finished }, result, done_flag)
    else if xs[t.begin]? = some m then ({ t with pc := .setting }, result, done_flag)
    else ({ t with begin := t.begin + 1 }, result, done_flag)
  | .setting =>
    match result with
    | none => ({ t with pc := .storing }, some t.begin, done_flag)
    | some _ => ({ t with pc := .finished }, result, done_flag)
  | .storing => ({ t with pc := .finished }, result, true)
  | .finished => (t, result, done_flag)

/-- The threads of `parallel_find_8_9` and the data they share. -/
structure find_state_8_9 where
  threads : List find_element_thread
  result : Option Nat
  done_flag : Bool
  deriving DecidableEq, Repr

/-- The thread number `i` takes one step. -/
def find_state_8_9.step (xs : List Int) (m : Int) (s : find_state_8_9) (i : Nat) : find_state_8_9 :=
  match s.threads[i]? with
  | none => s
  | some t =>
    match find_element_step xs m t s.result s.done_flag with
    | (t1, result1, done1) => ⟨s.threads.set i t1, result1, done1⟩

/-- The loop of `parallel_find_8_9` that starts the threads: each round advances `block_end` by
`block_size` from `block_start`, which must not pass `last`.  The result lists the threads and
gives the `block_start` left for the calling thread. -/
def find_blocks (block_size last : Nat) : Nat → Nat → Except Fault (List find_element_thread × Nat)
  | 0, block_start => .ok ([], block_start)
  | count + 1, block_start =>
    if block_start + block_size ≤ last then do
      let (threads, block_start1) ← find_blocks block_size last count (block_start + block_size)
      pure (⟨block_start, block_start + block_size, .looping⟩ :: threads, block_start1)
    else .error .wild_pointer

/-- The function `parallel_find_8_9` on the range holding `xs`: the position it returns.  The
threads it starts and its own call of `find_element` take their steps in the order of
`schedule`; the destructor of `joiner` waits for the threads, and a schedule that ends before
every thread has finished is out of fuel. -/
def parallel_find_8_9 (hardware_concurrency : Nat) (xs : List Int) (m : Int) (schedule : List Nat) :
    Except Fault Nat :=
  let last := xs.length
  let length := xs.length
  if length = 0 then pure last
  else do
    let num_threads := num_threads_for hardware_concurrency length
    let block_size ← divide length num_threads
    let (threads, block_start) ← find_blocks block_size last (num_threads - 1) 0
    let s0 : find_state_8_9 := ⟨threads ++ [⟨block_start, last, .looping⟩], none, false⟩
    let s := schedule.foldl (find_state_8_9.step xs m) s0
    if s.threads.all (fun t => decide (t.pc = .finished)) then
      if s.done_flag = false then pure last
      else
        match s.result with
        | some position => pure position
        | none => .error .out_of_fuel
    else .error .out_of_fuel

/-- Where a call of `parallel_find_impl_8_10` that scans its range is: at the test of its loop,
at `done = true` with the match found at `first`, or returned with a position. -/
inductive find_impl_pc where
  | looping
  | marking
  | returned (position : Nat)
  deriving DecidableEq, Repr

/-- A call of `parallel_find_impl_8_10`: either it scans the range from `first` to `last`
itself, or it has split the range at `mid_point` into a call of its own (`direct`) and an
asynchronous call (`async`). -/
inductive find_call where
  | scan (first last : Nat) (pc : find_impl_pc)
  | split (mid_point : Nat) (direct async : find_call)
  deriving DecidableEq, Repr

namespace find_call

/-- The number of scanning calls. -/
def calls : find_call → Nat
  | scan _ _ _ => 1
  | split _ direct async => direct.calls + async.calls

/-- One step of a scanning call, given the flag `done`: the call and the flag afterwards. -/
def scan_step (xs : List Int) (m : Int) (first last : Nat) (pc : find_impl_pc) (done : Bool) :
    find_call × Bool :=
  match pc with
  | .looping =>
    if first = last ∨ done = true then (scan first last (.returned last), done)
    else if xs[first]? = some m then (scan first last .marking, done)
    else (scan (first + 1) last .looping, done)
  | .marking => (scan first last (.returned first), true)
  | .returned position => (scan first last (.returned position), done)

/-- The scanning call number `i`, counted from the left, takes one step. -/
def step (xs : List Int) (m : Int) : find_call → Nat → Bool → find_call × Bool
  | scan first last pc, i, done =>
    if i = 0 then scan_step xs m first last pc done else (scan first last pc, done)
  | split mid_point direct async, i, done =>
    if i < direct.calls then
      match step xs m direct i done with
      | (direct1, done1) => (split mid_point direct1 async, done1)
    else
      match step xs m async (i - direct.calls) done with
      | (async1, done1) => (split mid_point direct async1, done1)

/-- What a call returns: `(direct_result == mid_point) ? async_result.get() : direct_result`
for a call that has split its range.  A scanning call that has not returned yet keeps its
caller waiting. -/
def result : find_call → Except Fault Nat
  | scan _ _ (.returned position) => .ok position
  | scan _ _ _ => .error .out_of_fuel
  | split mid_point direct async =>
    match direct.result with
    | .ok direct_result => if direct_result = mid_point then async.result else .ok direct_result
    | .error e => .error e

end find_call

/-- The calls `parallel_find_impl_8_10(first, last, match, done)` unfolds into; `fuel` bounds the
depth of the recursion. -/
def parallel_find_impl_8_10 : Nat → Nat → Nat → Except Fault find_call
  | 0, _, _ => .error .out_of_fuel
  | fuel + 1, first, last =>
    let length := last - first
    let min_per_thread := 25
    if length < 2 * min_per_thread then .ok (.scan first last .looping)
    else do
      let mid_point := first + length / 2
      let async_result ← parallel_find_impl_8_10 fuel mid_point last
      let direct_result ← parallel_find_impl_8_10 fuel first mid_point
      pure (.split mid_point direct_result async_result)

/-- The function `parallel_find_8_10` on the range holding `xs`: the position it returns.  The
scanning calls take their steps in the order of `schedule`. -/
def parallel_find_8_10 (xs : List Int) (m : Int) (schedule : List Nat) : Except Fault Nat := do
  let call ← parallel_find_impl_8_10 (xs.length + 1) 0 xs.length
  let final := schedule.foldl (fun (s : find_call × Bool) i => s.1.step xs m i s.2) (call, false)
  final.1.result
namespace find_state_8_9

/-- What holds of a thread of `parallel_find_8_9` that searches the block from `b.1` to `b.2`,
given the promise `result`: while it loops it has found no match before `begin`; at
`set_value` the element at `begin` is a match; at the store of the flag the promise is
satisfied; once finished it has seen the whole block without a match, or the promise is
satisfied. -/
def thread_ok (xs : List Int) (m : Int) (b : Nat × Nat) (result : Option Nat)
    (t : find_element_thread) : Prop :=
  match t.pc with
  | .looping => b.1 ≤ t.begin ∧ t.begin ≤ t.block_end ∧ t.block_end = b.2 ∧
      ∀ j, b.1 ≤ j → j < t.begin → xs[j]? ≠ some m
  | .setting => xs[t.begin]? = some m
  | .storing => result.isSome = true
  | .finished => (∀ j, b.1 ≤ j → j < b.2 → xs[j]? ≠ some m) ∨ result.isSome = true

/-- What holds of the threads of `parallel_find_8_9`, searching `blocks`, and of the data they
share, after any number of steps. -/
structure Inv (xs : List Int) (m : Int) (blocks : List (Nat × Nat)) (s : find_state_8_9) : Prop where
  lengths : s.threads.length = blocks.length
  threads : ∀ (i : Nat) (t : find_element_thread) (b : Nat × Nat), s.threads[i]? = some t →
    blocks[i]? = some b → thread_ok xs m b s.result t
  found : ∀ p, s.result = some p → xs[p]? = some m
  flagged : s.done_flag = true → s.result.isSome = true
  pending : s.result.isSome = true →
    s.done_flag = true ∨
      ∃ (i : Nat) (t : find_element_thread), s.threads[i]? = some t ∧ t.pc = .storing

/-- A bound on the steps a thread has left. -/
def steps_left (t : find_element_thread) : Nat :=
  match t.pc with
  | .looping => (t.block_end - t.begin) + 3
  | .setting => 2
  | .storing => 1
  | .finished => 0

end find_state_8_9
namespace find_call

/-- What holds of a call of `parallel_find_impl_8_10` on the range from `a` to `b`, given the
flag `done`.  A scanning call has found no match before `first` while it loops, and stands on a
match when it is about to set the flag; when it has returned `last`, its range holds no match or
the flag is set; when it has returned another position, that position holds a match and the flag
is set. -/
def ok (xs : List Int) (m : Int) (done : Bool) : Nat → Nat → find_call → Prop
  | a, b, scan first last pc =>
    last = b ∧ a ≤ b ∧
      match pc with
      | .looping => a ≤ first ∧ first ≤ b ∧ ∀ j, a ≤ j → j < first → xs[j]? ≠ some m
      | .marking => a ≤ first ∧ first < b ∧ xs[first]? = some m
      | .returned position =>
        (position = b ∧ ((∀ j, a ≤ j → j < b → xs[j]? ≠ some m) ∨ done = true)) ∨
          (a ≤ position ∧ position < b ∧ xs[position]? = some m ∧ done = true)
  | a, b, split mid_point direct async =>
    a ≤ mid_point ∧ mid_point ≤ b ∧ ok xs m done a mid_point direct ∧ ok xs m done mid_point b async

/-- Some scanning call has returned a position before its `last`. -/
def found : find_call → Prop
  | scan _ last (.returned position) => position < last
  | scan _ _ _ => False
  | split _ direct async => found direct ∨ found async

/-- A bound on the steps the scanning call number `i` has left. -/
def steps_left : find_call → Nat → Nat
  | scan first last pc, i =>
    if i = 0 then
      match pc with
      | .looping => (last - first) + 2
      | .marking => 1
      | .returned _ => 0
    else 0
  | split _ direct async, i =>
    if i < direct.calls then direct.steps_left i else async.steps_left (i - direct.calls)

end find_call

/-! ## Listing 8.7: a parallel version of `std::for_each` -/

/-- The loop of `parallel_for_each_8_7` that starts the threads: each round advances `block_end`
by `block_size` from `block_start` and starts a task that runs `std::for_each` on the block.  The
result lists the block of each task, in the order of `i`, and what is left of the range. -/
def for_each_blocks (block_size : Nat) : Nat → List Int → Except Fault (List (List Int) × List Int)
  | 0, rest => .ok ([], rest)
  | count + 1, rest => do
    let (block, rest1) ← advance rest block_size
    let (blocks, rest2) ← for_each_blocks block_size count rest1
    pure (block :: blocks, rest2)

/-- The function `parallel_for_each_8_7`, where `std::thread::hardware_concurrency()` returns
`hardware_concurrency`: the elements to which each thread applies `f`, in the order in which it
does, the threads in the order of their creation and the calling thread last. -/
def parallel_for_each_8_7 (hardware_concurrency : Nat) (xs : List Int) :
    Except Fault (List (List Int)) :=
  let length := xs.length
  if length = 0 then pure []
  else do
    let num_threads := num_threads_for hardware_concurrency length
    let block_size ← divide length num_threads
    let (blocks, rest) ← for_each_blocks block_size (num_threads - 1) xs
    pure (blocks ++ [rest])

/-- The partial sums of a chunk as `process_chunk` leaves them: those of `std::partial_sum` on the
chunk when no chunk comes before it, and otherwise those continued from the end value `previous`
of the chunk before. -/
def chunk_sums : Option Int → List Int → List Int
  | none, chunk => partial_sum chunk
  | some addend, chunk => partial_sum_from addend chunk

/-! ## Simulation by the containers of the specification -/

theorem run_ops_refines {σ T : Type} (push : σ → T → Except Fault σ)
    (pop : σ → Except Fault (Option T × σ)) (put : List T → T → List T) (R : σ → List T → Prop)
    (hpush : ∀ s l v, R s l → ∃ s1, push s v = .ok s1 ∧ R s1 (put l v))
    (hpop : ∀ s l, R s l → ∃ s1, pop s = .ok (l.head?, s1) ∧ R s1 l.tail) :
    ∀ (ops : List (Op T)) (s : σ) (l : List T), R s l →
      ∃ s1, run_ops push pop ops s = .ok (spec_results put ops l, s1) ∧ R s1 (spec_state put ops l) := by
  intro ops
  induction ops with
  | nil => intro s l h; exact ⟨s, rfl, h⟩
  | cons op ops ih =>
    intro s l h
    cases op with
    | push v =>
      obtain ⟨s1, e1, h1⟩ := hpush s l v h
      obtain ⟨s2, e2, h2⟩ := ih s1 _ h1
      exact ⟨s2, by simp [run_ops, e1, e2, spec_results], by simpa [spec_state] using h2⟩
    | pop =>
      obtain ⟨s1, e1, h1⟩ := hpop s l h
      obtain ⟨s2, e2, h2⟩ := ih s1 _ h1
      exact ⟨s2, by simp [run_ops, e1, e2, spec_results], by simpa [spec_state] using h2⟩

theorem spec_results_append {T : Type} (put : List T → T → List T) (ops1 ops2 : List (Op T)) (l : List T) :
    spec_results put (ops1 ++ ops2) l = spec_results put ops1 l ++ spec_results put ops2 (spec_state put ops1 l) := by
  induction ops1 generalizing l with
  | nil => rfl
  | cons op ops ih => cases op <;> simp [spec_results, spec_state, ih]

theorem spec_results_pushes {T : Type} (put : List T → T → List T) (vs : List T) (l : List T) :
    spec_results put (pushes vs) l = [] := by
  induction vs generalizing l with
  | nil => rfl
  | cons v vs ih => simp [pushes, spec_results] at ih ⊢; exact ih _

theorem spec_state_lifo_pushes {T : Type} (vs : List T) (l : List T) :
    spec_state lifo_put (pushes vs) l = vs.reverse ++ l := by
  induction vs generalizing l with
  | nil => rfl
  | cons v vs ih => simp [pushes, spec_state, lifo_put] at ih ⊢; exact ih _

theorem spec_state_fifo_pushes {T : Type} (vs : List T) (l : List T) :
    spec_state fifo_put (pushes vs) l = l ++ vs := by
  induction vs generalizing l with
  | nil => simp [pushes, spec_state]
  | cons v vs ih => simp [pushes, spec_state, fifo_put] at ih ⊢; rw [ih]; simp

theorem spec_results_pops {T : Type} (put : List T → T → List T) (l : List T) :
    spec_results put (pops (l.length + 1)) l = l.map some ++ [none] := by
  induction l with
  | nil => rfl
  | cons v l ih => simpa [pops, List.replicate_succ, spec_results] using ih

/-! ## Linked chains in a heap -/

section chain

variable {N T : Type} {dataOf : N → Option T} {nextOf : N → Option Nat}

theorem Chain.addr_lt {cells : List N} {p : Option Nat} {al : List (Nat × T)}
    (hc : Chain dataOf nextOf cells p al) : ∀ x ∈ al, x.1 < cells.length := by
  induction al generalizing p with
  | nil => simp
  | cons y al ih =>
    obtain ⟨n, _, hn, _, hrest⟩ := hc
    intro x hx
    rcases List.mem_cons.1 hx with rfl | hx
    · by_contra hlt
      rw [List.getElem?_eq_none (by omega)] at hn
      cases hn
    · exact ih hrest x hx

theorem Chain.same_cells {cells cells1 : List N} {p : Option Nat} {al : List (Nat × T)}
    (hc : Chain dataOf nextOf cells p al) (hsame : ∀ x ∈ al, cells1[x.1]? = cells[x.1]?) :
    Chain dataOf nextOf cells1 p al := by
  induction al generalizing p with
  | nil => exact hc
  | cons y al ih =>
    obtain ⟨n, hp, hn, hd, hrest⟩ := hc
    refine ⟨n, hp, ?_, hd, ih hrest (fun x hx => hsame x (List.mem_cons_of_mem _ hx))⟩
    rw [hsame y (List.mem_cons_self _ _)]
    exact hn

theorem ChainInv.of_empty : ChainInv dataOf nextOf (Heap.empty : Heap N) none ([] : List (Nat × T)) :=
  ⟨rfl, by simp, by simp, by simp [Heap.empty]⟩

theorem ChainInv.fresh_not_freed {h : Heap N} {head : Option Nat} {al : List (Nat × T)}
    (hi : ChainInv dataOf nextOf h head al) : h.cells.length ∉ h.freed :=
  fun hm => absurd (hi.freed_lt _ hm) (lt_irrefl _)

theorem ChainInv.inv_frame {h h1 : Heap N} {p : Option Nat} {al : List (Nat × T)}
    (hi : ChainInv dataOf nextOf h p al) (hsame : ∀ x ∈ al, h1.cells[x.1]? = h.cells[x.1]?)
    (hlive : ∀ x ∈ al, x.1 ∉ h1.freed) (hfreed : ∀ a ∈ h1.freed, a < h1.cells.length) :
    ChainInv dataOf nextOf h1 p al :=
  ⟨hi.chain.same_cells hsame, hlive, hi.nodup, hfreed⟩

theorem ChainInv.inv_push {h : Heap N} {head : Option Nat} {al : List (Nat × T)}
    (hi : ChainInv dataOf nextOf h head al) (n : N) (v : T) (hd : dataOf n = some v)
    (hn : nextOf n = head) :
    ChainInv dataOf nextOf ⟨h.cells ++ [n], h.freed⟩ (some h.cells.length) ((h.cells.length, v) :: al) := by
  have hlt := hi.chain.addr_lt
  refine ⟨⟨n, rfl, by simp, hd, ?_⟩, ?_, ?_, ?_⟩
  · rw [hn]
    refine hi.chain.same_cells (fun x hx => ?_)
    simp [List.getElem?_append_left (hlt x hx)]
  · intro x hx
    rcases List.mem_cons.1 hx with rfl | hx
    · exact hi.fresh_not_freed
    · exact hi.live x hx
  · simp only [List.map_cons, List.nodup_cons]
    refine ⟨?_, hi.nodup⟩
    intro hm
    obtain ⟨x, hx, hxe⟩ := List.mem_map.1 hm
    have := hlt x hx
    omega
  · intro a ha
    have := hi.freed_lt a ha
    simp
    omega

theorem ChainInv.inv_top {h : Heap N} {p : Option Nat} {x : Nat × T} {al : List (Nat × T)}
    (hi : ChainInv dataOf nextOf h p (x :: al)) :
    ∃ n, p = some x.1 ∧ h.cells[x.1]? = some n ∧ dataOf n = some x.2 ∧ x.1 ∉ h.freed ∧
      x.1 < h.cells.length ∧ (∀ y ∈ al, y.1 ≠ x.1) ∧ ChainInv dataOf nextOf h (nextOf n) al := by
  obtain ⟨n, hp, hn, hd, hrest⟩ := hi.chain
  have hnd := hi.nodup
  simp only [List.map_cons, List.nodup_cons] at hnd
  refine ⟨n, hp, hn, hd, hi.live x (List.mem_cons_self _ _),
    hi.chain.addr_lt x (List.mem_cons_self _ _), ?_,
    ⟨hrest, fun y hy => hi.live y (List.mem_cons_of_mem _ hy), hnd.2, hi.freed_lt⟩⟩
  intro y hy he
  exact hnd.1 (List.mem_map.2 ⟨y, hy, he⟩)

end chain

/-! ## Heap accesses -/

namespace Heap

variable {N : Type}

theorem read_ok {h : Heap N} {a : Nat} {n : N} (hf : a ∉ h.freed) (hn : h.cells[a]? = some n) :
    h.read a = .ok n := by
  simp [read, hf, hn]

theorem write_ok {h : Heap N} {a : Nat} (n : N) (hf : a ∉ h.freed) (hlt : a < h.cells.length) :
    h.write a n = .ok ⟨h.cells.set a n, h.freed⟩ := by
  simp [write, hf, hlt]

theorem delete_ok {h : Heap N} {a : Nat} (hf : a ∉ h.freed) (hlt : a < h.cells.length) :
    h.delete (some a) = .ok ⟨h.cells, a :: h.freed⟩ := by
  simp [delete, hf, hlt]

end Heap

/-! ## The stacks refine the stack of the specification -/

namespace stack_push

variable {T : Type}

theorem push_eq (fuel : Nat) (s : stack_push T) (v : T) (hf : s.heap.cells.length ∉ s.heap.freed) :
    push (fuel + 1) s v =
      .ok ⟨⟨s.heap.cells ++ [⟨some v, s.head⟩], s.heap.freed⟩, some s.heap.cells.length⟩ := by
  simp [push, push_loop, Heap.alloc, Heap.read, Heap.write, hf, compare_exchange, bind, Except.bind,
    pure, Except.pure]

theorem detach_loop_none (fuel : Nat) (s : stack_push T) :
    detach_loop (fuel + 1) s none = .ok (s, none) := rfl

theorem detach_loop_some (fuel : Nat) (s : stack_push T) (a : Nat) (n : stack_data.node T)
    (hh : s.head = some a) (hf : a ∉ s.heap.freed) (hn : s.heap.cells[a]? = some n) :
    detach_loop (fuel + 1) s (some a) = .ok ({ s with head := n.next }, some a) := by
  simp [detach_loop, Heap.read_ok hf hn, compare_exchange, hh, bind, Except.bind, pure, Except.pure]

theorem Holds.push_base {s : stack_push T} {l : List T} (h : Holds s.heap s.head l) (fuel : Nat) (v : T) :
    ∃ s1, stack_push.push (fuel + 1) s v = .ok s1 ∧ Holds s1.heap s1.head (v :: l) := by
  obtain ⟨al, hi, hl⟩ := h
  refine ⟨_, push_eq fuel s v hi.fresh_not_freed, (s.heap.cells.length, v) :: al, ?_, by simp [hl]⟩
  exact hi.inv_push ⟨some v, s.head⟩ v rfl rfl

end stack_push

namespace lock_free_stack_7_2

variable {T : Type}

theorem pop_holds_7_2 {s : stack_push T} {l : List T} (h : stack_push.Holds s.heap s.head l) (fuel : Nat) :
    ∃ s1, pop (fuel + 1) s = .ok (l.head?, s1) ∧ stack_push.Holds s1.heap s1.head l.tail := by
  obtain ⟨al, hi, hl⟩ := h
  cases al with
  | nil =>
    have hh : s.head = none := hi.chain
    subst hl
    refine ⟨s, ?_, [], hi, rfl⟩
    simp [pop, hh, stack_push.detach_loop_none, bind, Except.bind, pure, Except.pure]
  | cons x al =>
    obtain ⟨n, hp, hn, hd, hf, _, _, hrest⟩ := hi.inv_top
    subst hl
    refine ⟨{ s with head := n.next }, ?_, al, hrest, rfl⟩
    simp [pop, hp, stack_push.detach_loop_some fuel s x.1 n hp hf hn, Heap.read_ok hf hn, hd, bind,
      Except.bind, pure, Except.pure]

theorem run_refines_7_2 (fuel : Nat) (ops : List (Op T)) (s : stack_push T) (l : List T)
    (h : stack_push.Holds s.heap s.head l) :
    ∃ s1, run (fuel + 1) ops s = .ok (spec_results lifo_put ops l, s1) ∧
      stack_push.Holds s1.heap s1.head (spec_state lifo_put ops l) :=
  run_ops_refines (stack_push.push (fuel + 1)) (pop (fuel + 1)) lifo_put
    (fun s l => stack_push.Holds s.heap s.head l)
    (fun _ _ v h => h.push_base fuel v) (fun _ _ h => pop_holds_7_2 h fuel) ops s l h

theorem fresh_holds_7_2 :
    stack_push.Holds (stack_push.fresh : stack_push T).heap (stack_push.fresh : stack_push T).head [] :=
  ⟨[], ChainInv.of_empty, rfl⟩

end lock_free_stack_7_2

section chain_pop

variable {N T : Type} {dataOf : N → Option T} {nextOf : N → Option Nat}

/-- Detaching the first node: whatever is then written to that node, and whether or not it is
deleted, the rest of the chain is intact. -/
theorem ChainInv.inv_detach {h : Heap N} {p : Option Nat} {x : Nat × T} {al : List (Nat × T)}
    (hi : ChainInv dataOf nextOf h p (x :: al)) (n : N) (hn : h.cells[x.1]? = some n)
    (cells1 : List N) (freed1 : List Nat)
    (hcells : ∀ b, b ≠ x.1 → cells1[b]? = h.cells[b]?) (hlen : cells1.length = h.cells.length)
    (hfreed : ∀ b ∈ freed1, b = x.1 ∨ b ∈ h.freed) :
    ChainInv dataOf nextOf ⟨cells1, freed1⟩ (nextOf n) al := by
  obtain ⟨n1, _, hn1, _, _, hlt, hne, hrest⟩ := hi.inv_top
  rw [hn] at hn1
  cases hn1
  refine hrest.inv_frame (fun y hy => hcells _ (hne y hy)) (fun y hy hm => ?_) (fun b hb => ?_)
  · rcases hfreed _ hm with he | hm
    · exact hne y hy he
    · exact hrest.live y hy hm
  · show b < cells1.length
    rw [hlen]
    rcases hfreed _ hb with he | hm
    · rw [he]; exact hlt
    · exact hi.freed_lt b hm

end chain_pop

namespace lock_free_stack_7_4

variable {T : Type}

theorem push_holds_7_4 {s : lock_free_stack_7_4 T} {l : List T} (h : Holds s l) (fuel : Nat) (v : T) :
    ∃ s1, push (fuel + 1) s v = .ok s1 ∧ Holds s1 (v :: l) := by
  obtain ⟨hs, htd, htp⟩ := h
  obtain ⟨b, hb, hh⟩ := hs.push_base fuel v
  exact ⟨{ s with tostack_push := b }, by simp [push, hb, bind, Except.bind, pure, Except.pure],
    hh, htd, htp⟩

theorem unsigned_inc_zero : unsigned_inc 0 = 1 := by decide

theorem unsigned_dec_one : unsigned_dec 1 = 0 := by decide

theorem try_reclaim_single (fuel : Nat) (s : lock_free_stack_7_4 T) (old_head : Option Nat)
    (h1 : Heap (stack_data.node T)) (htp : s.threads_in_pop = 1) (htd : s.to_delete = none)
    (hdel : s.heap.delete old_head = .ok h1) :
    ref_count_delete_machinery.try_reclaim (fuel + 1) s old_head =
      .ok { s with heap := h1, threads_in_pop := 0 } := by
  obtain ⟨⟨heap, head⟩, td, tp⟩ := s
  simp only at htp htd hdel
  subst htp htd
  unfold ref_count_delete_machinery.try_reclaim
  simp only [if_true, unsigned_dec_one, ref_count_delete_machinery.delete_nodes, bind, Except.bind,
    pure, Except.pure, hdel]

theorem pop_single_none (fuel : Nat) (s : lock_free_stack_7_4 T) (b1 : stack_push T)
    (htp : s.threads_in_pop = 0) (htd : s.to_delete = none)
    (hdet : stack_push.detach_loop (fuel + 1) s.tostack_push s.head = .ok (b1, none)) :
    pop (fuel + 1) s = .ok (none, ⟨b1, none, 0⟩) := by
  have hinc : unsigned_inc s.threads_in_pop = 1 := by rw [htp]; exact unsigned_inc_zero
  unfold pop
  simp only [hdet, bind, Except.bind, pure, Except.pure]
  rw [hinc, try_reclaim_single fuel ⟨⟨b1.heap, b1.head⟩, s.to_delete, 1⟩ none b1.heap rfl htd rfl,
    htd]

theorem pop_single_some (fuel : Nat) (s : lock_free_stack_7_4 T) (b1 : stack_push T) (a : Nat)
    (n : stack_data.node T) (heap2 h1 : Heap (stack_data.node T))
    (htp : s.threads_in_pop = 0) (htd : s.to_delete = none)
    (hdet : stack_push.detach_loop (fuel + 1) s.tostack_push s.head = .ok (b1, some a))
    (hread : b1.heap.read a = .ok n) (hwrite : b1.heap.write a { n with data := none } = .ok heap2)
    (hdel : heap2.delete (some a) = .ok h1) :
    pop (fuel + 1) s = .ok (n.data, ⟨{ b1 with heap := h1 }, none, 0⟩) := by
  have hinc : unsigned_inc s.threads_in_pop = 1 := by rw [htp]; exact unsigned_inc_zero
  unfold pop
  simp only [hdet, hread, hwrite, bind, Except.bind, pure, Except.pure]
  rw [hinc, try_reclaim_single fuel ⟨⟨heap2, b1.head⟩, s.to_delete, 1⟩ (some a) h1 rfl htd hdel,
    htd]

theorem pop_holds_7_4 {s : lock_free_stack_7_4 T} {l : List T} (h : Holds s l) (fuel : Nat) :
    ∃ s1, pop (fuel + 1) s = .ok (l.head?, s1) ∧ Holds s1 l.tail := by
  obtain ⟨⟨al, hi, hl⟩, htd, htp⟩ := h
  subst hl
  cases al with
  | nil =>
    have hh : s.head = none := hi.chain
    refine ⟨⟨s.tostack_push, none, 0⟩, pop_single_none fuel s s.tostack_push htp htd ?_,
      ⟨[], hi, rfl⟩, rfl, rfl⟩
    rw [hh]
    rfl
  | cons x al =>
    obtain ⟨n, hp, hn, hd, hf, hlt, _, _⟩ := hi.inv_top
    have h1 := pop_single_some fuel s ⟨s.heap, n.next⟩ x.1 n
      ⟨s.heap.cells.set x.1 { n with data := none }, s.heap.freed⟩
      ⟨s.heap.cells.set x.1 { n with data := none }, x.1 :: s.heap.freed⟩ htp htd
      (by rw [hp]; exact stack_push.detach_loop_some fuel s.tostack_push x.1 n hp hf hn)
      (Heap.read_ok hf hn) (Heap.write_ok _ hf hlt) (Heap.delete_ok hf (by simpa using hlt))
    refine ⟨⟨⟨⟨s.heap.cells.set x.1 { n with data := none }, x.1 :: s.heap.freed⟩, n.next⟩, none, 0⟩,
      ?_, ⟨al, ?_, rfl⟩, rfl, rfl⟩
    · rw [h1, hd]
      rfl
    · refine hi.inv_detach n hn _ _ (fun b hb => ?_) (by simp) (fun b hb => ?_)
      · simp [List.getElem?_set, Ne.symm hb]
      · simpa using hb

theorem run_refines_7_4 (fuel : Nat) (ops : List (Op T)) (s : lock_free_stack_7_4 T) (l : List T)
    (h : Holds s l) :
    ∃ s1, run (fuel + 1) ops s = .ok (spec_results lifo_put ops l, s1) ∧
      Holds s1 (spec_state lifo_put ops l) :=
  run_ops_refines (push (fuel + 1)) (pop (fuel + 1)) lifo_put Holds
    (fun _ _ v h => push_holds_7_4 h fuel v) (fun _ _ h => pop_holds_7_4 h fuel) ops s l h

theorem fresh_holds_7_4 : Holds (fresh : lock_free_stack_7_4 T) [] :=
  ⟨⟨[], ChainInv.of_empty, rfl⟩, rfl, rfl⟩

end lock_free_stack_7_4

namespace lock_free_stack_7_11

open stack_ref_counted_data

variable {T : Type}

theorem push_holds_7_11 {s : lock_free_stack_7_11 T} {l : List T} (h : Holds s l) (fuel : Nat) (v : T) :
    ∃ s1, push (fuel + 1) s v = .ok s1 ∧ Holds s1 (v :: l) := by
  obtain ⟨al, hi, hl⟩ := h
  have hf := hi.fresh_not_freed
  refine ⟨⟨⟨s.heap.cells ++ [⟨some v, 0, s.head⟩], s.heap.freed⟩, ⟨1, some s.heap.cells.length⟩⟩, ?_,
    (s.heap.cells.length, v) :: al, ?_, by simp [hl]⟩
  · simp [push, push_loop, Heap.alloc, Heap.read, Heap.write, hf, compare_exchange, bind,
      Except.bind, pure, Except.pure]
  · exact hi.inv_push ⟨some v, 0, s.head⟩ v rfl rfl

theorem increase_head_count_eq (fuel : Nat) (c : counted_node_ptr) :
    increase_head_count (fuel + 1) c c =
      .ok (⟨wrap_int (c.external_count + 1), c.ptr⟩, ⟨wrap_int (c.external_count + 1), c.ptr⟩) := by
  simp [increase_head_count, compare_exchange, pure, Except.pure]

theorem pop_holds_7_11 {s : lock_free_stack_7_11 T} {l : List T} (h : Holds s l) (fuel : Nat) :
    ∃ s1, pop (fuel + 1) s = .ok (l.head?, s1) ∧ Holds s1 l.tail := by
  obtain ⟨al, hi, hl⟩ := h
  obtain ⟨heap, ⟨ec, ptr⟩⟩ := s
  cases al with
  | nil =>
    have hh : ptr = none := hi.chain
    subst hl hh
    refine ⟨⟨heap, ⟨wrap_int (ec + 1), none⟩⟩, ?_, [], hi, rfl⟩
    simp [pop, pop_loop, increase_head_count_eq, bind, Except.bind, pure, Except.pure]
  | cons x al =>
    obtain ⟨n, hp, hn, hd, hf, hlt, _, _⟩ := hi.inv_top
    simp only at hp hn hf hlt hi
    subst hl hp
    have hframe : ∀ (m : node T) (freed1 : List Nat), (∀ b ∈ freed1, b = x.1 ∨ b ∈ heap.freed) →
        Holds ⟨⟨(heap.cells.set x.1 { n with data := none }).set x.1 m, freed1⟩, n.next⟩
          (al.map Prod.snd) := by
      intro m freed1 hfr
      refine ⟨al, hi.inv_detach n hn _ _ (fun b hb => ?_) (by simp) hfr, rfl⟩
      simp [List.getElem?_set, Ne.symm hb]
    by_cases hc : n.internal_count = wrap_int (-wrap_int (wrap_int (ec + 1) - 2))
    · refine ⟨_, ?_, hframe ⟨none, wrap_int (n.internal_count + wrap_int (wrap_int (ec + 1) - 2)),
        n.next⟩ (x.1 :: heap.freed) (by simp)⟩
      simp [pop, pop_loop, increase_head_count_eq, Heap.read, Heap.write, Heap.delete, hf, hn, hlt,
        hd, hc, compare_exchange, bind, Except.bind, pure, Except.pure]
    · refine ⟨_, ?_, hframe ⟨none, wrap_int (n.internal_count + wrap_int (wrap_int (ec + 1) - 2)),
        n.next⟩ heap.freed (fun b hb => Or.inr hb)⟩
      simp [pop, pop_loop, increase_head_count_eq, Heap.read, Heap.write, Heap.delete, hf, hn, hlt,
        hd, hc, compare_exchange, bind, Except.bind, pure, Except.pure]

theorem run_refines_7_11 (fuel : Nat) (ops : List (Op T)) (s : lock_free_stack_7_11 T) (l : List T)
    (h : Holds s l) :
    ∃ s1, run (fuel + 1) ops s = .ok (spec_results lifo_put ops l, s1) ∧
      Holds s1 (spec_state lifo_put ops l) :=
  run_ops_refines (push (fuel + 1)) (pop (fuel + 1)) lifo_put Holds
    (fun _ _ v h => push_holds_7_11 h fuel v) (fun _ _ h => pop_holds_7_11 h fuel) ops s l h

theorem fresh_holds_7_11 : Holds (fresh : lock_free_stack_7_11 T) [] :=
  ⟨[], ChainInv.of_empty, rfl⟩

end lock_free_stack_7_11

/-! ## Acquiring a hazard pointer -/

namespace hazardous_pointer_machinery

theorem hp_owner_scan_eq (this_id : Nat) (l : List (Fin max_hazard_pointers)) (t : table) :
    hp_owner_scan this_id l t =
      match first_free t l with
      | some i => (claim this_id t i, some i)
      | none => (t, none) := by
  induction l with
  | nil => rfl
  | cons i l ih =>
    by_cases hi : (t i).id = none
    · simp [hp_owner_scan, first_free, compare_exchange, hi, claim]
    · have hi1 : ¬ none = (t i).id := fun h => hi h.symm
      simp only [hp_owner_scan, compare_exchange, hi, if_false, ih]
      simp [first_free, hi, List.find?_cons]

theorem first_free_isSome (t : table) (h : ∃ i, (t i).id = none) :
    ∃ i, first_free t (List.finRange max_hazard_pointers) = some i := by
  obtain ⟨i, hi⟩ := h
  have : (first_free t (List.finRange max_hazard_pointers)).isSome := by
    rw [first_free, List.find?_isSome]
    exact ⟨i, List.mem_finRange i, by simp [hi]⟩
  exact Option.isSome_iff_exists.1 this

theorem hp_owner_of_free (this_id : Nat) (t : table) (h : ∃ i, (t i).id = none) :
    ∃ i, hp_owner this_id t = (claim this_id t i, .ok i) := by
  obtain ⟨i, hi⟩ := first_free_isSome t h
  exact ⟨i, by simp [hp_owner, hp_owner_scan_eq, hi]⟩

end hazardous_pointer_machinery

namespace lock_free_stack_7_6

open hazardous_pointer_machinery

variable {T : Type}

theorem Retired.of_perm {h : Heap (stack_data.node T)} {al : List (Nat × T)} {L L1 : List Nat}
    (hr : Retired h al L) (hp : L.Perm L1) : Retired h al L1 :=
  ⟨hp.nodup_iff.1 hr.nodup, fun d hd => hr.live d (hp.mem_iff.2 hd),
    fun d hd => hr.lt d (hp.mem_iff.2 hd), fun d hd => hr.off d (hp.mem_iff.2 hd)⟩

theorem delete_nodes_loop_ok (al : List (Nat × T)) :
    ∀ (cur : List Nat) (s : lock_free_stack_7_6 T),
      ChainInv stack_data.node.data stack_data.node.next s.heap s.head al →
      Retired s.heap al (cur ++ s.nodes_to_reclaim) →
      ∃ s1, delete_nodes_loop cur s = .ok s1 ∧
        ChainInv stack_data.node.data stack_data.node.next s1.heap s1.head al ∧
        Retired s1.heap al s1.nodes_to_reclaim ∧ s1.hazard = s.hazard ∧
        s1.hazard_pointers = s.hazard_pointers := by
  intro cur
  induction cur with
  | nil => intro s hc hr; exact ⟨s, rfl, hc, by simpa using hr, rfl, rfl⟩
  | cons d rest ih =>
    intro s hc hr
    have hdm : d ∈ d :: rest ++ s.nodes_to_reclaim := by simp
    have hnd := hr.nodup
    simp only [List.cons_append, List.nodup_cons] at hnd
    by_cases ho : outstanding_hazard_pointers_for s.hazard_pointers (some d) = true
    · have hr1 : Retired (reclaim_later s d).heap al (rest ++ (reclaim_later s d).nodes_to_reclaim) :=
        hr.of_perm (by simpa [reclaim_later] using (List.perm_middle).symm)
      obtain ⟨s1, e1, hc1, hr2, hh, ht⟩ := ih (reclaim_later s d) hc hr1
      exact ⟨s1, by simp [delete_nodes_loop, ho, e1], hc1, hr2, hh, ht⟩
    · have hdel := Heap.delete_ok (hr.live d hdm) (hr.lt d hdm)
      have hc1 : ChainInv stack_data.node.data stack_data.node.next
          (⟨s.heap.cells, d :: s.heap.freed⟩ : Heap (stack_data.node T)) s.head al := by
        refine hc.inv_frame (fun _ _ => rfl) (fun x hx hm => ?_) (fun a ha => ?_)
        · rcases List.mem_cons.1 hm with he | hm
          · exact hr.off d hdm x hx he
          · exact hc.live x hx hm
        · rcases List.mem_cons.1 ha with he | hm
          · rw [he]; exact hr.lt d hdm
          · exact hc.freed_lt a hm
      have hr1 : Retired (⟨s.heap.cells, d :: s.heap.freed⟩ : Heap (stack_data.node T)) al
          (rest ++ s.nodes_to_reclaim) := by
        refine ⟨hnd.2, fun e he hm => ?_, fun e he => hr.lt e (List.mem_cons_of_mem _ he),
          fun e he => hr.off e (List.mem_cons_of_mem _ he)⟩
        rcases List.mem_cons.1 hm with he1 | hm
        · exact hnd.1 (he1 ▸ he)
        · exact hr.live e (List.mem_cons_of_mem _ he) hm
      obtain ⟨s1, e1, hc2, hr2, hh, ht⟩ :=
        ih { s with heap := ⟨s.heap.cells, d :: s.heap.freed⟩ } hc1 hr1
      exact ⟨s1, by simp [delete_nodes_loop, ho, hdel, e1, bind, Except.bind], hc2, hr2, hh, ht⟩

theorem get_hazard_pointer_ok (this_id : Nat) (s : lock_free_stack_7_6 T)
    (h : s.hazard.isSome ∨ ∃ i, (s.hazard_pointers i).id = none) :
    ∃ hp t1, get_hazard_pointer_for_current_thread this_id s =
      .ok (hp, { s with hazard_pointers := t1, hazard := some hp }) := by
  cases hh : s.hazard with
  | some hp =>
    refine ⟨hp, s.hazard_pointers, ?_⟩
    obtain ⟨b, t, hz, r⟩ := s
    simp only at hh
    subst hh
    rfl
  | none =>
    have hfree : ∃ i, (s.hazard_pointers i).id = none := by
      rcases h with h | h
      · simp [hh] at h
      · exact h
    obtain ⟨i, hi⟩ := hp_owner_of_free this_id s.hazard_pointers hfree
    exact ⟨i, claim this_id s.hazard_pointers i,
      by simp [get_hazard_pointer_for_current_thread, hh, hi, pure, Except.pure]⟩

theorem pop_loop_none_7_6 (inner fuel : Nat) (s : lock_free_stack_7_6 T) (hp : Fin max_hazard_pointers)
    (hh : s.head = none) :
    pop_loop (inner + 1) (fuel + 1) s hp none = .ok (hp_store s hp none, none) := by
  simp [pop_loop, publish_loop, hp_store, hh, bind, Except.bind, pure, Except.pure]

theorem pop_loop_some_7_6 (inner fuel : Nat) (s : lock_free_stack_7_6 T) (hp : Fin max_hazard_pointers)
    (a : Nat) (n : stack_data.node T) (hh : s.head = some a) (hf : a ∉ s.heap.freed)
    (hn : s.heap.cells[a]? = some n) :
    pop_loop (inner + 1) (fuel + 1) s hp (some a) =
      .ok ({ hp_store s hp (some a) with head := n.next }, some a) := by
  simp [pop_loop, publish_loop, hp_store, hh, Heap.read, hf, hn, compare_exchange, bind, Except.bind,
    pure, Except.pure]

end lock_free_stack_7_6

namespace lock_free_stack_7_6

open hazardous_pointer_machinery

variable {T : Type}

theorem push_holds_7_6 {s : lock_free_stack_7_6 T} {l : List T} (h : Holds s l) (fuel : Nat) (v : T) :
    ∃ s1, push (fuel + 1) s v = .ok s1 ∧ Holds s1 (v :: l) := by
  obtain ⟨al, hi, hl, hr, hz⟩ := h
  have hlt := hi.chain.addr_lt
  refine ⟨{ s with tostack_push := ⟨⟨s.heap.cells ++ [⟨some v, s.head⟩], s.heap.freed⟩,
      some s.heap.cells.length⟩ }, ?_, (s.heap.cells.length, v) :: al,
    hi.inv_push ⟨some v, s.head⟩ v rfl rfl, by simp [hl], ?_, hz⟩
  · simp [push, stack_push.push_eq fuel s.tostack_push v hi.fresh_not_freed, bind, Except.bind, pure,
      Except.pure]
  · refine ⟨hr.nodup, hr.live, fun d hd => ?_, fun d hd x hx => ?_⟩
    · have := hr.lt d hd
      simp
      omega
    · rcases List.mem_cons.1 hx with rfl | hx
      · have := hr.lt d hd
        simp
        omega
      · exact hr.off d hd x hx

theorem pop_some_retire (fuel this_id : Nat) (s : lock_free_stack_7_6 T) (t1 : table)
    (hp : Fin max_hazard_pointers) (a : Nat) (n : stack_data.node T)
    (hget : get_hazard_pointer_for_current_thread this_id s =
      .ok (hp, { s with hazard_pointers := t1, hazard := some hp }))
    (hh : s.head = some a) (hf : a ∉ s.heap.freed) (hn : s.heap.cells[a]? = some n)
    (ho : outstanding_hazard_pointers_for (detached s t1 hp a n).hazard_pointers (some a) = true) :
    pop (fuel + 1) this_id s =
      match delete_nodes_with_no_hazards (reclaim_later (detached s t1 hp a n) a) with
      | .error e => .error e
      | .ok s5 => .ok (n.data, s5) := by
  have hlt : a < s.heap.cells.length := by
    by_contra hlt
    rw [List.getElem?_eq_none (by omega)] at hn
    cases hn
  have hl := pop_loop_some_7_6 fuel fuel { s with hazard_pointers := t1, hazard := some hp } hp a n hh hf hn
  have ho1 : outstanding_hazard_pointers_for
      (Function.update t1 hp { id := (t1 hp).id, pointer := none }) (some a) = true := ho
  simp only [pop, hget, bind, Except.bind]
  rw [hh, hl]
  simp [hp_store, detached, reclaim_later, Heap.read, Heap.write, Heap.delete, hf, hn, hlt, ho1, bind,
    Except.bind, pure, Except.pure]
  generalize delete_nodes_with_no_hazards _ = r
  cases r <;> rfl

theorem pop_some_delete (fuel this_id : Nat) (s : lock_free_stack_7_6 T) (t1 : table)
    (hp : Fin max_hazard_pointers) (a : Nat) (n : stack_data.node T)
    (hget : get_hazard_pointer_for_current_thread this_id s =
      .ok (hp, { s with hazard_pointers := t1, hazard := some hp }))
    (hh : s.head = some a) (hf : a ∉ s.heap.freed) (hn : s.heap.cells[a]? = some n)
    (ho : outstanding_hazard_pointers_for (detached s t1 hp a n).hazard_pointers (some a) = false) :
    pop (fuel + 1) this_id s =
      match delete_nodes_with_no_hazards
        { detached s t1 hp a n with
          heap := ⟨(detached s t1 hp a n).heap.cells, a :: (detached s t1 hp a n).heap.freed⟩ } with
      | .error e => .error e
      | .ok s5 => .ok (n.data, s5) := by
  have hlt : a < s.heap.cells.length := by
    by_contra hlt
    rw [List.getElem?_eq_none (by omega)] at hn
    cases hn
  have hl := pop_loop_some_7_6 fuel fuel { s with hazard_pointers := t1, hazard := some hp } hp a n hh hf hn
  have ho1 : outstanding_hazard_pointers_for
      (Function.update t1 hp { id := (t1 hp).id, pointer := none }) (some a) = false := ho
  simp only [pop, hget, bind, Except.bind]
  rw [hh, hl]
  simp [hp_store, detached, reclaim_later, Heap.read, Heap.write, Heap.delete, hf, hn, hlt, ho1, bind,
    Except.bind, pure, Except.pure]
  generalize delete_nodes_with_no_hazards _ = r
  cases r <;> rfl

theorem pop_holds_7_6 {s : lock_free_stack_7_6 T} {l : List T} (h : Holds s l) (fuel this_id : Nat) :
    ∃ s1, pop (fuel + 1) this_id s = .ok (l.head?, s1) ∧ Holds s1 l.tail := by
  obtain ⟨al, hi, hl, hr, hz⟩ := h
  obtain ⟨hp, t1, hget⟩ := get_hazard_pointer_ok this_id s hz
  cases al with
  | nil =>
    have hh : s.head = none := hi.chain
    subst hl
    refine ⟨hp_store (hp_store { s with hazard_pointers := t1, hazard := some hp } hp none) hp none,
      ?_, [], hi, rfl, hr, Or.inl rfl⟩
    have hl := pop_loop_none_7_6 fuel fuel { s with hazard_pointers := t1, hazard := some hp } hp hh
    simp only [pop, hget, bind, Except.bind]
    rw [hh, hl]
    rfl
  | cons x al =>
    obtain ⟨n, hhd, hn, hd, hf, hlt, hne, hrest⟩ := hi.inv_top
    subst hl
    have hxoff : x.1 ∉ s.nodes_to_reclaim := fun hm => hr.off x.1 hm x (List.mem_cons_self _ _) rfl
    have hcells : ∀ b, b ≠ x.1 →
        (s.heap.cells.set x.1 { n with data := none })[b]? = s.heap.cells[b]? := by
      intro b hb
      simp [List.getElem?_set, Ne.symm hb]
    have hafter : ∀ s4 : lock_free_stack_7_6 T,
        ChainInv stack_data.node.data stack_data.node.next s4.heap s4.head al →
        Retired s4.heap al s4.nodes_to_reclaim → s4.hazard = some hp →
        ∃ s5, delete_nodes_with_no_hazards s4 = .ok s5 ∧ Holds s5 (al.map Prod.snd) := by
      intro s4 hc4 hr4 hz4
      obtain ⟨s5, e5, hc5, hr5, hz5, _⟩ :=
        delete_nodes_loop_ok al s4.nodes_to_reclaim { s4 with nodes_to_reclaim := [] } hc4
          (by simpa using hr4)
      exact ⟨s5, e5, al, hc5, rfl, hr5, Or.inl (by rw [hz5]; simp [hz4])⟩
    by_cases ho : outstanding_hazard_pointers_for (detached s t1 hp x.1 n).hazard_pointers
        (some x.1) = true
    · obtain ⟨s5, e5, h5⟩ := hafter (reclaim_later (detached s t1 hp x.1 n) x.1)
        (hi.inv_detach n hn _ _ hcells (by simp) (fun b hb => Or.inr hb))
        ⟨List.nodup_cons.2 ⟨hxoff, hr.nodup⟩,
          fun d hd => by
            rcases List.mem_cons.1 hd with rfl | hd
            · exact hf
            · exact hr.live d hd,
          fun d hd => by
            show d < (s.heap.cells.set x.1 _).length
            rw [List.length_set]
            rcases List.mem_cons.1 hd with rfl | hd
            · exact hlt
            · exact hr.lt d hd,
          fun d hd y hy => by
            rcases List.mem_cons.1 hd with rfl | hd
            · exact hne y hy
            · exact hr.off d hd y (List.mem_cons_of_mem _ hy)⟩ rfl
      refine ⟨s5, ?_, h5⟩
      rw [pop_some_retire fuel this_id s t1 hp x.1 n hget hhd hf hn ho, e5, hd]
      rfl
    · obtain ⟨s5, e5, h5⟩ := hafter
        { detached s t1 hp x.1 n with
          heap := ⟨(detached s t1 hp x.1 n).heap.cells, x.1 :: (detached s t1 hp x.1 n).heap.freed⟩ }
        (hi.inv_detach n hn _ _ hcells (by simp [detached]) (fun b hb => by simpa [detached] using hb))
        ⟨hr.nodup,
          fun d hd hm => by
            rcases List.mem_cons.1 hm with he | hm
            · exact hxoff (he ▸ hd)
            · exact hr.live d hd hm,
          fun d hd => by
            show d < (s.heap.cells.set x.1 _).length
            rw [List.length_set]
            exact hr.lt d hd,
          fun d hd y hy => hr.off d hd y (List.mem_cons_of_mem _ hy)⟩ rfl
      refine ⟨s5, ?_, h5⟩
      rw [pop_some_delete fuel this_id s t1 hp x.1 n hget hhd hf hn (by simpa using ho), e5, hd]
      rfl

theorem run_refines_7_6 (fuel this_id : Nat) (ops : List (Op T)) (s : lock_free_stack_7_6 T) (l : List T)
    (h : Holds s l) :
    ∃ s1, run (fuel + 1) this_id ops s = .ok (spec_results lifo_put ops l, s1) ∧
      Holds s1 (spec_state lifo_put ops l) :=
  run_ops_refines (push (fuel + 1)) (pop (fuel + 1) this_id) lifo_put Holds
    (fun _ _ v h => push_holds_7_6 h fuel v) (fun _ _ h => pop_holds_7_6 h fuel this_id) ops s l h

theorem fresh_holds_7_6 (t : table) (h : ∃ i, (t i).id = none) : Holds (fresh t : lock_free_stack_7_6 T) [] :=
  ⟨[], ChainInv.of_empty, rfl, ⟨List.nodup_nil, by simp [fresh], by simp [fresh], by simp⟩, Or.inr h⟩

end lock_free_stack_7_6

/-! ## The claims about the stacks -/

/-- C1: on a freshly constructed `lock_free_stack_7_2`, pushing `v1..vn` from one thread and then
popping `n + 1` times returns `vn, ..., v1` and then the null result; `push(1); push(2); push(3)`
followed by four pops gives 3, 2, 1, null. -/
theorem lifo_of_pushes_then_pops {T : Type} (vs : List T) (fuel : Nat) :
    (∃ s1, lock_free_stack_7_2.run (fuel + 1) (pushes vs ++ pops (vs.length + 1)) stack_push.fresh =
      .ok (vs.reverse.map some ++ [none], s1)) ∧
    (lock_free_stack_7_2.run 1 [Op.push 1, Op.push 2, Op.push 3, Op.pop, Op.pop, Op.pop, Op.pop]
      (stack_push.fresh : stack_push Nat)).map Prod.fst = .ok [some 3, some 2, some 1, none] := by
  refine ⟨?_, by decide⟩
  obtain ⟨s1, h1, _⟩ := lock_free_stack_7_2.run_refines_7_2 fuel (pushes vs ++ pops (vs.length + 1))
    stack_push.fresh [] lock_free_stack_7_2.fresh_holds_7_2
  refine ⟨s1, ?_⟩
  rw [h1, spec_results_append, spec_results_pushes, spec_state_lifo_pushes]
  have hlen : vs.length = (vs.reverse ++ []).length := by simp
  rw [hlen, spec_results_pops]
  simp

/-- C4: for every single-threaded sequence of pushes and pops on freshly constructed stacks, the
leaking stack, the reference-counted stack, the hazard-pointer stack (a free entry of the hazard
table being available) and the split-reference-count stack all run without fault and return the
same pop results, those of the stack of the specification. -/
theorem stack_variants_agree {T : Type} (ops : List (Op T)) (fuel this_id : Nat)
    (t : hazardous_pointer_machinery.table) (hfree : ∃ i, (t i).id = none) :
    (lock_free_stack_7_2.run (fuel + 1) ops stack_push.fresh).map Prod.fst =
      .ok (spec_results lifo_put ops []) ∧
    (lock_free_stack_7_4.run (fuel + 1) ops lock_free_stack_7_4.fresh).map Prod.fst =
      (lock_free_stack_7_2.run (fuel + 1) ops stack_push.fresh).map Prod.fst ∧
    (lock_free_stack_7_6.run (fuel + 1) this_id ops (lock_free_stack_7_6.fresh t)).map Prod.fst =
      (lock_free_stack_7_2.run (fuel + 1) ops stack_push.fresh).map Prod.fst ∧
    (lock_free_stack_7_11.run (fuel + 1) ops lock_free_stack_7_11.fresh).map Prod.fst =
      (lock_free_stack_7_2.run (fuel + 1) ops stack_push.fresh).map Prod.fst := by
  obtain ⟨s2, h2, _⟩ := lock_free_stack_7_2.run_refines_7_2 fuel ops stack_push.fresh []
    lock_free_stack_7_2.fresh_holds_7_2
  obtain ⟨s4, h4, _⟩ := lock_free_stack_7_4.run_refines_7_4 fuel ops lock_free_stack_7_4.fresh []
    lock_free_stack_7_4.fresh_holds_7_4
  obtain ⟨s6, h6, _⟩ := lock_free_stack_7_6.run_refines_7_6 fuel this_id ops
    (lock_free_stack_7_6.fresh t) [] (lock_free_stack_7_6.fresh_holds_7_6 t hfree)
  obtain ⟨s11, h11, _⟩ := lock_free_stack_7_11.run_refines_7_11 fuel ops lock_free_stack_7_11.fresh []
    lock_free_stack_7_11.fresh_holds_7_11
  rw [h2, h4, h6, h11]
  exact ⟨rfl, rfl, rfl, rfl⟩

/-- Witness of C4: the table at program start has a free entry, and the four stacks agree on
`push(1); pop(); pop(); push(2); push(3); pop()`. -/
theorem stack_variants_agree_witness :
    (∃ i, (hazardous_pointer_machinery.table.zero i).id = none) ∧
    (lock_free_stack_7_2.run 1 [Op.push 1, Op.pop, Op.pop, Op.push 2, Op.push 3, Op.pop]
      (stack_push.fresh : stack_push Nat)).map Prod.fst =
      .ok (spec_results lifo_put [Op.push 1, Op.pop, Op.pop, Op.push 2, Op.push 3, Op.pop] []) ∧
    (lock_free_stack_7_11.run 1 [Op.push 1, Op.pop, Op.pop, Op.push 2, Op.push 3, Op.pop]
      (lock_free_stack_7_11.fresh : lock_free_stack_7_11 Nat)).map Prod.fst =
      (lock_free_stack_7_2.run 1 [Op.push 1, Op.pop, Op.pop, Op.push 2, Op.push 3, Op.pop]
        (stack_push.fresh : stack_push Nat)).map Prod.fst :=
  have h := stack_variants_agree [Op.push 1, Op.pop, Op.pop, Op.push 2, Op.push 3, Op.pop] 0 7
    hazardous_pointer_machinery.table.zero ⟨⟨0, by decide⟩, rfl⟩
  ⟨⟨⟨0, by decide⟩, rfl⟩, h.1, h.2.2.2⟩

/-- C5: `pop` on an empty `lock_free_stack_7_2` (its `head` is null) returns the null result
without fault and changes nothing, so `head` stays null; a following `push(v); pop()` returns
`v`. -/
theorem pop_of_empty_stack {T : Type} (s : stack_push T) (fuel : Nat) (v : T)
    (hh : s.head = none) (hw : ∀ a ∈ s.heap.freed, a < s.heap.cells.length) :
    lock_free_stack_7_2.pop (fuel + 1) s = .ok (none, s) ∧
    ∃ s1 s2, stack_push.push (fuel + 1) s v = .ok s1 ∧
      lock_free_stack_7_2.pop (fuel + 1) s1 = .ok (some v, s2) := by
  have hinv : stack_push.Holds s.heap s.head [] := ⟨[], ⟨hh, by simp, by simp, hw⟩, rfl⟩
  refine ⟨?_, ?_⟩
  · simp [lock_free_stack_7_2.pop, hh, stack_push.detach_loop_none, bind, Except.bind, pure,
      Except.pure]
  · obtain ⟨s1, h1, hs1⟩ := hinv.push_base fuel v
    obtain ⟨s2, h2, _⟩ := lock_free_stack_7_2.pop_holds_7_2 hs1 fuel
    exact ⟨s1, s2, h1, h2⟩

/-- Witness of C5: the freshly constructed stack of `Nat` and the value 7. -/
theorem pop_of_empty_stack_witness :
    lock_free_stack_7_2.pop 1 (stack_push.fresh : stack_push Nat) = .ok (none, stack_push.fresh) ∧
    ∃ s1 s2, stack_push.push 1 (stack_push.fresh : stack_push Nat) 7 = .ok s1 ∧
      lock_free_stack_7_2.pop 1 s1 = .ok (some 7, s2) :=
  pop_of_empty_stack stack_push.fresh 0 7 rfl (by simp [stack_push.fresh, Heap.empty])

/-- C7, evaluated on the stacks holding the two values pushed by `push(1); push(2)`: whatever
number of iterations its loop `while (!pop())` is allowed, the destructor of each of the four
stacks returns after a single `pop`, which yields the value 2; the node of the value 1 (at
address 0) is still linked from `head` and has not been deleted. -/
theorem stack_destructor_stops_early (k : Nat) :
    ((lock_free_stack_7_2.run 1 [Op.push 1, Op.push 2] (stack_push.fresh : stack_push Nat)).bind
      (fun r => lock_free_stack_7_2.destroy 1 (k + 1) r.2)).map (fun s => (s.head, s.heap.freed)) =
        .ok (some 0, []) ∧
    ((lock_free_stack_7_4.run 1 [Op.push 1, Op.push 2]
        (lock_free_stack_7_4.fresh : lock_free_stack_7_4 Nat)).bind
      (fun r => lock_free_stack_7_4.destroy 1 (k + 1) r.2)).map (fun s => (s.head, s.heap.freed)) =
        .ok (some 0, [1]) ∧
    ((lock_free_stack_7_6.run 1 7 [Op.push 1, Op.push 2]
        (lock_free_stack_7_6.fresh hazardous_pointer_machinery.table.zero : lock_free_stack_7_6 Nat)).bind
      (fun r => lock_free_stack_7_6.destroy 1 7 (k + 1) r.2)).map (fun s => (s.head, s.heap.freed)) =
        .ok (some 0, [1]) ∧
    ((lock_free_stack_7_11.run 1 [Op.push 1, Op.push 2]
        (lock_free_stack_7_11.fresh : lock_free_stack_7_11 Nat)).bind
      (fun r => lock_free_stack_7_11.destroy 1 (k + 1) r.2)).map (fun s => (s.head.ptr, s.heap.freed)) =
        .ok (some 0, [1]) :=
  ⟨rfl, rfl, rfl, rfl⟩

/-! ## The claims about the queues -/

/-- C9, evaluated on `push(1); pop()` from a freshly constructed queue, for both queues with a
reference-counted tail: the pop returns 1 and unlinks the node at address 0 (`head` now points to
the node at address 1), but no node has been deleted: the counter of the unlinked node is left at
`internal_count = 2^30 - 2`, `external_counters = 0`. -/
theorem unlinked_sentinel_not_deleted :
    (lock_free_queue_RC_tail.run 1 [Op.push 1, Op.pop]
      (lock_free_queue_RC_tail.fresh : lock_free_queue_RC_tail Nat)).map
        (fun r => (r.1, r.2.head.ptr, r.2.heap.freed, r.2.heap.cells.map (fun n => n.count))) =
      .ok ([some 1], some 1, [], [⟨1073741822, 0⟩, ⟨0, 2⟩]) ∧
    (lock_free_queue_RC_tail_modified.run 1 [Op.push 1, Op.pop]
      (lock_free_queue_RC_tail_modified.fresh : lock_free_queue_RC_tail_modified Nat)).map
        (fun r => (r.1, r.2.head.ptr, r.2.heap.freed, r.2.heap.cells.map (fun n => n.count))) =
      .ok ([some 1], some 1, [], [⟨1073741822, 0⟩, ⟨0, 2⟩]) := by
  constructor <;> decide

/-! ## The claim about the hazard table -/

theorem first_free_eq_some_iff (t : hazardous_pointer_machinery.table)
    (i : Fin hazardous_pointer_machinery.max_hazard_pointers) :
    hazardous_pointer_machinery.first_free t (List.finRange hazardous_pointer_machinery.max_hazard_pointers)
        = some i ↔
      (t i).id = none ∧ ∀ j, j < i → (t j).id ≠ none := by
  have hsorted := List.pairwise_lt_finRange hazardous_pointer_machinery.max_hazard_pointers
  rw [hazardous_pointer_machinery.first_free, List.find?_eq_some]
  constructor
  · rintro ⟨hi, as, bs, hl, has⟩
    refine ⟨by simpa using hi, fun j hj hjn => ?_⟩
    have hjm : j ∈ as ++ i :: bs := hl ▸ List.mem_finRange j
    rw [hl, List.pairwise_append] at hsorted
    rcases List.mem_append.1 hjm with hja | hjb
    · have := has j hja
      simp [hjn] at this
    · rcases List.mem_cons.1 hjb with he | hjb
      · exact absurd hj (he ▸ lt_irrefl _)
      · have := (List.pairwise_cons.1 hsorted.2.1).1 j hjb
        exact absurd hj (not_lt.2 (le_of_lt this))
  · rintro ⟨hi, hlow⟩
    obtain ⟨as, bs, hl⟩ := List.append_of_mem (List.mem_finRange i)
    refine ⟨by simpa using hi, as, bs, hl, fun a ha => ?_⟩
    rw [hl, List.pairwise_append] at hsorted
    have hlt : a < i := hsorted.2.2 a ha i (List.mem_cons_self _ _)
    simpa using hlow a hlt

theorem first_free_eq_none_iff (t : hazardous_pointer_machinery.table) :
    hazardous_pointer_machinery.first_free t (List.finRange hazardous_pointer_machinery.max_hazard_pointers)
        = none ↔
      ∀ i, (t i).id ≠ none := by
  rw [hazardous_pointer_machinery.first_free, List.find?_eq_none]
  constructor
  · intro h i
    simpa using h i (List.mem_finRange i)
  · intro h i _
    simpa using h i

/-- C10: acquiring a hazard pointer (the constructor of `hp_owner`) over the table of 100
entries.  If some entry has no owner, the acquisition succeeds with the ownerless entry of lowest
index, whose `id` becomes the calling thread and whose `pointer` is kept, and no other entry
changes; if every entry has an owner it fails with `runtime_error("No hazard pointers available")`
and leaves the table as it was.  It fails exactly when no entry is free. -/
theorem hp_owner_first_fit (this_id : Nat) (t : hazardous_pointer_machinery.table) :
    hazardous_pointer_machinery.max_hazard_pointers = 100 ∧
    (∀ i, ((t i).id = none ∧ ∀ j, j < i → (t j).id ≠ none) ↔
      hazardous_pointer_machinery.hp_owner this_id t =
        (Function.update t i ⟨some this_id, (t i).pointer⟩, .ok i)) ∧
    ((∀ i, (t i).id ≠ none) ↔
      hazardous_pointer_machinery.hp_owner this_id t =
        (t, .error (.runtime_error "No hazard pointers available"))) ∧
    ((∃ i, (t i).id = none) ↔ ∃ i, (hazardous_pointer_machinery.hp_owner this_id t).2 = .ok i) := by
  have hcase : ∀ r, hazardous_pointer_machinery.first_free t
      (List.finRange hazardous_pointer_machinery.max_hazard_pointers) = r →
      hazardous_pointer_machinery.hp_owner this_id t =
        match r with
        | some i => (Function.update t i ⟨some this_id, (t i).pointer⟩, .ok i)
        | none => (t, .error (.runtime_error "No hazard pointers available")) := by
    intro r hr
    rw [hazardous_pointer_machinery.hp_owner, hazardous_pointer_machinery.hp_owner_scan_eq, hr]
    cases r <;> rfl
  refine ⟨rfl, fun i => ?_, ?_, ?_⟩
  · rw [← first_free_eq_some_iff]
    constructor
    · intro h
      exact hcase _ h
    · intro h
      cases hr : hazardous_pointer_machinery.first_free t
          (List.finRange hazardous_pointer_machinery.max_hazard_pointers) with
      | none =>
        rw [hcase _ hr] at h
        cases (Prod.mk.inj h).2
      | some j =>
        rw [hcase _ hr] at h
        cases (Prod.mk.inj h).2
        rfl
  · rw [← first_free_eq_none_iff]
    constructor
    · intro h
      exact hcase _ h
    · intro h
      cases hr : hazardous_pointer_machinery.first_free t
          (List.finRange hazardous_pointer_machinery.max_hazard_pointers) with
      | none => rfl
      | some j =>
        rw [hcase _ hr] at h
        cases (Prod.mk.inj h).2
  · constructor
    · intro h
      obtain ⟨i, hi⟩ := hazardous_pointer_machinery.first_free_isSome t h
      exact ⟨i, by rw [hcase _ hi]⟩
    · rintro ⟨i, hi⟩
      cases hr : hazardous_pointer_machinery.first_free t
          (List.finRange hazardous_pointer_machinery.max_hazard_pointers) with
      | none =>
        rw [hcase _ hr] at hi
        cases hi
      | some j => exact ⟨j, ((first_free_eq_some_iff t j).1 hr).1⟩

/-! ## Queues: the chain from `head` to the sentinel at `tail` -/

section seg

variable {N T : Type} {dataOf : N → Option T} {nextOf : N → Option Nat} {sentinel : N → Prop}

theorem Seg.seg_addr_lt {cells : List N} {p q : Option Nat} {al : List (Nat × T)}
    (hc : Seg dataOf nextOf cells p q al) : ∀ x ∈ al, x.1 < cells.length := by
  induction al generalizing p with
  | nil => simp
  | cons y al ih =>
    obtain ⟨n, _, hn, _, hrest⟩ := hc
    intro x hx
    rcases List.mem_cons.1 hx with rfl | hx
    · by_contra hlt
      rw [List.getElem?_eq_none (by omega)] at hn
      cases hn
    · exact ih hrest x hx

theorem Seg.seg_same_cells {cells cells1 : List N} {p q : Option Nat} {al : List (Nat × T)}
    (hc : Seg dataOf nextOf cells p q al) (hsame : ∀ x ∈ al, cells1[x.1]? = cells[x.1]?) :
    Seg dataOf nextOf cells1 p q al := by
  induction al generalizing p with
  | nil => exact hc
  | cons y al ih =>
    obtain ⟨n, hp, hn, hd, hrest⟩ := hc
    refine ⟨n, hp, ?_, hd, ih hrest (fun x hx => hsame x (List.mem_cons_of_mem _ hx))⟩
    rw [hsame y (List.mem_cons_self _ _)]
    exact hn

theorem Seg.seg_snoc {cells : List N} {p : Option Nat} {al : List (Nat × T)} {t : Nat} {q : Option Nat}
    (hc : Seg dataOf nextOf cells p (some t) al) (n : N) (v : T) (hn : cells[t]? = some n)
    (hd : dataOf n = some v) (hq : nextOf n = q) :
    Seg dataOf nextOf cells p q (al ++ [(t, v)]) := by
  induction al generalizing p with
  | nil =>
    have hp : p = some t := hc
    exact ⟨n, hp, hn, hd, hq⟩
  | cons y al ih =>
    obtain ⟨m, hp, hm, hdm, hrest⟩ := hc
    exact ⟨m, hp, hm, hdm, ih hrest⟩

theorem QueueInv.tail_lt {h : Heap N} {head tail : Option Nat} {al : List (Nat × T)} {t : Nat}
    (hi : QueueInv dataOf nextOf sentinel h head tail al t) : t < h.cells.length := by
  obtain ⟨n, hn, _⟩ := hi.tail_node
  by_contra hlt
  rw [List.getElem?_eq_none (by omega)] at hn
  cases hn

theorem QueueInv.fresh_addr {h : Heap N} {head tail : Option Nat} {al : List (Nat × T)} {t : Nat}
    (hi : QueueInv dataOf nextOf sentinel h head tail al t) :
    h.cells.length ∉ h.freed ∧ h.cells.length ≠ t ∧ ∀ x ∈ al, x.1 ≠ h.cells.length := by
  refine ⟨fun hm => absurd (hi.freed_lt _ hm) (lt_irrefl _), fun he => ?_, fun x hx he => ?_⟩
  · exact absurd hi.tail_lt (he ▸ lt_irrefl _)
  · exact absurd (hi.seg.seg_addr_lt x hx) (he ▸ lt_irrefl _)

/-- The queue after a push: the old sentinel `t` now carries `v` and links to the node
allocated last, which is the new sentinel. -/
theorem QueueInv.enqueue {h : Heap N} {head tail : Option Nat} {al : List (Nat × T)} {t : Nat}
    (hi : QueueInv dataOf nextOf sentinel h head tail al t) (h1 : Heap N) (t1 : Nat) (n nt : N) (v : T)
    (ht1 : t1 = h.cells.length) (hlen : h1.cells.length = h.cells.length + 1)
    (hfreed : h1.freed = h.freed)
    (hsame : ∀ b, b ≠ t → b < h.cells.length → h1.cells[b]? = h.cells[b]?)
    (hn : h1.cells[t]? = some n) (hd : dataOf n = some v) (hnext : nextOf n = some t1)
    (hnt : h1.cells[t1]? = some nt) (hs : sentinel nt) :
    QueueInv dataOf nextOf sentinel h1 head (some t1) (al ++ [(t, v)]) t1 := by
  obtain ⟨hf, hne, hal⟩ := hi.fresh_addr
  have hnd := hi.nodup
  rw [List.nodup_cons] at hnd
  have hlt := hi.seg.seg_addr_lt
  have hseg : Seg dataOf nextOf h1.cells head (some t) al :=
    hi.seg.seg_same_cells (fun x hx => hsame _
      (fun he => hnd.1 (List.mem_map.2 ⟨x, hx, he⟩)) (hlt x hx))
  refine ⟨hseg.seg_snoc n v hn hd hnext, rfl, ⟨nt, hnt, hs⟩, ?_, ?_, ?_⟩
  · simp only [List.map_append, List.map_cons, List.map_nil, List.nodup_cons, List.mem_append,
      List.mem_singleton, List.mem_map]
    refine ⟨?_, List.Nodup.append hnd.2 (List.nodup_singleton _) ?_⟩
    · rintro (⟨x, hx, he⟩ | he)
      · exact hal x hx (he.trans ht1)
      · exact hne (ht1.symm.trans he)
    · intro a ha hat
      rw [List.mem_singleton] at hat
      exact hnd.1 (hat ▸ ha)
  · intro a ha
    rw [hfreed]
    rcases List.mem_cons.1 ha with he | ha
    · rw [he, ht1]; exact hf
    · simp only [List.map_append, List.map_cons, List.map_nil, List.mem_append,
        List.mem_singleton] at ha
      rcases ha with ha | he
      · exact hi.live a (List.mem_cons_of_mem _ ha)
      · rw [he]; exact hi.live t (List.mem_cons_self _ _)
  · intro a ha
    rw [hfreed] at ha
    have := hi.freed_lt a ha
    omega

/-- The first node of a queue that is not empty. -/
theorem QueueInv.front {h : Heap N} {head tail : Option Nat} {x : Nat × T} {al : List (Nat × T)}
    {t : Nat} (hi : QueueInv dataOf nextOf sentinel h head tail (x :: al) t) :
    ∃ n, head = some x.1 ∧ h.cells[x.1]? = some n ∧ dataOf n = some x.2 ∧ x.1 ∉ h.freed ∧
      x.1 < h.cells.length ∧ x.1 ≠ t ∧ head ≠ tail := by
  obtain ⟨n, hp, hn, hd, _⟩ := hi.seg
  have hnd := hi.nodup
  simp only [List.map_cons, List.nodup_cons, List.mem_cons, not_or] at hnd
  have hne : x.1 ≠ t := fun he => hnd.1.1 he.symm
  refine ⟨n, hp, hn, hd, hi.live x.1 (by simp), hi.seg.seg_addr_lt x (List.mem_cons_self _ _), hne, ?_⟩
  rw [hp, hi.tail_eq]
  exact fun he => hne (Option.some.inj he)

/-- The queue after a pop: whatever is written to the detached node `x`, and whether or not it
is deleted, the rest of the queue is intact. -/
theorem QueueInv.dequeue {h : Heap N} {head tail : Option Nat} {x : Nat × T} {al : List (Nat × T)}
    {t : Nat} (hi : QueueInv dataOf nextOf sentinel h head tail (x :: al) t) (n : N)
    (hn : h.cells[x.1]? = some n) (h1 : Heap N)
    (hcells : ∀ b, b ≠ x.1 → h1.cells[b]? = h.cells[b]?) (hlen : h1.cells.length = h.cells.length)
    (hfreed : ∀ b ∈ h1.freed, b = x.1 ∨ b ∈ h.freed) :
    QueueInv dataOf nextOf sentinel h1 (nextOf n) tail al t := by
  obtain ⟨n1, _, hn1, _, hrest⟩ := hi.seg
  rw [hn] at hn1
  cases hn1
  obtain ⟨_, _, _, _, _, hlt, hne, _⟩ := hi.front
  have hnd := hi.nodup
  simp only [List.map_cons, List.nodup_cons, List.mem_cons, not_or] at hnd
  obtain ⟨nt, hnt, hs⟩ := hi.tail_node
  refine ⟨hrest.seg_same_cells (fun y hy => hcells _ ?_), hi.tail_eq,
    ⟨nt, by rw [hcells t (Ne.symm hne)]; exact hnt, hs⟩, ?_, ?_, ?_⟩
  · intro he
    exact hnd.2.1 (List.mem_map.2 ⟨y, hy, he⟩)
  · exact List.nodup_cons.2 ⟨hnd.1.2, hnd.2.2⟩
  · intro a ha hm
    rcases hfreed a hm with he | hm
    · rcases List.mem_cons.1 ha with hat | ha
      · exact hne (he.symm.trans hat)
      · exact hnd.2.1 (he ▸ ha)
    · rcases List.mem_cons.1 ha with hat | ha
      · exact hi.live t (List.mem_cons_self _ _) (hat ▸ hm)
      · exact hi.live a (by simp [ha]) hm
  · intro b hb
    rw [hlen]
    rcases hfreed b hb with he | hm
    · rw [he]; exact hlt
    · exact hi.freed_lt b hm

end seg

namespace lock_free_queue_7_13_SPSC

variable {T : Type}

theorem fresh_holds_SPSC : Holds (fresh : lock_free_queue_7_13_SPSC T) [] :=
  ⟨[], 0, ⟨rfl, rfl, ⟨⟨none, none⟩, rfl, rfl, rfl⟩, by simp, by simp [fresh, Heap.alloc, Heap.empty],
    by simp [fresh, Heap.alloc, Heap.empty]⟩, rfl⟩

theorem push_holds_SPSC {s : lock_free_queue_7_13_SPSC T} {l : List T} (h : Holds s l) (v : T) :
    ∃ s1, push s v = .ok s1 ∧ Holds s1 (l ++ [v]) := by
  obtain ⟨al, t, hi, hl⟩ := h
  obtain ⟨nt, hnt, hs⟩ := hi.tail_node
  have htf : t ∉ s.heap.freed := hi.live t (List.mem_cons_self _ _)
  have hlt := hi.tail_lt
  have hlt1 : t < (s.heap.cells ++ [(⟨none, none⟩ : node T)]).length := by simp; omega
  have hne : t ≠ s.heap.cells.length := Nat.ne_of_lt hlt
  have e1 : (⟨s.heap.cells ++ [(⟨none, none⟩ : node T)], s.heap.freed⟩ : Heap (node T)).read t = .ok nt :=
    Heap.read_ok htf (by rw [List.getElem?_append_left hlt]; exact hnt)
  have e2 := Heap.write_ok (h := (⟨s.heap.cells ++ [(⟨none, none⟩ : node T)], s.heap.freed⟩ : Heap (node T)))
    ⟨some v, nt.next⟩ htf hlt1
  have e3 : (⟨(s.heap.cells ++ [(⟨none, none⟩ : node T)]).set t ⟨some v, nt.next⟩, s.heap.freed⟩ :
      Heap (node T)).read t = .ok ⟨some v, nt.next⟩ :=
    Heap.read_ok htf (List.getElem?_set_self hlt1)
  have e4 := Heap.write_ok
    (h := (⟨(s.heap.cells ++ [(⟨none, none⟩ : node T)]).set t ⟨some v, nt.next⟩, s.heap.freed⟩ : Heap (node T)))
    ⟨some v, some s.heap.cells.length⟩ htf (by simpa using hlt1)
  refine ⟨⟨⟨((s.heap.cells ++ [(⟨none, none⟩ : node T)]).set t ⟨some v, nt.next⟩).set t
    ⟨some v, some s.heap.cells.length⟩, s.heap.freed⟩, s.head, some s.heap.cells.length⟩, ?_,
    al ++ [(t, v)], s.heap.cells.length, ?_, by simp [hl]⟩
  · simp only [push, Heap.alloc, hi.tail_eq, e1, e2, e3, e4, bind, Except.bind, pure, Except.pure]
  · refine hi.enqueue _ _ ⟨some v, some s.heap.cells.length⟩ (⟨none, none⟩ : node T) v rfl (by simp) rfl
      (fun b hb hblt => ?_) ?_ rfl rfl ?_ ⟨rfl, rfl⟩
    · show (((s.heap.cells ++ [(⟨none, none⟩ : node T)]).set t ⟨some v, nt.next⟩).set t
        ⟨some v, some s.heap.cells.length⟩)[b]? = s.heap.cells[b]?
      rw [List.getElem?_set_ne (Ne.symm hb), List.getElem?_set_ne (Ne.symm hb),
        List.getElem?_append_left hblt]
    · exact List.getElem?_set_self (by simpa using hlt1)
    · show (((s.heap.cells ++ [(⟨none, none⟩ : node T)]).set t ⟨some v, nt.next⟩).set t
        ⟨some v, some s.heap.cells.length⟩)[s.heap.cells.length]? = some (⟨none, none⟩ : node T)
      rw [List.getElem?_set_ne hne, List.getElem?_set_ne hne, List.getElem?_concat_length]

theorem pop_holds_SPSC {s : lock_free_queue_7_13_SPSC T} {l : List T} (h : Holds s l) :
    ∃ s1, pop s = .ok (l.head?, s1) ∧ Holds s1 l.tail := by
  obtain ⟨al, t, hi, hl⟩ := h
  subst hl
  cases al with
  | nil =>
    have hh : s.head = some t := hi.seg
    refine ⟨s, ?_, [], t, hi, rfl⟩
    simp [pop, pop_head, hh, hi.tail_eq, bind, Except.bind, pure, Except.pure]
  | cons x al =>
    obtain ⟨n, hp, hn, hd, hf, hlt, _, hne⟩ := hi.front
    refine ⟨⟨⟨s.heap.cells, x.1 :: s.heap.freed⟩, n.next, s.tail⟩, ?_, al, t, ?_, rfl⟩
    · have hne1 : ¬ some x.1 = s.tail := hp ▸ hne
      simp [pop, pop_head, hp, hne1, Heap.read, Heap.delete, hf, hn, hlt, hd, bind, Except.bind, pure,
        Except.pure]
    · exact hi.dequeue n hn _ (fun _ _ => rfl) rfl (fun b hb => by simpa using hb)

theorem run_refines_SPSC (ops : List (Op T)) (s : lock_free_queue_7_13_SPSC T) (l : List T)
    (h : Holds s l) :
    ∃ s1, run ops s = .ok (spec_results fifo_put ops l, s1) ∧ Holds s1 (spec_state fifo_put ops l) :=
  run_ops_refines push pop fifo_put Holds (fun _ _ v h => push_holds_SPSC h v)
    (fun _ _ h => pop_holds_SPSC h) ops s l h

end lock_free_queue_7_13_SPSC

/-! ## Destroying a queue -/

theorem Reachable.mem_of_seg {N T : Type} {dataOf : N → Option T} {nextOf : N → Option Nat}
    {cells : List N} {t : Nat} {nt : N} (hnt : cells[t]? = some nt) (hnext : nextOf nt = none) :
    ∀ {al : List (Nat × T)} {p : Option Nat} {b : Nat}, Seg dataOf nextOf cells p (some t) al →
      Reachable nextOf cells p b → b ∈ t :: al.map Prod.fst := by
  intro al
  induction al with
  | nil =>
    intro p b hs hr
    have hp : p = some t := hs
    subst hp
    cases hr with
    | here => simp
    | step _ n _ hn hrest =>
      rw [hnt] at hn
      cases hn
      rw [hnext] at hrest
      cases hrest
  | cons x al ih =>
    intro p b hs hr
    obtain ⟨n, hp, hn, _, hrest⟩ := hs
    subst hp
    cases hr with
    | here => simp
    | step _ m _ hm hr1 =>
      rw [hn] at hm
      cases hm
      have := ih hrest hr1
      rcases List.mem_cons.1 this with he | hm
      · simp [he]
      · simp [hm]

theorem Reachable.tail_of_seg {N T : Type} {dataOf : N → Option T} {nextOf : N → Option Nat}
    {cells : List N} {t : Nat} :
    ∀ {al : List (Nat × T)} {p : Option Nat}, Seg dataOf nextOf cells p (some t) al →
      Reachable nextOf cells p t := by
  intro al
  induction al with
  | nil =>
    intro p hs
    have hp : p = some t := hs
    subst hp
    exact Reachable.here t
  | cons x al ih =>
    intro p hs
    obtain ⟨n, hp, hn, _, hrest⟩ := hs
    subst hp
    exact Reachable.step _ n _ hn (ih hrest)

theorem count_deleted_once (t : Nat) (L F : List Nat) (hnd : (t :: L).Nodup)
    (hlive : ∀ a ∈ t :: L, a ∉ F) : ∀ a ∈ t :: L, (t :: L.reverse ++ F).count a = 1 := by
  intro a ha
  have h1 : (t :: L.reverse).count a = 1 := by
    refine List.count_eq_one_of_mem ?_ ?_
    · rw [List.nodup_cons] at hnd ⊢
      exact ⟨by simpa using hnd.1, List.nodup_reverse.2 hnd.2⟩
    · rcases List.mem_cons.1 ha with he | hm
      · simp [he]
      · simp [hm]
  have h2 : F.count a = 0 := List.count_eq_zero_of_not_mem (hlive a ha)
  have : (t :: L.reverse ++ F).count a = (t :: L.reverse).count a + F.count a :=
    List.count_append _ _ _
  omega

namespace lock_free_queue_7_13_SPSC

variable {T : Type}

theorem destroy_ok_SPSC : ∀ (al : List (Nat × T)) (s : lock_free_queue_7_13_SPSC T) (t : Nat) (k : Nat),
    QueueInv node.data node.next is_sentinel s.heap s.head s.tail al t →
    ∃ s1, destroy (al.length + 2 + k) s = .ok s1 ∧ s1.head = none ∧
      s1.heap.freed = t :: (al.map Prod.fst).reverse ++ s.heap.freed := by
  intro al
  induction al with
  | nil =>
    intro s t k hi
    have hh : s.head = some t := hi.seg
    obtain ⟨nt, hnt, hd, hnx⟩ := hi.tail_node
    have htf : t ∉ s.heap.freed := hi.live t (List.mem_cons_self _ _)
    refine ⟨⟨⟨s.heap.cells, t :: s.heap.freed⟩, none, s.tail⟩, ?_, rfl, by simp⟩
    have e : destroy (k + 1 + 1) s = .ok ⟨⟨s.heap.cells, t :: s.heap.freed⟩, none, s.tail⟩ := by
      simp [destroy, hh, Heap.read, Heap.delete, htf, hnt, hi.tail_lt, hnx, bind, Except.bind, pure,
        Except.pure]
    have hk : ([] : List (Nat × T)).length + 2 + k = k + 1 + 1 := by simp; omega
    rw [hk, e]
  | cons x al ih =>
    intro s t k hi
    obtain ⟨n, hp, hn, _, hf, hlt, _, _⟩ := hi.front
    have hi1 : QueueInv node.data node.next is_sentinel
        (⟨s.heap.cells, x.1 :: s.heap.freed⟩ : Heap (node T)) n.next s.tail al t :=
      hi.dequeue n hn _ (fun _ _ => rfl) rfl (fun b hb => by simpa using hb)
    obtain ⟨s1, e1, h1, hfr⟩ := ih ⟨⟨s.heap.cells, x.1 :: s.heap.freed⟩, n.next, s.tail⟩ t k hi1
    refine ⟨s1, ?_, h1, by simp [hfr]⟩
    have hk : (x :: al).length + 2 + k = (al.length + 2 + k) + 1 := by simp; omega
    rw [hk]
    simp only [destroy, hp, Heap.read_ok hf hn, Heap.delete_ok hf hlt, bind, Except.bind]
    exact e1

end lock_free_queue_7_13_SPSC

/-- C2: for every single-threaded sequence of `push` and `pop` calls on a freshly constructed
`lock_free_queue_7_13_SPSC`, the run is free of faults and each pop returns what the first-in,
first-out queue of the specification returns: the oldest pushed value not yet popped, or the null
result when there is none.  In particular `v1..vn` pushed and then `n + 1` pops give
`v1, ..., vn` and then the null result. -/
theorem spsc_queue_is_fifo {T : Type} (ops : List (Op T)) (vs : List T) :
    (∃ s1, lock_free_queue_7_13_SPSC.run ops lock_free_queue_7_13_SPSC.fresh =
      .ok (spec_results fifo_put ops [], s1)) ∧
    (∃ s1, lock_free_queue_7_13_SPSC.run (pushes vs ++ pops (vs.length + 1))
      lock_free_queue_7_13_SPSC.fresh = .ok (vs.map some ++ [none], s1)) := by
  obtain ⟨s1, h1, _⟩ := lock_free_queue_7_13_SPSC.run_refines_SPSC ops
    lock_free_queue_7_13_SPSC.fresh [] lock_free_queue_7_13_SPSC.fresh_holds_SPSC
  obtain ⟨s2, h2, _⟩ := lock_free_queue_7_13_SPSC.run_refines_SPSC (pushes vs ++ pops (vs.length + 1))
    lock_free_queue_7_13_SPSC.fresh [] lock_free_queue_7_13_SPSC.fresh_holds_SPSC
  refine ⟨⟨s1, h1⟩, s2, ?_⟩
  rw [h2, spec_results_append, spec_results_pushes, spec_state_fifo_pushes]
  have hlen : vs.length = ([] ++ vs).length := by simp
  rw [hlen, spec_results_pops]
  simp

/-- C6: in every state `s` that single-threaded pushes and pops reach from a freshly constructed
`lock_free_queue_7_13_SPSC`: if `head == tail`, `pop` returns the null result and changes
nothing; otherwise `head` points to a node that holds a payload, and `pop` returns that payload,
sets `head` to the `next` of that node and leaves `tail` and the content of every node as they
were (the node it detached is deleted).  So the null result is returned exactly when
`head == tail`. -/
theorem spsc_pop_by_cases {T : Type} (ops : List (Op T)) :
    ∃ rs s, lock_free_queue_7_13_SPSC.run ops lock_free_queue_7_13_SPSC.fresh = .ok (rs, s) ∧
      (s.head = s.tail → lock_free_queue_7_13_SPSC.pop s = .ok (none, s)) ∧
      (s.head ≠ s.tail → ∃ a n v, s.head = some a ∧ s.heap.cells[a]? = some n ∧ n.data = some v ∧
        lock_free_queue_7_13_SPSC.pop s =
          .ok (some v, ⟨⟨s.heap.cells, a :: s.heap.freed⟩, n.next, s.tail⟩)) := by
  obtain ⟨s, h1, al, t, hi, _⟩ := lock_free_queue_7_13_SPSC.run_refines_SPSC ops
    lock_free_queue_7_13_SPSC.fresh [] lock_free_queue_7_13_SPSC.fresh_holds_SPSC
  refine ⟨_, s, h1, fun he => ?_, fun hne => ?_⟩
  · simp [lock_free_queue_7_13_SPSC.pop, lock_free_queue_7_13_SPSC.pop_head, he, bind, Except.bind,
      pure, Except.pure]
  · cases al with
    | nil =>
      have hh : s.head = some t := hi.seg
      exact absurd (hh.trans hi.tail_eq.symm) hne
    | cons x al =>
      obtain ⟨n, hp, hn, hd, hf, hlt, _, _⟩ := hi.front
      refine ⟨x.1, n, x.2, hp, hn, hd, ?_⟩
      have hne1 : ¬ some x.1 = s.tail := hp ▸ hne
      simp [lock_free_queue_7_13_SPSC.pop, lock_free_queue_7_13_SPSC.pop_head, hp, hne1, Heap.read,
        Heap.delete, hf, hn, hlt, hd, bind, Except.bind, pure, Except.pure]

/-! ## The queues with a reference-counted tail refine the queue of the specification -/

section seg_tail

variable {N T : Type} {dataOf : N → Option T} {nextOf : N → Option Nat} {sentinel : N → Prop}

/-- Writing to the sentinel a node that is still a sentinel keeps the queue. -/
theorem QueueInv.retouch_tail {h : Heap N} {head tail : Option Nat} {al : List (Nat × T)} {t : Nat}
    (hi : QueueInv dataOf nextOf sentinel h head tail al t) (nt : N) (hs : sentinel nt) :
    QueueInv dataOf nextOf sentinel ⟨h.cells.set t nt, h.freed⟩ head tail al t := by
  have hnd := hi.nodup
  rw [List.nodup_cons] at hnd
  refine ⟨hi.seg.seg_same_cells (fun x hx => ?_), hi.tail_eq,
    ⟨nt, List.getElem?_set_self hi.tail_lt, hs⟩, hi.nodup, hi.live, ?_⟩
  · have hne : t ≠ x.1 := fun he => hnd.1 (List.mem_map.2 ⟨x, hx, he.symm⟩)
    exact List.getElem?_set_ne hne
  · intro a ha
    show a < (h.cells.set t nt).length
    rw [List.length_set]
    exact hi.freed_lt a ha

end seg_tail

namespace lock_free_queue_RC_tail

variable {T : Type}

theorem increase_external_count_eq (fuel : Nat) (c : counted_node_ptr) :
    increase_external_count (fuel + 1) c c =
      .ok (⟨wrap_int (c.external_count + 1), c.ptr⟩, ⟨wrap_int (c.external_count + 1), c.ptr⟩) := by
  simp [increase_external_count, compare_exchange, pure, Except.pure]

theorem count_loop_eq (update : node_counter → node_counter) (fuel : Nat) (h : Heap (node T)) (a : Nat)
    (n : node T) (hf : a ∉ h.freed) (hn : h.cells[a]? = some n) :
    count_loop update (fuel + 1) h a n.count =
      .ok (⟨h.cells.set a { n with count := update n.count }, h.freed⟩, update n.count) := by
  have hlt : a < h.cells.length := by
    by_contra hlt
    rw [List.getElem?_eq_none (by omega)] at hn
    cases hn
  simp only [count_loop, Heap.read_ok hf hn, compare_exchange, if_true, Heap.write_ok _ hf hlt, bind,
    Except.bind, pure, Except.pure]

theorem released_external_counters (c : node_counter) :
    (released c).external_counters = c.external_counters := by
  simp [released]

theorem release_ref_ok (fuel : Nat) (h : Heap (node T)) (a : Nat) (n : node T) (hf : a ∉ h.freed)
    (hn : h.cells[a]? = some n) :
    ∃ h1, release_ref (fuel + 1) h (some a) = .ok h1 ∧
      h1.cells = h.cells.set a { n with count := released n.count } ∧
      (h1.freed = h.freed ∨ h1.freed = a :: h.freed) ∧
      (n.count.external_counters ≠ 0 → h1.freed = h.freed) := by
  have hlt : a < h.cells.length := by
    by_contra hlt
    rw [List.getElem?_eq_none (by omega)] at hn
    cases hn
  have hloop := count_loop_eq released fuel h a n hf hn
  have hlt1 : a < (h.cells.set a { n with count := released n.count }).length := by simpa using hlt
  by_cases hz : (released n.count).internal_count = 0 ∧ (released n.count).external_counters = 0
  · refine ⟨⟨h.cells.set a { n with count := released n.count }, a :: h.freed⟩, ?_, rfl, Or.inr rfl,
      fun hne => absurd ((released_external_counters n.count).symm.trans hz.2) hne⟩
    simp only [release_ref, Heap.read_ok hf hn, bind, Except.bind]
    rw [hloop]
    simp only [hz, and_self, if_true]
    exact Heap.delete_ok hf hlt1
  · refine ⟨⟨h.cells.set a { n with count := released n.count }, h.freed⟩, ?_, rfl, Or.inl rfl,
      fun _ => rfl⟩
    simp only [release_ref, Heap.read_ok hf hn, bind, Except.bind]
    rw [hloop]
    simp only [hz, if_false]
    rfl

theorem free_external_counter_ok (fuel : Nat) (h : Heap (node T)) (c : counted_node_ptr) (a : Nat)
    (n : node T) (hc : c.ptr = some a) (hf : a ∉ h.freed) (hn : h.cells[a]? = some n) :
    ∃ h1, free_external_counter (fuel + 1) h c = .ok h1 ∧
      h1.cells = h.cells.set a { n with count := freed_external c.external_count n.count } ∧
      (h1.freed = h.freed ∨ h1.freed = a :: h.freed) ∧
      (n.count.external_counters = 2 → h1.freed = h.freed) := by
  have hlt : a < h.cells.length := by
    by_contra hlt
    rw [List.getElem?_eq_none (by omega)] at hn
    cases hn
  have hloop := count_loop_eq (freed_external c.external_count) fuel h a n hf hn
  have hlt1 : a < (h.cells.set a { n with count := freed_external c.external_count n.count }).length := by
    simpa using hlt
  by_cases hz : (freed_external c.external_count n.count).internal_count = 0 ∧
      (freed_external c.external_count n.count).external_counters = 0
  · refine ⟨⟨h.cells.set a { n with count := freed_external c.external_count n.count },
      a :: h.freed⟩, ?_, rfl, Or.inr rfl, fun h2 => ?_⟩
    · simp only [free_external_counter, hc, Heap.read_ok hf hn, bind, Except.bind]
      rw [hloop]
      simp only [hz, and_self, if_true]
      exact Heap.delete_ok hf hlt1
    · have h3 := hz.2
      simp [freed_external, h2] at h3
  · refine ⟨⟨h.cells.set a { n with count := freed_external c.external_count n.count }, h.freed⟩,
      ?_, rfl, Or.inl rfl, fun _ => rfl⟩
    simp only [free_external_counter, hc, Heap.read_ok hf hn, bind, Except.bind]
    rw [hloop]
    simp only [hz, if_false]
    rfl

end lock_free_queue_RC_tail

namespace lock_free_queue_RC_tail

variable {T : Type}

theorem fresh_holds_in : HoldsIn (⟨[node.new], []⟩ : Heap (node T)) ⟨0, some 0⟩ ⟨0, some 0⟩ [] :=
  ⟨[], 0, ⟨rfl, rfl, ⟨node.new, rfl, rfl, rfl, rfl⟩, by simp, by simp, by simp⟩, rfl⟩

/-- The heap after the steps of a push that installs `v` in the sentinel `t` and links the node
allocated for it. -/
theorem enqueue_holds_in {h : Heap (node T)} {head tail : Option Nat} {al : List (Nat × T)}
    {t : Nat} (hi : QueueInv node.data (fun n => n.next.ptr) is_sentinel h head tail al t)
    (v : T) (c : node_counter) (e : Int) (h4 : Heap (node T))
    (hcells : h4.cells = (h.cells ++ [node.new]).set t ⟨some v, c, ⟨e, some h.cells.length⟩⟩)
    (hfreed : h4.freed = h.freed) :
    QueueInv node.data (fun n => n.next.ptr) is_sentinel h4 head (some h.cells.length)
      (al ++ [(t, v)]) h.cells.length := by
  have hlt := hi.tail_lt
  have hlt1 : t < (h.cells ++ [(node.new : node T)]).length := by simp; omega
  have hne : t ≠ h.cells.length := Nat.ne_of_lt hlt
  refine hi.enqueue h4 _ ⟨some v, c, ⟨e, some h.cells.length⟩⟩ node.new v rfl (by simp [hcells])
    hfreed (fun b hb hblt => ?_) ?_ rfl rfl ?_ ⟨rfl, rfl, rfl⟩
  · rw [hcells, List.getElem?_set_ne (Ne.symm hb), List.getElem?_append_left hblt]
  · rw [hcells]
    exact List.getElem?_set_self hlt1
  · rw [hcells, List.getElem?_set_ne hne, List.getElem?_concat_length]

theorem push_holds_RC {s : lock_free_queue_RC_tail T} {l : List T}
    (h : HoldsIn s.heap s.head s.tail l) (fuel : Nat) (v : T) :
    ∃ s1, push (fuel + 1) s v = .ok s1 ∧ HoldsIn s1.heap s1.head s1.tail (l ++ [v]) := by
  obtain ⟨al, t, hi, hl⟩ := h
  obtain ⟨heap, hd, ⟨et, tp⟩⟩ := s
  have htp : tp = some t := hi.tail_eq
  subst htp
  simp only at hi
  obtain ⟨nt, hnt, hs1, hs2, hs3⟩ := hi.tail_node
  have htf : t ∉ heap.freed := hi.live t (List.mem_cons_self _ _)
  have hlt := hi.tail_lt
  have hlt1 : t < (heap.cells ++ [(node.new : node T)]).length := by simp; omega
  have e1 : (⟨heap.cells ++ [node.new], heap.freed⟩ : Heap (node T)).read t = .ok nt :=
    Heap.read_ok htf (by rw [List.getElem?_append_left hlt]; exact hnt)
  have e2 := Heap.write_ok (h := (⟨heap.cells ++ [node.new], heap.freed⟩ : Heap (node T)))
    ⟨some v, nt.count, nt.next⟩ htf hlt1
  have e3 : (⟨(heap.cells ++ [node.new]).set t ⟨some v, nt.count, nt.next⟩, heap.freed⟩ :
      Heap (node T)).read t = .ok ⟨some v, nt.count, nt.next⟩ :=
    Heap.read_ok htf (List.getElem?_set_self hlt1)
  have e4 := Heap.write_ok
    (h := (⟨(heap.cells ++ [node.new]).set t ⟨some v, nt.count, nt.next⟩, heap.freed⟩ : Heap (node T)))
    ⟨some v, nt.count, ⟨1, some heap.cells.length⟩⟩ htf (by simpa using hlt1)
  obtain ⟨h4, e5, hc4, _, hf4⟩ := free_external_counter_ok fuel
    (⟨((heap.cells ++ [node.new]).set t ⟨some v, nt.count, nt.next⟩).set t
      ⟨some v, nt.count, ⟨1, some heap.cells.length⟩⟩, heap.freed⟩ : Heap (node T))
    ⟨wrap_int (et + 1), some t⟩ t ⟨some v, nt.count, ⟨1, some heap.cells.length⟩⟩ rfl htf
    (List.getElem?_set_self (by simpa using hlt1))
  refine ⟨⟨h4, hd, ⟨1, some heap.cells.length⟩⟩, ?_, al ++ [(t, v)], heap.cells.length, ?_,
    by simp [hl]⟩
  · simp only [push, Heap.alloc, push_loop, increase_external_count_eq, e1, hs1, e2, e3, e4, e5, bind,
      Except.bind, pure, Except.pure]
  · refine enqueue_holds_in hi v (freed_external (wrap_int (et + 1)) nt.count) 1 h4 ?_ (hf4 hs3)
    simp only [hc4, List.set_set]

theorem pop_holds_RC {s : lock_free_queue_RC_tail T} {l : List T}
    (h : HoldsIn s.heap s.head s.tail l) (fuel : Nat) :
    ∃ s1, pop (fuel + 1) s = .ok (l.head?, s1) ∧ HoldsIn s1.heap s1.head s1.tail l.tail := by
  obtain ⟨al, t, hi, hl⟩ := h
  obtain ⟨heap, ⟨eh, hp⟩, ⟨et, tp⟩⟩ := s
  have htp : tp = some t := hi.tail_eq
  subst htp hl
  simp only at hi
  cases al with
  | nil =>
    have hh : hp = some t := hi.seg
    subst hh
    obtain ⟨nt, hnt, hs1, hs2, hs3⟩ := hi.tail_node
    have htf : t ∉ heap.freed := hi.live t (List.mem_cons_self _ _)
    obtain ⟨h2, e2, hc2, _, hf2⟩ := release_ref_ok fuel heap t nt htf hnt
    have hf2 : h2.freed = heap.freed := hf2 (by rw [hs3]; decide)
    refine ⟨⟨h2, ⟨wrap_int (eh + 1), some t⟩, ⟨et, some t⟩⟩, ?_, [], t, ?_, rfl⟩
    · simp only [pop, pop_loop, increase_external_count_eq, e2, if_true, bind, Except.bind, pure,
        Except.pure, List.map_nil, List.head?_nil]
    · have hh2 : h2 = ⟨heap.cells.set t { nt with count := released nt.count }, heap.freed⟩ := by
        cases h2
        simp only at hc2 hf2
        rw [hc2, hf2]
      rw [hh2]
      exact hi.retouch_tail _ ⟨hs1, hs2, hs3⟩
  | cons x al =>
    obtain ⟨n, hhd, hn, hd, hf, hlt, hne, _⟩ := hi.front
    subst hhd
    have hne1 : ¬ (some x.1 = some t) := fun he => hne (Option.some.inj he)
    have e1 := Heap.read_ok hf hn
    have e2 := Heap.write_ok (h := heap) ⟨none, n.count, n.next⟩ hf hlt
    obtain ⟨h4, e5, hc4, hf4, _⟩ := free_external_counter_ok fuel
      (⟨heap.cells.set x.1 ⟨none, n.count, n.next⟩, heap.freed⟩ : Heap (node T))
      ⟨wrap_int (eh + 1), some x.1⟩ x.1 ⟨none, n.count, n.next⟩ rfl hf
      (List.getElem?_set_self hlt)
    refine ⟨⟨h4, n.next, ⟨et, some t⟩⟩, ?_, al, t, ?_, rfl⟩
    · simp only [pop, pop_loop, increase_external_count_eq, hne1, if_false, e1, compare_exchange,
        if_true, e2, e5, hd, bind, Except.bind, pure, Except.pure, List.map_cons, List.head?_cons]
    · refine hi.dequeue n hn h4 (fun b hb => ?_) (by simp [hc4]) (fun b hb => ?_)
      · rw [hc4, List.getElem?_set_ne (Ne.symm hb), List.getElem?_set_ne (Ne.symm hb)]
      · rcases hf4 with he | he
        · rw [he] at hb; exact Or.inr hb
        · rw [he] at hb
          simpa using hb

theorem run_refines_RC (fuel : Nat) (ops : List (Op T)) (s : lock_free_queue_RC_tail T) (l : List T)
    (h : HoldsIn s.heap s.head s.tail l) :
    ∃ s1, run (fuel + 1) ops s = .ok (spec_results fifo_put ops l, s1) ∧
      HoldsIn s1.heap s1.head s1.tail (spec_state fifo_put ops l) :=
  run_ops_refines (push (fuel + 1)) (pop (fuel + 1)) fifo_put
    (fun s l => HoldsIn s.heap s.head s.tail l)
    (fun _ _ v h => push_holds_RC h fuel v) (fun _ _ h => pop_holds_RC h fuel) ops s l h

end lock_free_queue_RC_tail

namespace lock_free_queue_RC_tail_modified

open lock_free_queue_RC_tail (counted_node_ptr node_counter node release_ref increase_external_count
  free_external_counter HoldsIn is_sentinel released freed_external)

variable {T : Type}

theorem push_holds_mod {s : lock_free_queue_RC_tail_modified T} {l : List T}
    (h : HoldsIn s.heap s.head s.tail l) (fuel : Nat) (v : T) :
    ∃ s1, push (fuel + 1) s v = .ok s1 ∧ HoldsIn s1.heap s1.head s1.tail (l ++ [v]) := by
  obtain ⟨al, t, hi, hl⟩ := h
  obtain ⟨heap, hd, ⟨et, tp⟩⟩ := s
  have htp : tp = some t := hi.tail_eq
  subst htp
  simp only at hi
  obtain ⟨⟨d, c, nx⟩, hnt, hs1, hs2, hs3⟩ := hi.tail_node
  simp only at hs1 hs2 hs3
  subst hs1 hs2
  have htf : t ∉ heap.freed := hi.live t (List.mem_cons_self _ _)
  have hlt := hi.tail_lt
  have hlt1 : t < (heap.cells ++ [(node.new : node T)]).length := by simp; omega
  have e1 : (⟨heap.cells ++ [node.new], heap.freed⟩ : Heap (node T)).read t = .ok ⟨none, c, ⟨0, none⟩⟩ :=
    Heap.read_ok htf (by rw [List.getElem?_append_left hlt]; exact hnt)
  have e2 := Heap.write_ok (h := (⟨heap.cells ++ [node.new], heap.freed⟩ : Heap (node T)))
    ⟨some v, c, ⟨0, none⟩⟩ htf hlt1
  have e3 : (⟨(heap.cells ++ [node.new]).set t ⟨some v, c, ⟨0, none⟩⟩, heap.freed⟩ :
      Heap (node T)).read t = .ok ⟨some v, c, ⟨0, none⟩⟩ :=
    Heap.read_ok htf (List.getElem?_set_self hlt1)
  have e4 := Heap.write_ok
    (h := (⟨(heap.cells ++ [node.new]).set t ⟨some v, c, ⟨0, none⟩⟩, heap.freed⟩ : Heap (node T)))
    ⟨some v, c, ⟨1, some heap.cells.length⟩⟩ htf (by simpa using hlt1)
  obtain ⟨h4, e5, hc4, _, hf4⟩ := lock_free_queue_RC_tail.free_external_counter_ok fuel
    (⟨((heap.cells ++ [node.new]).set t ⟨some v, c, ⟨0, none⟩⟩).set t
      ⟨some v, c, ⟨1, some heap.cells.length⟩⟩, heap.freed⟩ : Heap (node T))
    ⟨wrap_int (et + 1), some t⟩ t ⟨some v, c, ⟨1, some heap.cells.length⟩⟩ rfl htf
    (List.getElem?_set_self (by simpa using hlt1))
  refine ⟨⟨h4, hd, ⟨1, some heap.cells.length⟩⟩, ?_, al ++ [(t, v)], heap.cells.length, ?_,
    by simp [hl]⟩
  · simp only [push, Heap.alloc, push_loop, lock_free_queue_RC_tail.increase_external_count_eq, e1,
      e2, e3, compare_exchange, if_true, e4, set_new_tail, set_new_tail_loop, e5, bind, Except.bind,
      pure, Except.pure]
  · refine lock_free_queue_RC_tail.enqueue_holds_in hi v (freed_external (wrap_int (et + 1)) c) 1 h4
      ?_ (hf4 hs3)
    simp only [hc4, List.set_set]

theorem pop_holds_mod {s : lock_free_queue_RC_tail_modified T} {l : List T}
    (h : HoldsIn s.heap s.head s.tail l) (fuel : Nat) :
    ∃ s1, pop (fuel + 1) s = .ok (l.head?, s1) ∧ HoldsIn s1.heap s1.head s1.tail l.tail := by
  obtain ⟨al, t, hi, hl⟩ := h
  obtain ⟨heap, ⟨eh, hp⟩, ⟨et, tp⟩⟩ := s
  have htp : tp = some t := hi.tail_eq
  subst htp hl
  simp only at hi
  cases al with
  | nil =>
    have hh : hp = some t := hi.seg
    subst hh
    refine ⟨⟨heap, ⟨wrap_int (eh + 1), some t⟩, ⟨et, some t⟩⟩, ?_, [], t, hi, rfl⟩
    simp only [pop, pop_loop, lock_free_queue_RC_tail.increase_external_count_eq, if_true, bind,
      Except.bind, pure, Except.pure, List.map_nil, List.head?_nil]
  | cons x al =>
    obtain ⟨n, hhd, hn, hd, hf, hlt, hne, _⟩ := hi.front
    subst hhd
    have hne1 : ¬ (some x.1 = some t) := fun he => hne (Option.some.inj he)
    have e1 := Heap.read_ok hf hn
    have e2 := Heap.write_ok (h := heap) ⟨none, n.count, n.next⟩ hf hlt
    obtain ⟨h4, e5, hc4, hf4, _⟩ := lock_free_queue_RC_tail.free_external_counter_ok fuel
      (⟨heap.cells.set x.1 ⟨none, n.count, n.next⟩, heap.freed⟩ : Heap (node T))
      ⟨wrap_int (eh + 1), some x.1⟩ x.1 ⟨none, n.count, n.next⟩ rfl hf
      (List.getElem?_set_self hlt)
    refine ⟨⟨h4, n.next, ⟨et, some t⟩⟩, ?_, al, t, ?_, rfl⟩
    · simp only [pop, pop_loop, lock_free_queue_RC_tail.increase_external_count_eq, hne1, if_false, e1,
        compare_exchange, if_true, e2, e5, hd, bind, Except.bind, pure, Except.pure, List.map_cons,
        List.head?_cons]
    · refine hi.dequeue n hn h4 (fun b hb => ?_) (by simp [hc4]) (fun b hb => ?_)
      · rw [hc4, List.getElem?_set_ne (Ne.symm hb), List.getElem?_set_ne (Ne.symm hb)]
      · rcases hf4 with he | he
        · rw [he] at hb; exact Or.inr hb
        · rw [he] at hb
          simpa using hb

theorem run_refines_mod (fuel : Nat) (ops : List (Op T)) (s : lock_free_queue_RC_tail_modified T)
    (l : List T) (h : HoldsIn s.heap s.head s.tail l) :
    ∃ s1, run (fuel + 1) ops s = .ok (spec_results fifo_put ops l, s1) ∧
      HoldsIn s1.heap s1.head s1.tail (spec_state fifo_put ops l) :=
  run_ops_refines (push (fuel + 1)) (pop (fuel + 1)) fifo_put
    (fun s l => HoldsIn s.heap s.head s.tail l)
    (fun _ _ v h => push_holds_mod h fuel v) (fun _ _ h => pop_holds_mod h fuel) ops s l h

theorem destroy_ok_mod : ∀ (al : List (Nat × T)) (s : lock_free_queue_RC_tail_modified T) (t : Nat)
    (k : Nat),
    QueueInv node.data (fun n => n.next.ptr) is_sentinel s.heap s.head.ptr s.tail.ptr al t →
    ∃ s1, destroy (al.length + 2 + k) s = .ok s1 ∧ s1.head.ptr = none ∧
      s1.heap.freed = t :: (al.map Prod.fst).reverse ++ s.heap.freed := by
  intro al
  induction al with
  | nil =>
    intro s t k hi
    have hh : s.head.ptr = some t := hi.seg
    obtain ⟨nt, hnt, hd, hnx, _⟩ := hi.tail_node
    have htf : t ∉ s.heap.freed := hi.live t (List.mem_cons_self _ _)
    refine ⟨⟨⟨s.heap.cells, t :: s.heap.freed⟩, ⟨0, none⟩, s.tail⟩, ?_, rfl, by simp⟩
    have e : destroy (k + 1 + 1) s = .ok ⟨⟨s.heap.cells, t :: s.heap.freed⟩, ⟨0, none⟩, s.tail⟩ := by
      simp only [destroy, hh, Heap.read_ok htf hnt, Heap.delete_ok htf hi.tail_lt, hnx, bind,
        Except.bind, pure, Except.pure]
    have hk : ([] : List (Nat × T)).length + 2 + k = k + 1 + 1 := by simp; omega
    rw [hk, e]
  | cons x al ih =>
    intro s t k hi
    obtain ⟨n, hp, hn, _, hf, hlt, _, _⟩ := hi.front
    have hi1 : QueueInv node.data (fun n => n.next.ptr) is_sentinel
        (⟨s.heap.cells, x.1 :: s.heap.freed⟩ : Heap (node T)) n.next.ptr s.tail.ptr al t :=
      hi.dequeue n hn _ (fun _ _ => rfl) rfl (fun b hb => by simpa using hb)
    obtain ⟨s1, e1, h1, hfr⟩ := ih ⟨⟨s.heap.cells, x.1 :: s.heap.freed⟩, n.next, s.tail⟩ t k hi1
    refine ⟨s1, ?_, h1, by simp [hfr]⟩
    have hk : (x :: al).length + 2 + k = (al.length + 2 + k) + 1 := by simp; omega
    rw [hk]
    simp only [destroy, hp, Heap.read_ok hf hn, Heap.delete_ok hf hlt, bind, Except.bind]
    exact e1

end lock_free_queue_RC_tail_modified

namespace lock_free_queue_RC_tail

variable {T : Type}

theorem destroy_ok_RC : ∀ (al : List (Nat × T)) (s : lock_free_queue_RC_tail T) (t : Nat) (k : Nat),
    QueueInv node.data (fun n => n.next.ptr) is_sentinel s.heap s.head.ptr s.tail.ptr al t →
    ∃ s1, destroy (al.length + 2 + k) s = .ok s1 ∧ s1.head.ptr = none ∧
      s1.heap.freed = t :: (al.map Prod.fst).reverse ++ s.heap.freed := by
  intro al
  induction al with
  | nil =>
    intro s t k hi
    have hh : s.head.ptr = some t := hi.seg
    obtain ⟨nt, hnt, hd, hnx, _⟩ := hi.tail_node
    have htf : t ∉ s.heap.freed := hi.live t (List.mem_cons_self _ _)
    refine ⟨⟨⟨s.heap.cells, t :: s.heap.freed⟩, ⟨0, none⟩, s.tail⟩, ?_, rfl, by simp⟩
    have e : destroy (k + 1 + 1) s = .ok ⟨⟨s.heap.cells, t :: s.heap.freed⟩, ⟨0, none⟩, s.tail⟩ := by
      simp only [destroy, hh, Heap.read_ok htf hnt, Heap.delete_ok htf hi.tail_lt, hnx, bind,
        Except.bind, pure, Except.pure]
    have hk : ([] : List (Nat × T)).length + 2 + k = k + 1 + 1 := by simp; omega
    rw [hk, e]
  | cons x al ih =>
    intro s t k hi
    obtain ⟨n, hp, hn, _, hf, hlt, _, _⟩ := hi.front
    have hi1 : QueueInv node.data (fun n => n.next.ptr) is_sentinel
        (⟨s.heap.cells, x.1 :: s.heap.freed⟩ : Heap (node T)) n.next.ptr s.tail.ptr al t :=
      hi.dequeue n hn _ (fun _ _ => rfl) rfl (fun b hb => by simpa using hb)
    obtain ⟨s1, e1, h1, hfr⟩ := ih ⟨⟨s.heap.cells, x.1 :: s.heap.freed⟩, n.next, s.tail⟩ t k hi1
    refine ⟨s1, ?_, h1, by simp [hfr]⟩
    have hk : (x :: al).length + 2 + k = (al.length + 2 + k) + 1 := by simp; omega
    rw [hk]
    simp only [destroy, hp, Heap.read_ok hf hn, Heap.delete_ok hf hlt, bind, Except.bind]
    exact e1

end lock_free_queue_RC_tail

theorem Reachable.of_mem_seg {N T : Type} {dataOf : N → Option T} {nextOf : N → Option Nat}
    {cells : List N} {t : Nat} :
    ∀ {al : List (Nat × T)} {p : Option Nat} {b : Nat}, Seg dataOf nextOf cells p (some t) al →
      b ∈ t :: al.map Prod.fst → Reachable nextOf cells p b := by
  intro al
  induction al with
  | nil =>
    intro p b hs hb
    have hp : p = some t := hs
    subst hp
    have hbt : b = t := by simpa using hb
    subst hbt
    exact Reachable.here b
  | cons x al ih =>
    intro p b hs hb
    obtain ⟨n, hp, hn, _, hrest⟩ := hs
    subst hp
    by_cases hbx : b = x.1
    · subst hbx
      exact Reachable.here _
    · refine Reachable.step _ n _ hn (ih hrest ?_)
      rcases List.mem_cons.1 hb with he | hm
      · simp [he]
      · rcases List.mem_cons.1 hm with he | hm1
        · exact absurd he hbx
        · exact List.mem_cons_of_mem _ hm1

/-- The nodes a destructor has to delete, in a heap that holds a queue: the log `D` of the nodes
from `head` to the sentinel, last one first, has no node twice, holds exactly the nodes reachable
from `head`, none of them deleted before, and the sentinel is one of them. -/
theorem QueueInv.destroyed_log {N T : Type} {dataOf : N → Option T} {nextOf : N → Option Nat}
    {sentinel : N → Prop} {h : Heap N} {head tail : Option Nat} {al : List (Nat × T)} {t : Nat}
    (hi : QueueInv dataOf nextOf sentinel h head tail al t)
    (hnext : ∀ n, sentinel n → nextOf n = none) :
    (t :: (al.map Prod.fst).reverse).Nodup ∧
    (∀ a, Reachable nextOf h.cells head a ↔ a ∈ t :: (al.map Prod.fst).reverse) ∧
    (∀ a ∈ t :: (al.map Prod.fst).reverse, a ∉ h.freed) ∧
    Reachable nextOf h.cells head t := by
  obtain ⟨nt, hnt, hs⟩ := hi.tail_node
  have hnd := hi.nodup
  have hmem : ∀ a, a ∈ t :: (al.map Prod.fst).reverse ↔ a ∈ t :: al.map Prod.fst := by
    intro a
    simp
  refine ⟨?_, fun a => ?_, fun a ha => hi.live a ((hmem a).1 ha), Reachable.tail_of_seg hi.seg⟩
  · rw [List.nodup_cons] at hnd ⊢
    exact ⟨by simpa using hnd.1, List.nodup_reverse.2 hnd.2⟩
  · rw [hmem]
    exact ⟨Reachable.mem_of_seg hnt (hnext nt hs) hi.seg, Reachable.of_mem_seg hi.seg⟩

/-- C3: for every single-threaded sequence of `push` and `pop` calls on a freshly constructed
`lock_free_queue_RC_tail`, and on a freshly constructed `lock_free_queue_RC_tail_modified`, the
run is free of faults, every loop ends at its first round, and each pop returns what the first-in,
first-out queue of the specification returns: the oldest pushed value not yet popped, or the null
result when none remains.  In particular `v1..vn` pushed and then `n + 1` pops give
`v1, ..., vn` and then the null result. -/
theorem rc_queues_are_fifo {T : Type} (fuel : Nat) (ops : List (Op T)) (vs : List T) :
    (∃ s1, lock_free_queue_RC_tail.run (fuel + 1) ops lock_free_queue_RC_tail.fresh =
      .ok (spec_results fifo_put ops [], s1)) ∧
    (∃ s1, lock_free_queue_RC_tail.run (fuel + 1) (pushes vs ++ pops (vs.length + 1))
      lock_free_queue_RC_tail.fresh = .ok (vs.map some ++ [none], s1)) ∧
    (∃ s1, lock_free_queue_RC_tail_modified.run (fuel + 1) ops lock_free_queue_RC_tail_modified.fresh =
      .ok (spec_results fifo_put ops [], s1)) ∧
    (∃ s1, lock_free_queue_RC_tail_modified.run (fuel + 1) (pushes vs ++ pops (vs.length + 1))
      lock_free_queue_RC_tail_modified.fresh = .ok (vs.map some ++ [none], s1)) := by
  have hres : spec_results fifo_put (pushes vs ++ pops (vs.length + 1)) [] = vs.map some ++ [none] := by
    rw [spec_results_append, spec_results_pushes, spec_state_fifo_pushes]
    have hlen : vs.length = ([] ++ vs).length := by simp
    rw [hlen, spec_results_pops]
    simp
  obtain ⟨s1, h1, _⟩ := lock_free_queue_RC_tail.run_refines_RC fuel ops
    lock_free_queue_RC_tail.fresh [] lock_free_queue_RC_tail.fresh_holds_in
  obtain ⟨s2, h2, _⟩ := lock_free_queue_RC_tail.run_refines_RC fuel
    (pushes vs ++ pops (vs.length + 1)) lock_free_queue_RC_tail.fresh []
    lock_free_queue_RC_tail.fresh_holds_in
  obtain ⟨s3, h3, _⟩ := lock_free_queue_RC_tail_modified.run_refines_mod fuel ops
    lock_free_queue_RC_tail_modified.fresh [] lock_free_queue_RC_tail.fresh_holds_in
  obtain ⟨s4, h4, _⟩ := lock_free_queue_RC_tail_modified.run_refines_mod fuel
    (pushes vs ++ pops (vs.length + 1)) lock_free_queue_RC_tail_modified.fresh []
    lock_free_queue_RC_tail.fresh_holds_in
  rw [hres] at h2 h4
  exact ⟨⟨s1, h1⟩, ⟨s2, h2⟩, ⟨s3, h3⟩, ⟨s4, h4⟩⟩

/-- C8: in every state `s` that single-threaded pushes and pops reach from a freshly constructed
queue (`lock_free_queue_7_13_SPSC`, `lock_free_queue_RC_tail`, `lock_free_queue_RC_tail_modified`)
the destructor terminates (within `n` rounds of its loop, for some `n`) without a fault and ends
with a null `head`; the nodes it deletes, `D`, are exactly the nodes reachable from `head`
through `next` links, each of them once and none of them deleted before, and the node `tail`
points to, the empty sentinel, is one of them. -/
theorem queue_destructors_delete_all {T : Type} (fuel : Nat) (ops : List (Op T)) :
    (∃ rs s, lock_free_queue_7_13_SPSC.run ops lock_free_queue_7_13_SPSC.fresh = .ok (rs, s) ∧
      ∃ n D t, ∀ k, ∃ s1, lock_free_queue_7_13_SPSC.destroy (n + k) s = .ok s1 ∧ s1.head = none ∧
        s1.heap.freed = D ++ s.heap.freed ∧ D.Nodup ∧
        (∀ a, Reachable lock_free_queue_7_13_SPSC.node.next s.heap.cells s.head a ↔ a ∈ D) ∧
        (∀ a ∈ D, a ∉ s.heap.freed) ∧ s.tail = some t ∧ t ∈ D) ∧
    (∃ rs s, lock_free_queue_RC_tail.run (fuel + 1) ops lock_free_queue_RC_tail.fresh = .ok (rs, s) ∧
      ∃ n D t, ∀ k, ∃ s1, lock_free_queue_RC_tail.destroy (n + k) s = .ok s1 ∧ s1.head.ptr = none ∧
        s1.heap.freed = D ++ s.heap.freed ∧ D.Nodup ∧
        (∀ a, Reachable (fun n => n.next.ptr) s.heap.cells s.head.ptr a ↔ a ∈ D) ∧
        (∀ a ∈ D, a ∉ s.heap.freed) ∧ s.tail.ptr = some t ∧ t ∈ D) ∧
    (∃ rs s, lock_free_queue_RC_tail_modified.run (fuel + 1) ops
        lock_free_queue_RC_tail_modified.fresh = .ok (rs, s) ∧
      ∃ n D t, ∀ k, ∃ s1, lock_free_queue_RC_tail_modified.destroy (n + k) s = .ok s1 ∧
        s1.head.ptr = none ∧ s1.heap.freed = D ++ s.heap.freed ∧ D.Nodup ∧
        (∀ a, Reachable (fun n => n.next.ptr) s.heap.cells s.head.ptr a ↔ a ∈ D) ∧
        (∀ a ∈ D, a ∉ s.heap.freed) ∧ s.tail.ptr = some t ∧ t ∈ D) := by
  refine ⟨?_, ?_, ?_⟩
  · obtain ⟨s, h1, al, t, hi, _⟩ := lock_free_queue_7_13_SPSC.run_refines_SPSC ops
      lock_free_queue_7_13_SPSC.fresh [] lock_free_queue_7_13_SPSC.fresh_holds_SPSC
    obtain ⟨hnd, hreach, hlive, _⟩ := hi.destroyed_log (fun n hn => hn.2)
    refine ⟨_, s, h1, al.length + 2, t :: (al.map Prod.fst).reverse, t, fun k => ?_⟩
    obtain ⟨s1, e1, hh, hf⟩ := lock_free_queue_7_13_SPSC.destroy_ok_SPSC al s t k hi
    exact ⟨s1, e1, hh, hf, hnd, hreach, hlive, hi.tail_eq, List.mem_cons_self _ _⟩
  · obtain ⟨s, h1, al, t, hi, _⟩ := lock_free_queue_RC_tail.run_refines_RC fuel ops
      lock_free_queue_RC_tail.fresh [] lock_free_queue_RC_tail.fresh_holds_in
    obtain ⟨hnd, hreach, hlive, _⟩ := hi.destroyed_log
      (fun n hn => by have h2 := hn.2.1; simp only [h2])
    refine ⟨_, s, h1, al.length + 2, t :: (al.map Prod.fst).reverse, t, fun k => ?_⟩
    obtain ⟨s1, e1, hh, hf⟩ := lock_free_queue_RC_tail.destroy_ok_RC al s t k hi
    exact ⟨s1, e1, hh, hf, hnd, hreach, hlive, hi.tail_eq, List.mem_cons_self _ _⟩
  · obtain ⟨s, h1, al, t, hi, _⟩ := lock_free_queue_RC_tail_modified.run_refines_mod fuel ops
      lock_free_queue_RC_tail_modified.fresh [] lock_free_queue_RC_tail.fresh_holds_in
    obtain ⟨hnd, hreach, hlive, _⟩ := hi.destroyed_log
      (fun n hn => by have h2 := hn.2.1; simp only [h2])
    refine ⟨_, s, h1, al.length + 2, t :: (al.map Prod.fst).reverse, t, fun k => ?_⟩
    obtain ⟨s1, e1, hh, hf⟩ := lock_free_queue_RC_tail_modified.destroy_ok_mod al s t k hi
    exact ⟨s1, e1, hh, hf, hnd, hreach, hlive, hi.tail_eq, List.mem_cons_self _ _⟩

namespace work_stealing_queue_9_7

variable {data_type : Type}

theorem foldl_push (ts : List data_type) (q : work_stealing_queue_9_7 data_type) :
    (ts.foldl push q).the_queue = ts.reverse ++ q.the_queue := by
  induction ts generalizing q with
  | nil => rfl
  | cons t ts ih => simp [ih, push]

theorem pushed_queue (ts : List data_type) : (pushed ts).the_queue = ts.reverse := by
  simp [pushed, foldl_push, fresh]

end work_stealing_queue_9_7

/-- C17: on a `work_stealing_queue_9_7` that holds the items pushed in the order `t1..tn`,
`n >= 1`, `try_pop` returns true, puts the item pushed last in its argument and leaves the queue
of the items pushed before it; `try_steal` returns true, puts the item pushed first in its
argument and leaves the queue of the items pushed after it; on an empty queue both return false
and change neither the queue nor their argument. -/
theorem work_stealing_queue_ends {data_type : Type} (ts : List data_type) (t res : data_type) :
    work_stealing_queue_9_7.try_pop (work_stealing_queue_9_7.pushed (ts ++ [t])) res =
      (true, work_stealing_queue_9_7.pushed ts, t) ∧
    work_stealing_queue_9_7.try_steal (work_stealing_queue_9_7.pushed (t :: ts)) res =
      (true, work_stealing_queue_9_7.pushed ts, t) ∧
    work_stealing_queue_9_7.try_pop work_stealing_queue_9_7.fresh res =
      (false, work_stealing_queue_9_7.fresh, res) ∧
    work_stealing_queue_9_7.try_steal work_stealing_queue_9_7.fresh res =
      (false, work_stealing_queue_9_7.fresh, res) := by
  have hq : ∀ (q1 q2 : work_stealing_queue_9_7 data_type), q1.the_queue = q2.the_queue → q1 = q2 := by
    intro q1 q2 h
    cases q1
    cases q2
    simpa using h
  refine ⟨?_, ?_, rfl, rfl⟩
  · have h1 : (work_stealing_queue_9_7.pushed (ts ++ [t])).the_queue = t :: ts.reverse := by
      simp [work_stealing_queue_9_7.pushed_queue]
    unfold work_stealing_queue_9_7.try_pop
    rw [h1]
    simp only [Prod.mk.injEq, true_and, and_true]
    exact hq _ _ (work_stealing_queue_9_7.pushed_queue ts).symm
  · have h1 : (work_stealing_queue_9_7.pushed (t :: ts)).the_queue = ts.reverse ++ [t] := by
      simp [work_stealing_queue_9_7.pushed_queue]
    unfold work_stealing_queue_9_7.try_steal
    have h2 : (ts.reverse ++ [t]).getLast? = some t := by simp
    rw [h1, h2]
    simp only [List.dropLast_concat, Prod.mk.injEq, true_and, and_true]
    exact hq _ _ (work_stealing_queue_9_7.pushed_queue ts).symm

/-- C18: a `pop` that finds the queue empty, here on a freshly constructed queue of each
variant.  Both return the null result and leave 1 in the `external_count` of `head`.
`lock_free_queue_RC_tail::pop` calls `release_ref`: the `internal_count` of the node goes from 0
to 1073741823, which is minus one in its 30 bits.  `lock_free_queue_RC_tail_modified::pop`
returns without that call: the `internal_count` stays 0.  The run `push(1); pop(); pop();
push(2); pop()` shows what that does to the node at address 1, on which the second `pop` found
the queue empty: the first variant has deleted it at the end, the second variant never deletes
it, its counter ends as 1 where it had to reach 0. -/
theorem empty_pop_keeps_reference :
    lock_free_queue_RC_tail.pop 1 (lock_free_queue_RC_tail.fresh : lock_free_queue_RC_tail Nat) =
      .ok (none, ⟨⟨[⟨none, ⟨1073741823, 2⟩, ⟨0, none⟩⟩], []⟩, ⟨1, some 0⟩, ⟨0, some 0⟩⟩) ∧
    lock_free_queue_RC_tail_modified.pop 1
        (lock_free_queue_RC_tail_modified.fresh : lock_free_queue_RC_tail_modified Nat) =
      .ok (none, ⟨⟨[⟨none, ⟨0, 2⟩, ⟨0, none⟩⟩], []⟩, ⟨1, some 0⟩, ⟨0, some 0⟩⟩) ∧
    (lock_free_queue_RC_tail.run 1 [Op.push 1, Op.pop, Op.pop, Op.push 2, Op.pop]
        (lock_free_queue_RC_tail.fresh : lock_free_queue_RC_tail Nat)).map
      (fun r => (r.1, r.2.heap.cells[1]?.map (fun n => n.count), r.2.heap.freed)) =
      .ok ([some 1, none, some 2], some ⟨0, 0⟩, [1]) ∧
    (lock_free_queue_RC_tail_modified.run 1 [Op.push 1, Op.pop, Op.pop, Op.push 2, Op.pop]
        (lock_free_queue_RC_tail_modified.fresh : lock_free_queue_RC_tail_modified Nat)).map
      (fun r => (r.1, r.2.heap.cells[1]?.map (fun n => n.count), r.2.heap.freed)) =
      .ok ([some 1, none, some 2], some ⟨1, 0⟩, []) := by
  refine ⟨?_, ?_, ?_, ?_⟩ <;> decide

/-! ## Listing 7.5: reclaiming the pending nodes -/

namespace ref_count_delete_machinery

variable {T : Type}

theorem try_reclaim_entered_zero (fuel : Nat) (s : lock_free_stack_7_4 T) (old_head : Option Nat) :
    try_reclaim_entered 0 fuel s old_head = try_reclaim fuel s old_head := rfl

theorem delete_nodes_ok : ∀ (pl : List Nat) (cells : List (stack_data.node T)) (freed : List Nat)
    (p : Option Nat) (k : Nat), Links stack_data.node.next cells p pl → pl.Nodup →
    (∀ a ∈ pl, a ∉ freed) →
    delete_nodes (pl.length + 1 + k) ⟨cells, freed⟩ p = .ok ⟨cells, pl.reverse ++ freed⟩ := by
  intro pl
  induction pl with
  | nil =>
    intro cells freed p k hl _ _
    have hp : p = none := hl
    have hk : ([] : List Nat).length + 1 + k = k + 1 := by simp; omega
    rw [hk, hp]
    rfl
  | cons a pl ih =>
    intro cells freed p k hl hnd hlive
    obtain ⟨n, hp, hn, hrest⟩ := hl
    rw [List.nodup_cons] at hnd
    have hf : a ∉ freed := hlive a (List.mem_cons_self _ _)
    have hlt : a < cells.length := by
      by_contra hlt
      rw [List.getElem?_eq_none (by omega)] at hn
      cases hn
    have hk : (a :: pl).length + 1 + k = (pl.length + 1 + k) + 1 := by simp; omega
    have e := ih cells (a :: freed) n.next k hrest hnd.2 (fun b hb hm => by
      rcases List.mem_cons.1 hm with he | hm
      · exact hnd.1 (he ▸ hb)
      · exact hlive b (List.mem_cons_of_mem _ hb) hm)
    rw [hk, hp]
    simp only [delete_nodes, Heap.read_ok (h := (⟨cells, freed⟩ : Heap (stack_data.node T))) hf hn,
      Heap.delete_ok (h := (⟨cells, freed⟩ : Heap (stack_data.node T))) hf hlt, bind, Except.bind]
    rw [e]
    simp

theorem find_last_ok : ∀ (pl : List Nat) (h : Heap (stack_data.node T)) (a : Nat) (fuel : Nat),
    pl.length + 1 ≤ fuel →
    Links stack_data.node.next h.cells (some a) (a :: pl) → (∀ b ∈ a :: pl, b ∉ h.freed) →
    ∃ l n, find_last fuel h a = .ok l ∧ h.cells[l]? = some n ∧ n.next = none ∧ l ∉ h.freed := by
  intro pl
  induction pl with
  | nil =>
    intro h a fuel hfuel hl hlive
    obtain ⟨f, rfl⟩ : ∃ f, fuel = f + 1 := ⟨fuel - 1, by simp at hfuel; omega⟩
    obtain ⟨n, _, hn, hrest⟩ := hl
    have hnx : n.next = none := hrest
    have hf := hlive a (List.mem_cons_self _ _)
    refine ⟨a, n, ?_, hn, hnx, hf⟩
    simp only [find_last, Heap.read_ok hf hn, hnx, bind, Except.bind, pure, Except.pure]
  | cons b pl ih =>
    intro h a fuel hfuel hl hlive
    obtain ⟨f, rfl⟩ : ∃ f, fuel = f + 1 := ⟨fuel - 1, by simp at hfuel; omega⟩
    obtain ⟨n, _, hn, hrest⟩ := hl
    have hrest1 := hrest
    obtain ⟨nb, hnx, _, _⟩ := hrest
    have hf := hlive a (List.mem_cons_self _ _)
    rw [hnx] at hrest1
    obtain ⟨l, nl, e, hnl, hnlx, hlf⟩ := ih h b f (by simp at hfuel; omega) hrest1
      (fun c hc => hlive c (List.mem_cons_of_mem _ hc))
    refine ⟨l, nl, ?_, hnl, hnlx, hlf⟩
    simp only [find_last, Heap.read_ok hf hn, hnx, bind, Except.bind]
    exact e

/-- The path of `try_reclaim` on which its decrement brings `threads_in_pop` to 0. -/
theorem try_reclaim_alone_eq (s : lock_free_stack_7_4 T) (old_head : Option Nat) (pl : List Nat)
    (k : Nat) (htp : s.threads_in_pop = 1)
    (hlinks : Links stack_data.node.next s.heap.cells s.to_delete pl)
    (hnd : (old_head.toList ++ pl).Nodup)
    (hlive : ∀ a ∈ old_head.toList ++ pl, a ∉ s.heap.freed ∧ a < s.heap.cells.length) :
    try_reclaim (pl.length + 1 + k) s old_head =
      .ok ⟨⟨⟨s.heap.cells, old_head.toList ++ (pl.reverse ++ s.heap.freed)⟩, s.head⟩, none, 0⟩ := by
  obtain ⟨⟨⟨cells, freed⟩, head⟩, td, tp⟩ := s
  simp only at htp hlinks hlive
  subst htp
  have hnd2 := List.nodup_append.1 hnd
  have e := delete_nodes_ok pl cells freed td k hlinks hnd2.2.1
    (fun a ha => (hlive a (List.mem_append_right _ ha)).1)
  unfold try_reclaim
  simp only [if_true, lock_free_stack_7_4.unsigned_dec_one, bind, Except.bind, pure, Except.pure, e]
  cases old_head with
  | none => rfl
  | some a =>
    have ha := hlive a (by simp)
    have hnot : a ∉ pl.reverse ++ freed := by
      intro hm
      rcases List.mem_append.1 hm with hm | hm
      · exact List.disjoint_left.1 hnd2.2.2 (show a ∈ (some a).toList by simp) (List.mem_reverse.1 hm)
      · exact ha.1 hm
    rw [Heap.delete_ok (h := (⟨cells, pl.reverse ++ freed⟩ : Heap (stack_data.node T))) hnot ha.2]
    rfl

/-- The path of `try_reclaim` on which the counter is not 0 after its decrement. -/
theorem try_reclaim_entered_eq (entered : Nat) (s : lock_free_stack_7_4 T) (old_head : Option Nat)
    (pl : List Nat) (k : Nat) (htp : s.threads_in_pop = 1)
    (hnz : unsigned_dec (Nat.iterate unsigned_inc entered 1) ≠ 0)
    (hlinks : Links stack_data.node.next s.heap.cells s.to_delete pl)
    (hlive : ∀ a ∈ pl, a ∉ s.heap.freed)
    (hold : ∀ a, old_head = some a → a ∉ s.heap.freed ∧ a < s.heap.cells.length) :
    try_reclaim_entered entered (pl.length + 1 + k) s old_head =
      .ok ⟨⟨⟨s.heap.cells, old_head.toList ++ s.heap.freed⟩, s.head⟩, s.to_delete,
        unsigned_dec (Nat.iterate unsigned_inc entered 1)⟩ := by
  obtain ⟨⟨⟨cells, freed⟩, head⟩, td, tp⟩ := s
  simp only at htp hlinks hlive hold
  subst htp
  have hdel : ∀ c : Nat, (⟨cells, freed⟩ : Heap (stack_data.node T)).delete old_head =
      .ok ⟨cells, old_head.toList ++ freed⟩ := by
    intro _
    cases old_head with
    | none => rfl
    | some a =>
      obtain ⟨h1, h2⟩ := hold a rfl
      rw [Heap.delete_ok (h := (⟨cells, freed⟩ : Heap (stack_data.node T))) h1 h2]
      rfl
  unfold try_reclaim_entered
  simp only [if_true, hnz, if_false, bind, Except.bind, pure, Except.pure]
  cases pl with
  | nil =>
    have htd : td = none := hlinks
    subst htd
    simp only [Option.isSome_none, Bool.false_eq_true, if_false, hdel 0]
  | cons a pl =>
    obtain ⟨n, htd, hn, hrest⟩ := hlinks
    subst htd
    have hk : (a :: pl).length + 1 + k = (pl.length + 1 + k) + 1 := by simp; omega
    obtain ⟨l, nl, e, hnl0, hnlx, hlf0⟩ := find_last_ok pl (⟨cells, freed⟩ : Heap (stack_data.node T)) a
      ((pl.length + 1 + k) + 1) (by omega) ⟨n, rfl, hn, hrest⟩ hlive
    have hnl : cells[l]? = some nl := hnl0
    have hlf : l ∉ freed := hlf0
    have hlt : l < cells.length := by
      by_contra hlt
      rw [List.getElem?_eq_none (by omega)] at hnl
      cases hnl
    have hself : cells.set l { nl with next := none } = cells := by
      have h1 : ({ nl with next := none } : stack_data.node T) = nl := by
        cases nl
        simp only at hnlx
        subst hnlx
        rfl
      rw [h1]
      apply List.ext_getElem?
      intro i
      by_cases hi : l = i
      · subst hi
        rw [List.getElem?_set_self hlt, hnl]
      · rw [List.getElem?_set_ne hi]
    have hr := Heap.read_ok (h := (⟨cells, freed⟩ : Heap (stack_data.node T))) hlf hnl
    have hw := Heap.write_ok (h := (⟨cells, freed⟩ : Heap (stack_data.node T)))
      { nl with next := none } hlf hlt
    rw [hself] at hw
    rw [hk]
    simp only [Option.isSome_some, if_true, chain_pending_nodes]
    simp only [e, chain_pending_nodes_range, hr, hw, chain_loop, hnlx,
      compare_exchange, if_true, bind, Except.bind, pure, Except.pure, hdel 0]

end ref_count_delete_machinery

/-- C19: `try_reclaim(old_head)` called with `threads_in_pop == 1`, a pending chain `pl` linked
from `to_delete`, and `old_head` null or a node outside that chain, all of them allocated and
not deleted.  Its decrement brings `threads_in_pop` to 0; it returns, within `pl.length + 1`
rounds of the loop of `delete_nodes`, with `to_delete` null and with the nodes of the chain and
then `old_head` added to the log of deletions, each of them once; nothing else changes.  In a
single-threaded run from a freshly constructed `lock_free_stack_7_4` every `pop` takes this
path: after any sequence of calls `to_delete` is null and `threads_in_pop` is 0, so the next
`pop` raises it to the 1 that `try_reclaim` sees. -/
theorem try_reclaim_when_alone {T : Type} (s : lock_free_stack_7_4 T) (old_head : Option Nat)
    (pl : List Nat) (k fuel : Nat) (ops : List (Op T)) (htp : s.threads_in_pop = 1)
    (hlinks : Links stack_data.node.next s.heap.cells s.to_delete pl)
    (hnd : (old_head.toList ++ pl).Nodup)
    (hlive : ∀ a ∈ old_head.toList ++ pl, a ∉ s.heap.freed ∧ a < s.heap.cells.length) :
    (∃ s1, ref_count_delete_machinery.try_reclaim (pl.length + 1 + k) s old_head = .ok s1 ∧
      s1.to_delete = none ∧ s1.threads_in_pop = 0 ∧
      s1.heap.freed = old_head.toList ++ (pl.reverse ++ s.heap.freed) ∧
      s1.heap.cells = s.heap.cells ∧ s1.head = s.head) ∧
    (old_head.toList ++ pl.reverse).Nodup ∧
    (∃ rs s1, lock_free_stack_7_4.run (fuel + 1) ops lock_free_stack_7_4.fresh = .ok (rs, s1) ∧
      s1.to_delete = none ∧ s1.threads_in_pop = 0 ∧ unsigned_inc s1.threads_in_pop = 1) := by
  refine ⟨⟨_, ref_count_delete_machinery.try_reclaim_alone_eq s old_head pl k htp hlinks hnd hlive,
    rfl, rfl, rfl, rfl, rfl⟩, ?_, ?_⟩
  · have h := List.nodup_append.1 hnd
    refine List.nodup_append.2 ⟨h.1, List.nodup_reverse.2 h.2.1, ?_⟩
    intro a ha hb
    exact List.disjoint_left.1 h.2.2 ha (List.mem_reverse.1 hb)
  · obtain ⟨s1, h1, _, htd, htp1⟩ := lock_free_stack_7_4.run_refines_7_4 fuel ops
      lock_free_stack_7_4.fresh [] lock_free_stack_7_4.fresh_holds_7_4
    refine ⟨_, s1, h1, htd, htp1, ?_⟩
    rw [htp1]
    exact lock_free_stack_7_4.unsigned_inc_zero

/-- Witness of C19: the node at address 0 has just been popped, the nodes at 1 and 2 are
pending; the run is `push(1); pop()`. -/
theorem try_reclaim_when_alone_witness :
    (∃ s1, ref_count_delete_machinery.try_reclaim 3
        (⟨⟨⟨[⟨none, none⟩, ⟨none, some 2⟩, ⟨none, none⟩], []⟩, none⟩, some 1, 1⟩ :
          lock_free_stack_7_4 Nat) (some 0) = .ok s1 ∧
      s1.to_delete = none ∧ s1.threads_in_pop = 0 ∧ s1.heap.freed = [0, 2, 1] ∧
      s1.heap.cells = [⟨none, none⟩, ⟨none, some 2⟩, ⟨none, none⟩] ∧ s1.head = none) ∧
    ([0, 2, 1] : List Nat).Nodup ∧
    (∃ rs s1, lock_free_stack_7_4.run 1 [Op.push 1, Op.pop]
        (lock_free_stack_7_4.fresh : lock_free_stack_7_4 Nat) = .ok (rs, s1) ∧
      s1.to_delete = none ∧ s1.threads_in_pop = 0 ∧ unsigned_inc s1.threads_in_pop = 1) :=
  try_reclaim_when_alone
    (⟨⟨⟨[⟨none, none⟩, ⟨none, some 2⟩, ⟨none, none⟩], []⟩, none⟩, some 1, 1⟩ :
      lock_free_stack_7_4 Nat) (some 0) [1, 2] 0 0 [Op.push 1, Op.pop] rfl
    ⟨⟨none, some 2⟩, rfl, rfl, ⟨none, none⟩, rfl, rfl, rfl⟩ (by decide) (by decide)

/-- C20, as the code has it: `try_reclaim(old_head)` tests `threads_in_pop == 1` with a pending
chain `pl` linked from `to_delete`; other threads then enter `pop`, so that the counter is not 0
after this thread's decrement.  It returns, within `pl.length + 1` rounds of the loop of
`chain_pending_nodes`, with the whole chain back in `to_delete` and every node as it was; no
node of the chain is deleted, and `old_head` is: the log of deletions gains `old_head`, and
nothing else, when `old_head` is not null. -/
theorem try_reclaim_returns_chain {T : Type} (entered : Nat) (s : lock_free_stack_7_4 T)
    (old_head : Option Nat) (pl : List Nat) (k : Nat) (htp : s.threads_in_pop = 1)
    (hnz : unsigned_dec (Nat.iterate unsigned_inc entered 1) ≠ 0)
    (hlinks : Links stack_data.node.next s.heap.cells s.to_delete pl)
    (hlive : ∀ a ∈ pl, a ∉ s.heap.freed)
    (hold : ∀ a, old_head = some a → a ∉ s.heap.freed ∧ a < s.heap.cells.length) :
    ∃ s1, ref_count_delete_machinery.try_reclaim_entered entered (pl.length + 1 + k) s old_head =
        .ok s1 ∧
      s1.to_delete = s.to_delete ∧ s1.heap.cells = s.heap.cells ∧ s1.head = s.head ∧
      s1.threads_in_pop ≠ 0 ∧ s1.heap.freed = old_head.toList ++ s.heap.freed :=
  ⟨_, ref_count_delete_machinery.try_reclaim_entered_eq entered s old_head pl k htp hnz hlinks
    hlive hold, rfl, rfl, rfl, hnz, rfl⟩

/-- Witness of C20: the node at address 0 has just been popped, the node at 1 is pending, and one
other thread enters `pop`. -/
theorem try_reclaim_returns_chain_witness :
    unsigned_dec (Nat.iterate unsigned_inc 1 1) ≠ 0 ∧
    ∃ s1, ref_count_delete_machinery.try_reclaim_entered 1 2
        (⟨⟨⟨[⟨none, none⟩, ⟨none, none⟩], []⟩, none⟩, some 1, 1⟩ : lock_free_stack_7_4 Nat)
        (some 0) = .ok s1 ∧
      s1.to_delete = some 1 ∧ s1.heap.cells = [⟨none, none⟩, ⟨none, none⟩] ∧ s1.head = none ∧
      s1.threads_in_pop ≠ 0 ∧ s1.heap.freed = [0] :=
  ⟨by decide, try_reclaim_returns_chain 1
    (⟨⟨⟨[⟨none, none⟩, ⟨none, none⟩], []⟩, none⟩, some 1, 1⟩ : lock_free_stack_7_4 Nat)
    (some 0) [1] 0 rfl (by decide) ⟨⟨none, none⟩, rfl, rfl, rfl⟩ (by decide) (by decide)⟩

/-- Counterexample to C20 as stated: the node at address 0 has just been popped, the node at 1 is
pending and `threads_in_pop` is 1 when `try_reclaim` tests it; one other thread enters `pop`
before the decrement, which leaves the counter at 1.  The pending node is chained back, and the
node at address 0, `old_head`, has been deleted. -/
theorem try_reclaim_deletes_old_head :
    ref_count_delete_machinery.try_reclaim_entered 1 2
        (⟨⟨⟨[⟨none, none⟩, ⟨none, none⟩], []⟩, none⟩, some 1, 1⟩ : lock_free_stack_7_4 Nat)
        (some 0) =
      .ok ⟨⟨⟨[⟨none, none⟩, ⟨none, none⟩], [0]⟩, none⟩, some 1, 1⟩ ∧
    ([0] : List Nat) ≠ [] := by
  constructor <;> decide

/-! ## Listing 7.21: a pusher helps a stalled pusher -/

/-- The queue after a node `t1`, so far outside the chain, has been linked behind the node at
`tail`, which now carries `v`. -/
theorem QueueInv.link {N T : Type} {dataOf : N → Option T} {nextOf : N → Option Nat}
    {sentinel0 sentinel1 : N → Prop} {h : Heap N} {head tail : Option Nat} {al : List (Nat × T)}
    {t : Nat} (hi : QueueInv dataOf nextOf sentinel0 h head tail al t) (h1 : Heap N) (t1 : Nat)
    (n nt : N) (v : T) (hf : t1 ∉ h.freed) (hne : t1 ≠ t) (hal : ∀ x ∈ al, x.1 ≠ t1)
    (hfreed : h1.freed = h.freed) (hlen : h.cells.length ≤ h1.cells.length)
    (hsame : ∀ b, b ≠ t → b ≠ t1 → b < h.cells.length → h1.cells[b]? = h.cells[b]?)
    (hn : h1.cells[t]? = some n) (hd : dataOf n = some v) (hnext : nextOf n = some t1)
    (hnt : h1.cells[t1]? = some nt) (hs : sentinel1 nt) :
    QueueInv dataOf nextOf sentinel1 h1 head (some t1) (al ++ [(t, v)]) t1 := by
  have hnd := hi.nodup
  rw [List.nodup_cons] at hnd
  have hlt := hi.seg.seg_addr_lt
  have hseg : Seg dataOf nextOf h1.cells head (some t) al :=
    hi.seg.seg_same_cells (fun x hx => hsame _
      (fun he => hnd.1 (List.mem_map.2 ⟨x, hx, he⟩)) (hal x hx) (hlt x hx))
  refine ⟨hseg.seg_snoc n v hn hd hnext, rfl, ⟨nt, hnt, hs⟩, ?_, ?_, ?_⟩
  · simp only [List.map_append, List.map_cons, List.map_nil, List.nodup_cons, List.mem_append,
      List.mem_singleton, List.mem_map]
    refine ⟨?_, List.Nodup.append hnd.2 (List.nodup_singleton _) ?_⟩
    · rintro (⟨x, hx, he⟩ | he)
      · exact hal x hx he
      · exact hne he
    · intro a ha hat
      rw [List.mem_singleton] at hat
      exact hnd.1 (hat ▸ ha)
  · intro a ha
    rw [hfreed]
    rcases List.mem_cons.1 ha with he | ha
    · rw [he]; exact hf
    · simp only [List.map_append, List.map_cons, List.map_nil, List.mem_append,
        List.mem_singleton] at ha
      rcases ha with ha | he
      · exact hi.live a (List.mem_cons_of_mem _ ha)
      · rw [he]; exact hi.live t (List.mem_cons_self _ _)
  · intro a ha
    rw [hfreed] at ha
    have := hi.freed_lt a ha
    omega

namespace lock_free_queue_RC_tail

theorem increase_external_count_any (fuel : Nat) (c old : counted_node_ptr) :
    increase_external_count (fuel + 2) c old =
      .ok (⟨wrap_int (c.external_count + 1), c.ptr⟩, ⟨wrap_int (c.external_count + 1), c.ptr⟩) := by
  by_cases h : c = old
  · subst h
    exact increase_external_count_eq (fuel + 1) c
  · simp only [increase_external_count, compare_exchange, h, if_false, if_true, pure, Except.pure]

end lock_free_queue_RC_tail

namespace lock_free_queue_RC_tail_modified

open lock_free_queue_RC_tail (counted_node_ptr node_counter node release_ref increase_external_count
  free_external_counter HoldsIn is_sentinel released freed_external)

variable {T : Type}

/-- A round of the loop of `push` that finds the node at `tail` empty: the payload goes there,
the spare node `p` of the pusher is linked behind it and `tail` moves to `p`. -/
theorem push_loop_install {s : lock_free_queue_RC_tail_modified T} {al : List (Nat × T)} {t : Nat}
    (hi : QueueInv node.data (fun n => n.next.ptr) is_sentinel s.heap s.head.ptr s.tail.ptr al t)
    (v : T) (p : Nat) (hp : s.heap.cells[p]? = some node.new) (hpf : p ∉ s.heap.freed)
    (hpt : p ≠ t) (hpal : ∀ x ∈ al, x.1 ≠ p) (fuel inner : Nat) (old_tail : counted_node_ptr) :
    ∃ s1, push_loop (inner + 2) v (fuel + 1) s ⟨1, some p⟩ old_tail = .ok s1 ∧
      QueueInv node.data (fun n => n.next.ptr) is_sentinel s1.heap s1.head.ptr s1.tail.ptr
        (al ++ [(t, v)]) p ∧
      s1.tail = ⟨1, some p⟩ ∧ s1.head = s.head ∧
      (∃ c, s1.heap.cells[t]? = some ⟨some v, c, ⟨1, some p⟩⟩) ∧
      (∀ b, b ≠ t → s1.heap.cells[b]? = s.heap.cells[b]?) := by
  obtain ⟨heap, hd, ⟨et, tp⟩⟩ := s
  have htp : tp = some t := hi.tail_eq
  subst htp
  simp only at hi hp hpf
  obtain ⟨⟨d, c, nx⟩, hnt, hs1, hs2, hs3⟩ := hi.tail_node
  simp only at hs1 hs2 hs3
  subst hs1 hs2
  have htf : t ∉ heap.freed := hi.live t (List.mem_cons_self _ _)
  have hlt := hi.tail_lt
  have e1 := Heap.read_ok htf hnt
  have e2 := Heap.write_ok (h := heap) ⟨some v, c, ⟨0, none⟩⟩ htf hlt
  have e3 : (⟨heap.cells.set t ⟨some v, c, ⟨0, none⟩⟩, heap.freed⟩ : Heap (node T)).read t =
      .ok ⟨some v, c, ⟨0, none⟩⟩ :=
    Heap.read_ok htf (List.getElem?_set_self hlt)
  have e4 := Heap.write_ok
    (h := (⟨heap.cells.set t ⟨some v, c, ⟨0, none⟩⟩, heap.freed⟩ : Heap (node T)))
    ⟨some v, c, ⟨1, some p⟩⟩ htf (by simpa using hlt)
  obtain ⟨h4, e5, hc4, _, hf4⟩ := lock_free_queue_RC_tail.free_external_counter_ok (inner + 1)
    (⟨(heap.cells.set t ⟨some v, c, ⟨0, none⟩⟩).set t ⟨some v, c, ⟨1, some p⟩⟩, heap.freed⟩ :
      Heap (node T))
    ⟨wrap_int (et + 1), some t⟩ t ⟨some v, c, ⟨1, some p⟩⟩ rfl htf
    (List.getElem?_set_self (by simpa using hlt))
  have hcells : h4.cells = heap.cells.set t
      ⟨some v, freed_external (wrap_int (et + 1)) c, ⟨1, some p⟩⟩ := by
    simp only [hc4, List.set_set]
  refine ⟨⟨h4, hd, ⟨1, some p⟩⟩, ?_, ?_, rfl, rfl,
    ⟨_, by rw [hcells]; exact List.getElem?_set_self hlt⟩,
    fun b hb => by rw [hcells]; exact List.getElem?_set_ne (Ne.symm hb)⟩
  · simp only [push_loop, lock_free_queue_RC_tail.increase_external_count_any, e1,
      e2, e3, compare_exchange, if_true, e4, set_new_tail, set_new_tail_loop, e5, bind, Except.bind,
      pure, Except.pure]
  · refine hi.link h4 p ⟨some v, freed_external (wrap_int (et + 1)) c, ⟨1, some p⟩⟩ node.new v hpf
      hpt hpal (hf4 hs3) (by simp [hcells]) (fun b hb _ _ => ?_) ?_ rfl rfl ?_ ⟨rfl, rfl, rfl⟩
    · rw [hcells, List.getElem?_set_ne (Ne.symm hb)]
    · rw [hcells]
      exact List.getElem?_set_self hlt
    · rw [hcells, List.getElem?_set_ne (Ne.symm hpt)]
      exact hp

/-- A round of the loop of `push` that finds a payload in the node at `tail` whose `next` link
is null: the spare node `a` of the pusher is linked behind that node, `tail` moves to `a`, and
the pusher goes on with a new spare node. -/
theorem push_loop_help {s : lock_free_queue_RC_tail_modified T} {al : List (Nat × T)} {t : Nat}
    {u : T}
    (hi : QueueInv node.data (fun n => n.next.ptr) (is_stalled u) s.heap s.head.ptr s.tail.ptr al t)
    (v : T) (a : Nat) (ha : s.heap.cells[a]? = some node.new) (haf : a ∉ s.heap.freed)
    (hat : a ≠ t) (haal : ∀ x ∈ al, x.1 ≠ a) (fuel inner : Nat) :
    ∃ sA old_tail2, push_loop (inner + 2) v (fuel + 1) s ⟨1, some a⟩ s.tail =
        push_loop (inner + 2) v fuel sA ⟨1, some s.heap.cells.length⟩ old_tail2 ∧
      QueueInv node.data (fun n => n.next.ptr) is_sentinel sA.heap sA.head.ptr sA.tail.ptr
        (al ++ [(t, u)]) a ∧
      sA.heap.cells[s.heap.cells.length]? = some node.new ∧
      sA.heap.cells.length = s.heap.cells.length + 1 ∧ sA.heap.freed = s.heap.freed ∧
      sA.head = s.head ∧ (∃ c, sA.heap.cells[t]? = some ⟨some u, c, ⟨1, some a⟩⟩) := by
  obtain ⟨heap, hd, ⟨et, tp⟩⟩ := s
  have htp : tp = some t := hi.tail_eq
  subst htp
  simp only at hi ha haf
  obtain ⟨⟨d, c, nx⟩, hnt, hs1, hs2, hs3⟩ := hi.tail_node
  simp only at hs1 hs2 hs3
  subst hs1 hs2
  have htf : t ∉ heap.freed := hi.live t (List.mem_cons_self _ _)
  have hlt := hi.tail_lt
  have hlt1 : t < (heap.cells.set t (⟨some u, c, ⟨1, some a⟩⟩ : node T) ++ [node.new]).length := by
    simp; omega
  have e1 := Heap.read_ok htf hnt
  have e2 := Heap.write_ok (h := heap) ⟨some u, c, ⟨1, some a⟩⟩ htf hlt
  obtain ⟨h4, e5, hc4, _, hf4⟩ := lock_free_queue_RC_tail.free_external_counter_ok (inner + 1)
    (⟨heap.cells.set t ⟨some u, c, ⟨1, some a⟩⟩ ++ [node.new], heap.freed⟩ : Heap (node T))
    ⟨wrap_int (et + 1), some t⟩ t ⟨some u, c, ⟨1, some a⟩⟩ rfl htf
    (by rw [List.getElem?_append_left (by simpa using hlt)]; exact List.getElem?_set_self hlt)
  have hcells : h4.cells = (heap.cells.set t (⟨some u, c, ⟨1, some a⟩⟩ : node T) ++ [node.new]).set t
      ⟨some u, freed_external (wrap_int (et + 1)) c, ⟨1, some a⟩⟩ := hc4
  have hget : ∀ b, b ≠ t → b < heap.cells.length → h4.cells[b]? = heap.cells[b]? := by
    intro b hb hbl
    rw [hcells, List.getElem?_set_ne (Ne.symm hb), List.getElem?_append_left (by simpa using hbl),
      List.getElem?_set_ne (Ne.symm hb)]
  have halt : a < heap.cells.length := by
    by_contra hge
    rw [List.getElem?_eq_none (by omega)] at ha
    cases ha
  have hnew : h4.cells[heap.cells.length]? = some node.new := by
    rw [hcells, List.getElem?_set_ne (Nat.ne_of_lt hlt)]
    have h0 : heap.cells.length = (heap.cells.set t (⟨some u, c, ⟨1, some a⟩⟩ : node T)).length := by
      simp
    rw [h0, List.getElem?_concat_length]
  refine ⟨⟨h4, hd, ⟨1, some a⟩⟩, ⟨wrap_int (et + 1), some t⟩, ?_, ?_, hnew, by simp [hcells],
    hf4 hs3, rfl, ⟨_, by rw [hcells]; exact List.getElem?_set_self hlt1⟩⟩
  · simp only [push_loop, lock_free_queue_RC_tail.increase_external_count_any, e1, e2,
      compare_exchange, if_true, Heap.alloc, set_new_tail, set_new_tail_loop, e5, List.length_set,
      bind, Except.bind, pure, Except.pure]
  · refine hi.link h4 a ⟨some u, freed_external (wrap_int (et + 1)) c, ⟨1, some a⟩⟩ node.new u haf
      hat haal (hf4 hs3) (by simp [hcells]) (fun b hb _ hbl => hget b hb hbl) ?_ rfl rfl ?_
      ⟨rfl, rfl, rfl⟩
    · rw [hcells]
      exact List.getElem?_set_self hlt1
    · rw [hget a hat halt]
      exact ha

theorem QueueInv_alloc {sentinel : node T → Prop} {h : Heap (node T)} {head tail : Option Nat}
    {al : List (Nat × T)} {t : Nat}
    (hi : QueueInv node.data (fun n => n.next.ptr) sentinel h head tail al t) (n : node T) :
    QueueInv node.data (fun n => n.next.ptr) sentinel ⟨h.cells ++ [n], h.freed⟩ head tail al t := by
  obtain ⟨nt, hnt, hs⟩ := hi.tail_node
  refine ⟨hi.seg.seg_same_cells (fun x hx => ?_), hi.tail_eq, ⟨nt, ?_, hs⟩, hi.nodup, hi.live, ?_⟩
  · exact List.getElem?_append_left (hi.seg.seg_addr_lt x hx)
  · show (h.cells ++ [n])[t]? = some nt
    rw [List.getElem?_append_left hi.tail_lt]
    exact hnt
  · intro a ha
    have := hi.freed_lt a ha
    show a < (h.cells ++ [n]).length
    simp
    omega

/-- The whole of a `push(v)` on a queue with a stalled pusher. -/
theorem push_stalled {s : lock_free_queue_RC_tail_modified T} {al : List (Nat × T)} {t : Nat} {u : T}
    (hi : QueueInv node.data (fun n => n.next.ptr) (is_stalled u) s.heap s.head.ptr s.tail.ptr al t)
    (v : T) (fuel : Nat) :
    ∃ s1, push (fuel + 2) s v = .ok s1 ∧
      QueueInv node.data (fun n => n.next.ptr) is_sentinel s1.heap s1.head.ptr s1.tail.ptr
        (al ++ [(t, u)] ++ [(s.heap.cells.length, v)]) (s.heap.cells.length + 1) ∧
      s1.tail = ⟨1, some (s.heap.cells.length + 1)⟩ ∧
      (∃ c, s1.heap.cells[t]? = some ⟨some u, c, ⟨1, some s.heap.cells.length⟩⟩) ∧
      (∃ c, s1.heap.cells[s.heap.cells.length]? =
        some ⟨some v, c, ⟨1, some (s.heap.cells.length + 1)⟩⟩) := by
  have hi1 := QueueInv_alloc hi node.new
  obtain ⟨hfr, hne, hal⟩ := hi.fresh_addr
  obtain ⟨sA, ot, e1, hiA, hnew, hlenA, hfreedA, _, c1, hc1⟩ :=
    push_loop_help (s := ⟨⟨s.heap.cells ++ [node.new], s.heap.freed⟩, s.head, s.tail⟩) hi1 v
      s.heap.cells.length (List.getElem?_concat_length _ _) hfr hne hal (fuel + 1) fuel
  have hlen1 : (s.heap.cells ++ [(node.new : node T)]).length = s.heap.cells.length + 1 := by simp
  simp only [hlen1] at e1 hnew hlenA
  have hlt := hi.tail_lt
  obtain ⟨s1, e2, hi2, htl, _, ⟨c2, hc2⟩, hframe⟩ := push_loop_install hiA v (s.heap.cells.length + 1)
    hnew (fun hm => by
      rw [hfreedA] at hm
      have := hi.freed_lt _ hm
      omega) (by omega) (fun x hx he => by
      rcases List.mem_append.1 hx with hx | hx
      · have := hi.seg.seg_addr_lt x hx
        omega
      · rw [List.mem_singleton] at hx
        subst hx
        simp only at he
        omega) fuel fuel ot
  refine ⟨s1, ?_, hi2, htl, ⟨c1, ?_⟩, ⟨c2, hc2⟩⟩
  · have e0 : push (fuel + 2) s v = push_loop (fuel + 2) v (fuel + 1 + 1)
        ⟨⟨s.heap.cells ++ [node.new], s.heap.freed⟩, s.head, s.tail⟩ ⟨1, some s.heap.cells.length⟩
        s.tail := rfl
    rw [e0, e1, e2]
  · rw [hframe t (Nat.ne_of_lt hlt)]
    exact hc1

end lock_free_queue_RC_tail_modified

/-- C12: a `lock_free_queue_RC_tail_modified` holds `l` and a pusher has stalled on it after it
won the race to install its payload `u`: the node at `tail` holds `u`, its `next` link is null
and `tail` has not been advanced.  A `push(v)` that then runs without interference returns
without a fault within two rounds of each of its loops.  It has linked its spare node (at the
address `a`) behind the stalled node, moved `tail` past it, installed `v` in the node at `a` and
linked a new empty node behind that one, to which `tail` points at the end; the queue then holds
`l`, `u`, `v`, so that pops return the values of `l`, then `u`, then `v`, then the null
result. -/
theorem push_helps_stalled_pusher {T : Type} (s : lock_free_queue_RC_tail_modified T) (l : List T)
    (u v : T) (fuel : Nat) (h : lock_free_queue_RC_tail_modified.Stalled s l u) :
    ∃ s1, lock_free_queue_RC_tail_modified.push (fuel + 2) s v = .ok s1 ∧
      (∃ t c1 c2, s.tail.ptr = some t ∧
        s1.heap.cells[t]? = some ⟨some u, c1, ⟨1, some s.heap.cells.length⟩⟩ ∧
        s1.heap.cells[s.heap.cells.length]? =
          some ⟨some v, c2, ⟨1, some (s.heap.cells.length + 1)⟩⟩ ∧
        s1.tail = ⟨1, some (s.heap.cells.length + 1)⟩) ∧
      lock_free_queue_RC_tail.HoldsIn s1.heap s1.head s1.tail (l ++ [u, v]) ∧
      ∃ s2, lock_free_queue_RC_tail_modified.run (fuel + 1) (pops (l.length + 3)) s1 =
        .ok (l.map some ++ [some u, some v, none], s2) := by
  obtain ⟨al, t, hi, hl⟩ := h
  obtain ⟨s1, e, hi1, htl, ⟨c1, hc1⟩, ⟨c2, hc2⟩⟩ := lock_free_queue_RC_tail_modified.push_stalled hi v fuel
  have hold : lock_free_queue_RC_tail.HoldsIn s1.heap s1.head s1.tail (l ++ [u, v]) :=
    ⟨_, _, hi1, by simp [hl]⟩
  obtain ⟨s2, e2, _⟩ := lock_free_queue_RC_tail_modified.run_refines_mod fuel (pops (l.length + 3)) s1
    (l ++ [u, v]) hold
  refine ⟨s1, e, ⟨t, c1, c2, hi.tail_eq, hc1, hc2, htl⟩, hold, s2, ?_⟩
  rw [e2]
  have hlen : l.length + 3 = (l ++ [u, v]).length + 1 := by simp
  rw [hlen, spec_results_pops]
  simp

/-- Witness of C12: on a new queue the pusher of 7 has stalled with its payload installed (its
spare node is at address 1); a second thread pushes 8. -/
theorem push_helps_stalled_pusher_witness :
    lock_free_queue_RC_tail_modified.Stalled
      (⟨⟨[⟨some 7, ⟨0, 2⟩, ⟨0, none⟩⟩, lock_free_queue_RC_tail.node.new], []⟩, ⟨0, some 0⟩,
        ⟨1, some 0⟩⟩ : lock_free_queue_RC_tail_modified Nat) [] 7 ∧
    ∃ s1, lock_free_queue_RC_tail_modified.push 2
        (⟨⟨[⟨some 7, ⟨0, 2⟩, ⟨0, none⟩⟩, lock_free_queue_RC_tail.node.new], []⟩, ⟨0, some 0⟩,
          ⟨1, some 0⟩⟩ : lock_free_queue_RC_tail_modified Nat) 8 = .ok s1 ∧
      (∃ t c1 c2, (some 0 : Option Nat) = some t ∧
        s1.heap.cells[t]? = some ⟨some 7, c1, ⟨1, some 2⟩⟩ ∧
        s1.heap.cells[2]? = some ⟨some 8, c2, ⟨1, some 3⟩⟩ ∧
        s1.tail = ⟨1, some 3⟩) ∧
      lock_free_queue_RC_tail.HoldsIn s1.heap s1.head s1.tail [7, 8] ∧
      ∃ s2, lock_free_queue_RC_tail_modified.run 1 (pops 3) s1 =
        .ok ([some 7, some 8, none], s2) :=
  have hs : lock_free_queue_RC_tail_modified.Stalled
      (⟨⟨[⟨some 7, ⟨0, 2⟩, ⟨0, none⟩⟩, lock_free_queue_RC_tail.node.new], []⟩, ⟨0, some 0⟩,
        ⟨1, some 0⟩⟩ : lock_free_queue_RC_tail_modified Nat) [] 7 :=
    ⟨[], 0, ⟨rfl, rfl, ⟨_, rfl, rfl, rfl, rfl⟩, by simp, by simp, by simp⟩, rfl⟩
  ⟨hs, push_helps_stalled_pusher _ [] 7 8 0 hs⟩

/-! ## The parallel versions of `std::accumulate` -/

theorem wrap_int_add_left (a b : Int) : wrap_int (wrap_int a + b) = wrap_int (a + b) := by
  unfold wrap_int
  omega

theorem wrap_int_add_right (a b : Int) : wrap_int (a + wrap_int b) = wrap_int (a + b) := by
  unfold wrap_int
  omega

theorem wrap_int_wrap (a : Int) : wrap_int (wrap_int a) = wrap_int a := by
  unfold wrap_int
  omega

theorem wrap_int_congr_add {a a1 b b1 : Int} (ha : wrap_int a = wrap_int a1)
    (hb : wrap_int b = wrap_int b1) : wrap_int (a + b) = wrap_int (a1 + b1) := by
  unfold wrap_int at ha hb ⊢
  omega

/-- The result of `std::accumulate` on `int` is the sum of `init` and the elements, modulo 2 to
the power 32. -/
theorem accumulate_wrap (xs : List Int) (init : Int) :
    wrap_int (accumulate xs init) = wrap_int (init + xs.sum) := by
  induction xs generalizing init with
  | nil => simp [accumulate]
  | cons x xs ih =>
    have h : accumulate (x :: xs) init = accumulate xs (int_add init x) := rfl
    rw [h, ih, List.sum_cons, int_add]
    have h1 : init + (x + xs.sum) = init + x + xs.sum := by omega
    rw [h1, wrap_int_add_left]

theorem accumulate_wrapped (xs : List Int) (init : Int) (h : wrap_int init = init) :
    wrap_int (accumulate xs init) = accumulate xs init := by
  induction xs generalizing init with
  | nil => exact h
  | cons x xs ih =>
    have h1 : accumulate (x :: xs) init = accumulate xs (int_add init x) := rfl
    rw [h1]
    exact ih _ (wrap_int_wrap _)

theorem accumulate_eq (xs : List Int) (init : Int) (h : xs ≠ []) :
    accumulate xs init = wrap_int (init + xs.sum) := by
  rw [← accumulate_wrap]
  cases xs with
  | nil => exact absurd rfl h
  | cons x xs =>
    have h1 : accumulate (x :: xs) init = accumulate xs (int_add init x) := rfl
    rw [h1]
    exact (accumulate_wrapped _ _ (wrap_int_wrap _)).symm

theorem advance_ok {rest : List Int} {n : Nat} (h : n ≤ rest.length) :
    advance rest n = .ok (rest.take n, rest.drop n) := by
  simp [advance, h]

theorem start_blocks_sum (task : List Int → Int) (htask : ∀ b, wrap_int (task b) = wrap_int b.sum)
    (block_size : Nat) :
    ∀ (count : Nat) (rest : List Int), count * block_size ≤ rest.length →
    ∃ results rest1, start_blocks task block_size count rest = .ok (results, rest1) ∧
      wrap_int (results.sum + rest1.sum) = wrap_int rest.sum := by
  intro count
  induction count with
  | zero =>
    intro rest _
    exact ⟨[], rest, rfl, by simp⟩
  | succ count ih =>
    intro rest h
    have hb : block_size ≤ rest.length := by
      have : (count + 1) * block_size = count * block_size + block_size := Nat.succ_mul _ _
      omega
    obtain ⟨results, rest1, e, hs⟩ := ih (rest.drop block_size) (by
      have : (count + 1) * block_size = count * block_size + block_size := Nat.succ_mul _ _
      simp only [List.length_drop]
      omega)
    refine ⟨task (rest.take block_size) :: results, rest1, ?_, ?_⟩
    · simp only [start_blocks, advance_ok hb, e, bind, Except.bind, pure, Except.pure]
    · have h1 : (rest.take block_size).sum + (rest.drop block_size).sum = rest.sum := by
        rw [← List.sum_append, List.take_append_drop]
      rw [List.sum_cons, Int.add_assoc, ← h1]
      exact wrap_int_congr_add (htask _) hs

theorem num_threads_for_pos (hardware_concurrency length : Nat) (h : length ≠ 0) :
    num_threads_for hardware_concurrency length ≠ 0 ∧
    (num_threads_for hardware_concurrency length - 1) *
      (length / num_threads_for hardware_concurrency length) ≤ length := by
  have h1 : num_threads_for hardware_concurrency length ≠ 0 := by
    unfold num_threads_for
    simp only
    split <;> omega
  refine ⟨h1, ?_⟩
  generalize num_threads_for hardware_concurrency length = n at h1 ⊢
  calc (n - 1) * (length / n) ≤ n * (length / n) := Nat.mul_le_mul_right _ (Nat.sub_le _ _)
    _ ≤ length := Nat.mul_div_le _ _

theorem parallel_accumulate_8_2_eq (hardware_concurrency : Nat) (xs : List Int) (init : Int) :
    parallel_accumulate_8_2 hardware_concurrency xs init = .ok (accumulate xs init) := by
  unfold parallel_accumulate_8_2
  by_cases h : xs.length = 0
  · have hx : xs = [] := List.length_eq_zero.1 h
    subst hx
    simp [pure, Except.pure, accumulate]
  · have hne : xs ≠ [] := fun h0 => h (by rw [h0]; rfl)
    obtain ⟨hn, hle⟩ := num_threads_for_pos hardware_concurrency xs.length h
    obtain ⟨results, rest, e, hs⟩ := start_blocks_sum (fun block => accumulate_block_into block 0)
      (fun b => by simpa [accumulate_block_into] using accumulate_wrap b 0)
      (xs.length / num_threads_for hardware_concurrency xs.length)
      (num_threads_for hardware_concurrency xs.length - 1) xs hle
    simp only [h, if_false, divide, hn, e, bind, Except.bind, pure, Except.pure]
    rw [accumulate_eq _ _ (by simp), accumulate_eq _ _ hne]
    simp only [accumulate_block_into, List.sum_append, List.sum_cons, List.sum_nil]
    congr 1
    have h1 := accumulate_wrap rest 0
    simp only [wrap_int] at hs h1 ⊢
    omega

theorem parallel_accumulate_8_4_eq (hardware_concurrency : Nat) (xs : List Int) (init : Int) :
    parallel_accumulate_8_4 hardware_concurrency xs init = .ok (accumulate xs init) := by
  unfold parallel_accumulate_8_4
  by_cases h : xs.length = 0
  · have hx : xs = [] := List.length_eq_zero.1 h
    subst hx
    simp [pure, Except.pure, accumulate]
  · have hne : xs ≠ [] := fun h0 => h (by rw [h0]; rfl)
    obtain ⟨hn, hle⟩ := num_threads_for_pos hardware_concurrency xs.length h
    obtain ⟨futures, rest, e, hs⟩ := start_blocks_sum accumulate_block
      (fun b => by simpa [accumulate_block] using accumulate_wrap b 0)
      (xs.length / num_threads_for hardware_concurrency xs.length)
      (num_threads_for hardware_concurrency xs.length - 1) xs hle
    have hf : futures.foldl (fun result future => int_add result future) init =
        accumulate futures init := rfl
    simp only [h, if_false, divide, hn, e, bind, Except.bind, pure, Except.pure]
    rw [hf, accumulate_eq _ _ hne, int_add]
    congr 1
    have h1 := accumulate_wrap rest 0
    have h2 := accumulate_wrap futures init
    simp only [wrap_int, accumulate_block] at hs h1 h2 ⊢
    omega

theorem parallel_accumulate_8_5_eq : ∀ (fuel : Nat) (xs : List Int) (init : Int),
    xs.length < fuel → parallel_accumulate_8_5 fuel xs init = .ok (accumulate xs init) := by
  intro fuel
  induction fuel with
  | zero => intro xs init h; omega
  | succ fuel ih =>
    intro xs init h
    unfold parallel_accumulate_8_5
    by_cases hl : xs.length ≤ 25
    · simp only [hl, if_true, pure, Except.pure]
    · have hhalf : xs.length / 2 ≤ xs.length := Nat.div_le_self _ _
      have hne : xs ≠ [] := by
        intro h0
        rw [h0] at hl
        simp at hl
      have e1 := ih (xs.take (xs.length / 2)) init (by simp only [List.length_take]; omega)
      have e2 := ih (xs.drop (xs.length / 2)) 0 (by simp only [List.length_drop]; omega)
      have h1 : (xs.take (xs.length / 2)).sum + (xs.drop (xs.length / 2)).sum = xs.sum := by
        rw [← List.sum_append, List.take_append_drop]
      simp only [hl, if_false, advance_ok hhalf, e1, e2, bind, Except.bind, pure, Except.pure]
      rw [accumulate_eq _ _ hne, int_add]
      congr 1
      have h2 := accumulate_wrap (xs.take (xs.length / 2)) init
      have h3 := accumulate_wrap (xs.drop (xs.length / 2)) 0
      simp only [wrap_int] at h2 h3 ⊢
      omega

/-! ## Listing 9.3: the tasks go through the queue of the pool -/

theorem worker_step_no_thread (fuel : Nat) (pool : thread_pool_9_2) (i : Nat)
    (h : pool.threads = []) : pool.worker_step fuel i = .ok pool := by
  simp [thread_pool_9_2.worker_step, h, pure, Except.pure]

/-- Without worker threads the calling thread of `parallel_accumulate_9_3` submits its block and
then waits at `futures[0].get()`, whatever the schedule. -/
theorem accumulate_9_3_run_waits : ∀ (schedule : List (Option Nat)) (s : accumulate_9_3_state),
    (s = ⟨thread_pool_9_2.fresh 0, .submitting 0,
        [1, 2, 3, 4, 5, 6, 7, 8, 9, 10, 11, 12, 13, 14, 15, 16, 17, 18, 19, 20, 21, 22, 23, 24, 25,
          26, 27], [], 0, 0⟩ ∨
      (s.pool.threads = [] ∧ s.futures = [0] ∧ s.pool.futures = [none] ∧
        (s.pc = .submitting 1 ∨ s.pc = .getting 0))) →
    ∃ s1, accumulate_9_3_run 2 2 schedule s = .ok s1 ∧ s1.pc ≠ .returned := by
  intro schedule
  induction schedule with
  | nil =>
    intro s h
    refine ⟨s, rfl, ?_⟩
    rcases h with rfl | ⟨_, _, _, h | h⟩
    · simp
    · simp [h]
    · simp [h]
  | cons t schedule ih =>
    intro s h
    have hthreads : s.pool.threads = [] := by
      rcases h with rfl | ⟨h, _⟩
      · rfl
      · exact h
    cases t with
    | some i =>
      have e := worker_step_no_thread 2 s.pool i hthreads
      simp only [accumulate_9_3_run, e, bind, Except.bind]
      exact ih s h
    | none =>
      rcases h with rfl | ⟨h1, h2, h3, h4 | h4⟩
      · obtain ⟨s1, e, h5⟩ : ∃ s1, accumulate_9_3_step 2 2
            ⟨thread_pool_9_2.fresh 0, .submitting 0,
              [1, 2, 3, 4, 5, 6, 7, 8, 9, 10, 11, 12, 13, 14, 15, 16, 17, 18, 19, 20, 21, 22, 23,
                24, 25, 26, 27], [], 0, 0⟩ = .ok s1 ∧
            (s1.pool.threads = [] ∧ s1.futures = [0] ∧ s1.pool.futures = [none] ∧
              (s1.pc = .submitting 1 ∨ s1.pc = .getting 0)) :=
          ⟨_, rfl, rfl, rfl, rfl, Or.inl rfl⟩
        simp only [accumulate_9_3_run, e, bind, Except.bind]
        exact ih s1 (Or.inr h5)
      · have e : accumulate_9_3_step 2 2 s =
            .ok { s with last_result := accumulate_block s.block_start, pc := .getting 0 } := by
          simp [accumulate_9_3_step, h4, pure, Except.pure]
        simp only [accumulate_9_3_run, e, bind, Except.bind]
        exact ih _ (Or.inr ⟨h1, h2, h3, Or.inr rfl⟩)
      · have e : accumulate_9_3_step 2 2 s = .ok s := by
          simp [accumulate_9_3_step, h4, h2, h3, pure, Except.pure]
        simp only [accumulate_9_3_run, e, bind, Except.bind]
        exact ih s (Or.inr ⟨h1, h2, h3, Or.inr h4⟩)

set_option maxRecDepth 100000 in
/-- C13: `parallel_accumulate_9_3` does not return the sum on the sequence 1, ..., 27 of
`Ch.9/source.cpp`, which it splits into a submitted block and a last block.  With two worker
threads and the schedule in which the worker 0 runs one `pop` on the empty queue, the caller
submits the block, the worker 0 enters `pop` and raises the count of `head`, the worker 1 runs
a whole `pop` and the task, and the worker 0 goes on, the worker 1 has deleted the node that
the worker 0 then reads: the run ends in a use of a deleted node.  Without worker threads
(`hardware_concurrency` 0) the caller waits at `futures[0].get()` under every schedule and the
call never returns.  With one worker thread, under the schedule given, the call returns 378;
and `parallel_accumulate_8_2`, `parallel_accumulate_8_4` and `parallel_accumulate_8_5` return
what `std::accumulate(first, last, init)` returns, for every sequence, every `init` and every
value of `hardware_concurrency`. -/
theorem parallel_accumulate_9_3_reads_deleted_node :
    parallel_accumulate_9_3 2 2
      [1, 2, 3, 4, 5, 6, 7, 8, 9, 10, 11, 12, 13, 14, 15, 16, 17, 18, 19, 20, 21, 22, 23, 24, 25,
        26, 27] 0 [some 0, some 0, none, some 0, some 1, some 1, some 0] =
      .error .use_after_free ∧
    (∀ schedule, parallel_accumulate_9_3 2 0
      [1, 2, 3, 4, 5, 6, 7, 8, 9, 10, 11, 12, 13, 14, 15, 16, 17, 18, 19, 20, 21, 22, 23, 24, 25,
        26, 27] 0 schedule = .error .out_of_fuel) ∧
    parallel_accumulate_9_3 2 1
      [1, 2, 3, 4, 5, 6, 7, 8, 9, 10, 11, 12, 13, 14, 15, 16, 17, 18, 19, 20, 21, 22, 23, 24, 25,
        26, 27] 0 [none, none, some 0, some 0, none, none, some 0, none] = .ok 378 ∧
    accumulate
      [1, 2, 3, 4, 5, 6, 7, 8, 9, 10, 11, 12, 13, 14, 15, 16, 17, 18, 19, 20, 21, 22, 23, 24, 25,
        26, 27] 0 = 378 ∧
    ∀ (hardware_concurrency : Nat) (xs : List Int) (init : Int),
      parallel_accumulate_8_2 hardware_concurrency xs init = .ok (accumulate xs init) ∧
      parallel_accumulate_8_4 hardware_concurrency xs init = .ok (accumulate xs init) ∧
      parallel_accumulate_8_5 (xs.length + 1) xs init = .ok (accumulate xs init) := by
  refine ⟨by decide, fun schedule => ?_, by rfl, by rfl, fun hardware_concurrency xs init =>
    ⟨parallel_accumulate_8_2_eq hardware_concurrency xs init,
      parallel_accumulate_8_4_eq hardware_concurrency xs init,
      parallel_accumulate_8_5_eq _ xs init (Nat.lt_succ_self _)⟩⟩
  obtain ⟨s1, e, h⟩ := accumulate_9_3_run_waits schedule _ (Or.inl rfl)
  simp only [parallel_accumulate_9_3, List.length_cons, List.length_nil, bind, Except.bind]
  have e1 : accumulate_9_3_run 2 ((0 + 1 + 1 + 1 + 1 + 1 + 1 + 1 + 1 + 1 + 1 + 1 + 1 + 1 + 1 + 1 +
      1 + 1 + 1 + 1 + 1 + 1 + 1 + 1 + 1 + 1 + 1 + 1 + 25 - 1) / 25) schedule
      ⟨thread_pool_9_2.fresh 0, .submitting 0,
        [1, 2, 3, 4, 5, 6, 7, 8, 9, 10, 11, 12, 13, 14, 15, 16, 17, 18, 19, 20, 21, 22, 23, 24, 25,
          26, 27], [], 0, 0⟩ = .ok s1 := e
  simp [e1, h]

/-! ## Partial sums in parallel -/

/-- The running sum enters `std::partial_sum` only through the sums it is part of: two values
that are equal modulo 2 to the power 32 give the same partial sums. -/
theorem partial_sum_from_congr (acc acc1 : Int) (h : wrap_int acc = wrap_int acc1) (c : List Int) :
    partial_sum_from acc c = partial_sum_from acc1 c := by
  cases c with
  | nil => rfl
  | cons x c =>
    have h1 : int_add acc x = int_add acc1 x := wrap_int_congr_add h rfl
    simp only [partial_sum_from, h1]

theorem partial_sum_from_append (acc : Int) (a b : List Int) :
    partial_sum_from acc (a ++ b) = partial_sum_from acc a ++ partial_sum_from (acc + a.sum) b := by
  induction a generalizing acc with
  | nil => simp [partial_sum_from]
  | cons x a ih =>
    show partial_sum_from acc (x :: (a ++ b)) = _
    simp only [partial_sum_from, List.sum_cons, List.cons_append, ih, List.cons.injEq, true_and,
      List.append_cancel_left_eq]
    refine partial_sum_from_congr _ _ ?_ b
    rw [int_add, wrap_int_add_left, Int.add_assoc]

theorem partial_sum_from_getLast (acc : Int) (c : List Int) (x : Int) :
    (partial_sum_from acc (c ++ [x])).getLast? = some (int_add (acc + c.sum) x) := by
  rw [partial_sum_from_append]
  simp [partial_sum_from]

theorem partial_sum_from_map (acc d : Int) (c : List Int) :
    (partial_sum_from acc c).map (fun item => int_add item d) = partial_sum_from (acc + d) c := by
  induction c generalizing acc with
  | nil => rfl
  | cons x c ih =>
    simp only [partial_sum_from, List.map_cons, ih, List.cons.injEq]
    have h : int_add (int_add acc x) d = int_add (acc + d) x := by
      simp only [int_add, wrap_int]
      omega
    refine ⟨h, partial_sum_from_congr _ _ ?_ c⟩
    simp only [int_add, wrap_int]
    omega

theorem partial_sum_cons (x : Int) (xs : List Int) :
    partial_sum (x :: xs) = x :: partial_sum_from x xs := rfl

/-- What `process_chunk` leaves in a chunk and in its promise: the partial sums of the chunk,
continued from the end value of the chunk before, and an end value from which the partial sums
of the elements after the chunk continue. -/
theorem process_chunk_ok (chunk : List Int) (h : chunk ≠ []) (previous : Option Int)
    (has_end_value : Bool) :
    ∃ e, process_chunk chunk previous has_end_value =
        .ok (chunk_sums previous chunk, if has_end_value then some e else none) ∧
      ∀ c, chunk_sums previous (chunk ++ c) = chunk_sums previous chunk ++ partial_sum_from e c := by
  obtain ⟨y, cs, rfl⟩ : ∃ y cs, chunk = y :: cs := by
    cases chunk with
    | nil => exact absurd rfl h
    | cons y cs => exact ⟨y, cs, rfl⟩
  have hlast : ∃ lv, (partial_sum (y :: cs)).getLast? = some lv ∧
      wrap_int lv = wrap_int (y + cs.sum) ∧
      (partial_sum (y :: cs)).dropLast ++ [lv] = partial_sum (y :: cs) := by
    obtain ⟨lv, hlv⟩ : ∃ lv, (partial_sum (y :: cs)).getLast? = some lv := by
      rw [partial_sum_cons]
      exact ⟨_, List.getLast?_eq_getLast _ (by simp)⟩
    refine ⟨lv, hlv, ?_, List.dropLast_append_getLast? _ hlv⟩
    rw [partial_sum_cons] at hlv
    by_cases hcs : cs = []
    · subst hcs
      simp only [partial_sum_from, List.getLast?_singleton, Option.some.injEq] at hlv
      subst hlv
      simp
    · obtain ⟨c1, z, rfl⟩ : ∃ c1 z, cs = c1 ++ [z] :=
        ⟨cs.dropLast, cs.getLast hcs, (List.dropLast_append_getLast hcs).symm⟩
      have h2 : (y :: partial_sum_from y (c1 ++ [z])).getLast? =
          some (int_add (y + c1.sum) z) := by
        rw [partial_sum_from_append]
        show ((y :: partial_sum_from y c1) ++ [int_add (y + c1.sum) z]).getLast? = _
        rw [List.getLast?_append]
        rfl
      rw [h2] at hlv
      cases hlv
      rw [int_add, wrap_int_wrap, List.sum_append, List.sum_singleton, Int.add_assoc]
  obtain ⟨lv, hlv, hw, hdrop⟩ := hlast
  cases previous with
  | none =>
    refine ⟨lv, ?_, fun c => ?_⟩
    · simp only [process_chunk, hlv, chunk_sums]
    · show partial_sum (y :: (cs ++ c)) = partial_sum (y :: cs) ++ _
      rw [partial_sum_cons, partial_sum_cons, partial_sum_from_append, List.cons_append]
      congr 2
      exact partial_sum_from_congr _ _ hw.symm c
  | some addend =>
    refine ⟨int_add lv addend, ?_, fun c => ?_⟩
    · simp only [process_chunk, hlv, chunk_sums]
      have h1 : (partial_sum (y :: cs)).dropLast.map (fun item => int_add item addend) ++
          [int_add lv addend] = partial_sum_from addend (y :: cs) := by
        have h2 := congrArg (List.map (fun item => int_add item addend)) hdrop
        rw [List.map_append, List.map_singleton] at h2
        rw [h2, partial_sum_cons, List.map_cons, partial_sum_from_map]
        simp only [partial_sum_from, List.cons.injEq]
        have h3 : int_add y addend = int_add addend y := by
          simp only [int_add, wrap_int]
          omega
        refine ⟨h3, partial_sum_from_congr _ _ ?_ cs⟩
        simp only [int_add, wrap_int]
        omega
      rw [h1]
    · show partial_sum_from addend ((y :: cs) ++ c) = partial_sum_from addend (y :: cs) ++ _
      rw [partial_sum_from_append]
      congr 1
      refine partial_sum_from_congr _ _ ?_ c
      simp only [int_add, wrap_int, List.sum_cons] at hw ⊢
      omega

theorem chunk_sums_nil (previous : Option Int) : chunk_sums previous [] = [] := by
  cases previous <;> rfl

theorem chunk_threads_ok (block_size : Nat) (hb : block_size ≠ 0) :
    ∀ (count : Nat) (rest : List Int) (previous : Option Int), count * block_size ≤ rest.length →
    ∃ last_end, chunk_threads block_size count rest previous =
        .ok (chunk_sums previous (rest.take (count * block_size)), rest.drop (count * block_size),
          last_end) ∧
      (count = 0 → last_end = previous) ∧
      ∀ c, chunk_sums previous (rest.take (count * block_size) ++ c) =
        chunk_sums previous (rest.take (count * block_size)) ++ chunk_sums last_end c := by
  intro count
  induction count with
  | zero =>
    intro rest previous _
    refine ⟨previous, ?_, fun _ => rfl, fun c => ?_⟩
    · simp [chunk_threads, chunk_sums_nil]
    · simp [chunk_sums_nil]
  | succ count ih =>
    intro rest previous h
    have hm : (count + 1) * block_size = block_size + count * block_size := by
      rw [Nat.succ_mul, Nat.add_comm]
    have hle : block_size ≤ rest.length := by omega
    have hne : rest.take block_size ≠ [] := by
      intro he
      have := congrArg List.length he
      simp only [List.length_take, List.length_nil] at this
      omega
    obtain ⟨e, e1, hcont⟩ := process_chunk_ok (rest.take block_size) hne previous true
    obtain ⟨last_end, e2, _, hcont2⟩ := ih (rest.drop block_size) (some e) (by
      simp only [List.length_drop]
      omega)
    have hsplit : rest.take (block_size + count * block_size) =
        rest.take block_size ++ (rest.drop block_size).take (count * block_size) := by
      rw [List.take_add]
    refine ⟨last_end, ?_, fun h0 => absurd h0 (Nat.succ_ne_zero _), fun c => ?_⟩
    · simp only [chunk_threads, hb, if_false, advance_ok hle, e1, if_true, e2, bind,
        Except.bind, pure, Except.pure]
      rw [hm, hsplit, hcont, List.drop_drop]
      rfl
    · rw [hm, hsplit, List.append_assoc, hcont, hcont]
      have h1 := hcont2 c
      simp only [chunk_sums] at h1
      rw [h1, List.append_assoc]
      rfl

theorem num_threads_for_le (hardware_concurrency length : Nat) (_h : length ≠ 0) :
    num_threads_for hardware_concurrency length ≤ length := by
  unfold num_threads_for
  simp only
  have : (length + 25 - 1) / 25 ≤ length := by omega
  exact le_trans (Nat.min_le_right _ _) this

/-- C16, evaluated on the sequence 1, 2, ..., 9 of `Ch.8/source.cpp`, all threads advancing in
lockstep through the rounds of the barrier: `parallel_partial_sum_8_13` leaves
1, 3, 5, 10, 15, 21, 27, 36, 44 in the range, where the partial sums are
1, 3, 6, 10, 15, 21, 28, 36, 45.  After the first round `buffer` holds 0 at position 0, which
the thread of the element 0 never writes, and the thread of the element 2 adds it in the second
round in place of the first element; already on 1, 2, 3 the last element comes out as 5. -/
theorem pairwise_partial_sum_misses_elements :
    parallel_partial_sum_8_13 [1, 2, 3, 4, 5, 6, 7, 8, 9] = [1, 3, 5, 10, 15, 21, 27, 36, 44] ∧
    partial_sum [1, 2, 3, 4, 5, 6, 7, 8, 9] = [1, 3, 6, 10, 15, 21, 28, 36, 45] ∧
    barrier_rounds 9 1 0 1 ⟨[1, 2, 3, 4, 5, 6, 7, 8, 9], List.replicate 9 0⟩ =
      ⟨[1, 2, 3, 4, 5, 6, 7, 8, 9], [0, 3, 5, 7, 9, 11, 13, 15, 17]⟩ ∧
    parallel_partial_sum_8_13 [1, 2, 3] = [1, 3, 5] := by
  refine ⟨?_, ?_, ?_, ?_⟩ <;> decide

/-! ## Parallel find: Listing 8.9 -/

theorem getElem?_set_of_some {α : Type} {l : List α} {i : Nat} {a : α} (h : l[i]? = some a)
    (a1 : α) (j : Nat) : (l.set i a1)[j]? = if j = i then some a1 else l[j]? := by
  have hlt : i < l.length := by
    by_contra hge
    rw [List.getElem?_eq_none (by omega)] at h
    cases h
  by_cases hj : j = i
  · subst hj
    simp [List.getElem?_set_self hlt]
  · simp [hj, List.getElem?_set_ne (Ne.symm hj)]

namespace find_state_8_9

theorem thread_ok_mono {xs : List Int} {m : Int} {b : Nat × Nat} {result result1 : Option Nat}
    {t : find_element_thread} (hmono : result.isSome = true → result1.isSome = true)
    (h : thread_ok xs m b result t) : thread_ok xs m b result1 t := by
  unfold thread_ok at h ⊢
  cases hpc : t.pc with
  | looping => simpa [hpc] using h
  | setting => simpa [hpc] using h
  | storing =>
    simp only [hpc] at h ⊢
    exact hmono h
  | finished =>
    simp only [hpc] at h ⊢
    exact h.imp id hmono

/-- The invariant after the thread `i` has gone from `t` to `t1`. -/
theorem Inv.update {xs : List Int} {m : Int} {blocks : List (Nat × Nat)} {s : find_state_8_9}
    (hi : Inv xs m blocks s) {i : Nat} {t : find_element_thread} (ht : s.threads[i]? = some t)
    (t1 : find_element_thread) (result1 : Option Nat) (done1 : Bool)
    (hmono : s.result.isSome = true → result1.isSome = true)
    (hthread : ∀ b, blocks[i]? = some b → thread_ok xs m b result1 t1)
    (hfound : ∀ p, result1 = some p → xs[p]? = some m)
    (hflagged : done1 = true → result1.isSome = true)
    (hpending : result1.isSome = true → done1 = true ∨ t1.pc = .storing ∨
      (t.pc ≠ .storing ∧ s.result.isSome = true ∧ s.done_flag = false)) :
    Inv xs m blocks ⟨s.threads.set i t1, result1, done1⟩ := by
  refine ⟨by simp [hi.lengths], ?_, hfound, hflagged, ?_⟩
  · intro j t2 b hj hb
    simp only [getElem?_set_of_some ht] at hj
    by_cases hji : j = i
    · subst hji
      simp only [if_true] at hj
      cases hj
      exact hthread b hb
    · simp only [hji, if_false] at hj
      exact thread_ok_mono hmono (hi.threads j t2 b hj hb)
  · intro hs
    rcases hpending hs with h | h | ⟨hne, hsome, hdone⟩
    · exact Or.inl h
    · exact Or.inr ⟨i, t1, by simp [getElem?_set_of_some ht], h⟩
    · rcases hi.pending hsome with h | ⟨k, t2, hk, hpc⟩
      · rw [hdone] at h
        cases h
      · have hki : k ≠ i := by
          intro he
          subst he
          rw [ht] at hk
          cases hk
          exact hne hpc
        exact Or.inr ⟨k, t2, by simp [getElem?_set_of_some ht, hki, hk], hpc⟩

theorem Inv.step {xs : List Int} {m : Int} {blocks : List (Nat × Nat)} {s : find_state_8_9}
    (hi : Inv xs m blocks s) (i : Nat) : Inv xs m blocks (s.step xs m i) := by
  unfold find_state_8_9.step
  cases ht : s.threads[i]? with
  | none => exact hi
  | some t =>
    have hlt : i < blocks.length := by
      rw [← hi.lengths]
      by_contra hge
      rw [List.getElem?_eq_none (by omega)] at ht
      cases ht
    have hok := hi.threads i t (blocks[i]) ht (List.getElem?_eq_getElem hlt)
    have hb : ∀ b, blocks[i]? = some b → b = blocks[i] := by
      intro b hb
      rw [List.getElem?_eq_getElem hlt] at hb
      cases hb
      rfl
    have hkeep : ∀ (pc1 : find_element_pc), t.pc ≠ .storing → s.result.isSome = true →
        s.done_flag = true ∨ pc1 = .storing ∨
          (t.pc ≠ .storing ∧ s.result.isSome = true ∧ s.done_flag = false) := by
      intro pc1 hne hs
      cases hd : s.done_flag with
      | true => exact Or.inl rfl
      | false => exact Or.inr (Or.inr ⟨hne, hs, rfl⟩)
    simp only
    unfold find_element_step
    unfold thread_ok at hok
    cases hpc : t.pc with
    | looping =>
      simp only [hpc] at hok ⊢
      obtain ⟨h1, h2, h3, h4⟩ := hok
      by_cases hc : t.begin = t.block_end ∨ s.done_flag = true
      · simp only [hc, if_true]
        refine hi.update ht _ _ _ id (fun b hbb => ?_) hi.found hi.flagged
          (fun hs => hkeep _ (by simp [hpc]) hs)
        rw [hb b hbb]
        unfold thread_ok
        simp only
        rcases hc with hc | hc
        · left
          intro j hj1 hj2
          exact h4 j hj1 (by omega)
        · exact Or.inr (hi.flagged hc)
      · simp only [hc, if_false]
        by_cases hm : xs[t.begin]? = some m
        · simp only [hm, if_true]
          refine hi.update ht _ _ _ id (fun b hbb => ?_) hi.found hi.flagged
            (fun hs => hkeep _ (by simp [hpc]) hs)
          unfold thread_ok
          simp only
          exact hm
        · simp only [hm, if_false]
          refine hi.update ht _ _ _ id (fun b hbb => ?_) hi.found hi.flagged
            (fun hs => (hkeep .looping (by simp [hpc]) hs).imp id (fun h => h.imp (by simp [hpc]) id))
          rw [hb b hbb]
          unfold thread_ok
          simp only [hpc]
          have hne : t.begin ≠ t.block_end := fun he => hc (Or.inl he)
          refine ⟨by omega, by omega, h3, fun j hj1 hj2 => ?_⟩
          by_cases hj : j = t.begin
          · rw [hj]
            exact hm
          · exact h4 j hj1 (by omega)
    | setting =>
      simp only [hpc] at hok ⊢
      cases hr : s.result with
      | none =>
        simp only
        refine hi.update ht _ _ _ (fun _ => rfl) (fun b _ => ?_) (fun p hp => ?_) (fun _ => rfl)
          (fun _ => Or.inr (Or.inl rfl))
        · unfold thread_ok
          simp only
          rfl
        · cases hp
          exact hok
      | some p =>
        simp only
        refine hi.update ht _ _ _ (fun _ => rfl) (fun b _ => ?_) (fun q hq => hi.found q (hr ▸ hq))
          (fun _ => rfl) (fun _ => ?_)
        · unfold thread_ok
          simp only
          exact Or.inr rfl
        · exact hkeep _ (by simp [hpc]) (by simp [hr])
    | storing =>
      simp only [hpc] at hok ⊢
      refine hi.update ht _ _ _ id (fun b _ => ?_) hi.found (fun _ => hok) (fun _ => Or.inl rfl)
      unfold thread_ok
      simp only
      exact Or.inr hok
    | finished =>
      simp only [hpc] at hok ⊢
      refine hi.update ht _ _ _ id (fun b hbb => ?_) hi.found hi.flagged
        (fun hs => hkeep _ (by simp [hpc]) hs)
      rw [hb b hbb]
      unfold thread_ok
      simp only [hpc]
      exact hok

theorem Inv.exec {xs : List Int} {m : Int} {blocks : List (Nat × Nat)} (schedule : List Nat) :
    ∀ s : find_state_8_9, Inv xs m blocks s →
      Inv xs m blocks (schedule.foldl (find_state_8_9.step xs m) s) := by
  induction schedule with
  | nil => intro s h; exact h
  | cons i schedule ih => intro s h; exact ih _ (h.step i)

end find_state_8_9
namespace find_state_8_9

theorem steps_left_step (xs : List Int) (m : Int) (t : find_element_thread) (result : Option Nat)
    (done_flag : Bool) (hle : t.pc = .looping → t.begin ≤ t.block_end) :
    steps_left (find_element_step xs m t result done_flag).1 + 1 ≤ steps_left t ∨
      steps_left (find_element_step xs m t result done_flag).1 = 0 := by
  unfold find_element_step
  cases hpc : t.pc with
  | looping =>
    have hle1 := hle hpc
    simp only
    by_cases hc : t.begin = t.block_end ∨ done_flag = true
    · simp only [hc, if_true]
      exact Or.inr rfl
    · simp only [hc, if_false]
      by_cases hm : xs[t.begin]? = some m
      · simp only [hm, if_true]
        left
        simp only [steps_left, hpc]
        omega
      · simp only [hm, if_false]
        left
        have hne : t.begin ≠ t.block_end := fun he => hc (Or.inl he)
        simp only [steps_left, hpc]
        omega
  | setting =>
    simp only
    cases result with
    | none =>
      left
      simp only [steps_left, hpc]
      omega
    | some p => exact Or.inr rfl
  | storing => exact Or.inr rfl
  | finished =>
    right
    simp only [steps_left, hpc]

theorem Inv.all_finished {xs : List Int} {m : Int} {blocks : List (Nat × Nat)}
    (schedule : List Nat) : ∀ s : find_state_8_9, Inv xs m blocks s →
    (∀ (i : Nat) (t : find_element_thread), s.threads[i]? = some t →
      steps_left t ≤ schedule.count i) →
    ∀ (i : Nat) (t : find_element_thread),
      (schedule.foldl (find_state_8_9.step xs m) s).threads[i]? = some t → t.pc = .finished := by
  induction schedule with
  | nil =>
    intro s _ hb i t ht
    have h0 := hb i t ht
    simp only [List.count_nil, Nat.le_zero_eq] at h0
    unfold steps_left at h0
    cases hpc : t.pc <;> simp [hpc] at h0 ⊢
  | cons k schedule ih =>
    intro s hi hb i t ht
    refine ih (s.step xs m k) (hi.step k) (fun j t1 hj => ?_) i t ht
    unfold find_state_8_9.step at hj
    cases hk : s.threads[k]? with
    | none =>
      simp only [hk] at hj
      have hjk : k ≠ j := by
        intro he
        subst he
        rw [hk] at hj
        cases hj
      have := hb j t1 hj
      rw [List.count_cons_of_ne (Ne.symm hjk)] at this
      exact this
    | some tk =>
      simp only [hk, getElem?_set_of_some hk] at hj
      by_cases hjk : j = k
      · subst hjk
        simp only [if_true] at hj
        cases hj
        have hold := hb j tk hk
        rw [List.count_cons_self] at hold
        have hlt : j < blocks.length := by
          rw [← hi.lengths]
          by_contra hge
          rw [List.getElem?_eq_none (by omega)] at hk
          cases hk
        have hok := hi.threads j tk (blocks[j]) hk (List.getElem?_eq_getElem hlt)
        have hle : tk.pc = .looping → tk.begin ≤ tk.block_end := by
          intro hpc
          unfold thread_ok at hok
          simp only [hpc] at hok
          exact hok.2.1
        rcases steps_left_step xs m tk s.result s.done_flag hle with h | h
        · omega
        · omega
      · simp only [hjk, if_false] at hj
        have := hb j t1 hj
        rw [List.count_cons_of_ne hjk] at this
        exact this

theorem Inv.init (xs : List Int) (m : Int) (threads : List find_element_thread)
    (h : ∀ t ∈ threads, t.pc = .looping ∧ t.begin ≤ t.block_end) :
    Inv xs m (threads.map (fun t => (t.begin, t.block_end))) ⟨threads, none, false⟩ := by
  refine ⟨by simp, ?_, by simp, by simp, by simp⟩
  intro i t b ht hb
  simp only [List.getElem?_map, ht, Option.map_some'] at hb
  cases hb
  obtain ⟨hpc, hle⟩ := h t (List.getElem?_mem ht)
  unfold thread_ok
  simp only [hpc]
  exact ⟨le_refl _, hle, trivial, fun j h1 h2 => by omega⟩

end find_state_8_9

theorem find_blocks_ok (block_size last : Nat) : ∀ (count start : Nat),
    start + count * block_size ≤ last →
    ∃ threads, find_blocks block_size last count start = .ok (threads, start + count * block_size) ∧
      threads.length = count ∧
      (∀ t ∈ threads, t.pc = .looping ∧ t.begin ≤ t.block_end ∧ t.block_end ≤ last) ∧
      ∀ j, start ≤ j → j < start + count * block_size →
        ∃ t ∈ threads, t.begin ≤ j ∧ j < t.block_end := by
  intro count
  induction count with
  | zero =>
    intro start _
    exact ⟨[], by simp [find_blocks], rfl, by simp, fun j h1 h2 => by omega⟩
  | succ count ih =>
    intro start h
    have hm : (count + 1) * block_size = count * block_size + block_size := Nat.succ_mul _ _
    obtain ⟨threads, e, hlen, hall, hcov⟩ := ih (start + block_size) (by omega)
    have hle : start + block_size ≤ last := by omega
    refine ⟨⟨start, start + block_size, .looping⟩ :: threads, ?_, by simp [hlen], ?_, ?_⟩
    · simp only [find_blocks, hle, if_true, e, bind, Except.bind, pure, Except.pure]
      have : start + block_size + count * block_size = start + (count + 1) * block_size := by omega
      rw [this]
    · intro t ht
      rcases List.mem_cons.1 ht with he | ht
      · subst he
        exact ⟨rfl, by simp, hle⟩
      · exact hall t ht
    · intro j h1 h2
      by_cases hj : j < start + block_size
      · exact ⟨_, List.mem_cons_self _ _, h1, hj⟩
      · obtain ⟨t, ht, h3⟩ := hcov j (by omega) (by omega)
        exact ⟨t, List.mem_cons_of_mem _ ht, h3⟩

theorem parallel_find_8_9_ok (hardware_concurrency : Nat) (xs : List Int) (m : Int)
    (schedule : List Nat)
    (hfair : ∀ i, i < num_threads_for hardware_concurrency xs.length →
      xs.length + 3 ≤ schedule.count i) :
    ∃ p, parallel_find_8_9 hardware_concurrency xs m schedule = .ok p ∧
      ((m ∉ xs ∧ p = xs.length) ∨ xs[p]? = some m) := by
  unfold parallel_find_8_9
  dsimp only
  by_cases h : xs.length = 0
  · have hx : xs = [] := List.length_eq_zero.1 h
    subst hx
    exact ⟨0, rfl, Or.inl ⟨by simp, rfl⟩⟩
  · obtain ⟨hn, hle⟩ := num_threads_for_pos hardware_concurrency xs.length h
    generalize num_threads_for hardware_concurrency xs.length = n at hn hle hfair ⊢
    obtain ⟨threads, e, hlen, hall, hcov⟩ := find_blocks_ok (xs.length / n) xs.length (n - 1) 0
      (by omega)
    simp only [Nat.zero_add] at e hcov
    have hall0 : ∀ t ∈ threads ++ [(⟨(n - 1) * (xs.length / n), xs.length, .looping⟩ :
        find_element_thread)], t.pc = .looping ∧ t.begin ≤ t.block_end ∧ t.block_end ≤ xs.length := by
      intro t ht
      rcases List.mem_append.1 ht with ht | ht
      · exact hall t ht
      · rw [List.mem_singleton] at ht
        subst ht
        exact ⟨rfl, hle, le_refl _⟩
    have hinv0 := find_state_8_9.Inv.init xs m _ (fun t ht => ⟨(hall0 t ht).1, (hall0 t ht).2.1⟩)
    have hinv := find_state_8_9.Inv.exec schedule _ hinv0
    have hfin := find_state_8_9.Inv.all_finished schedule _ hinv0 (fun i t ht0 => by
      have ht : (threads ++ [(⟨(n - 1) * (xs.length / n), xs.length, .looping⟩ :
          find_element_thread)])[i]? = some t := ht0
      have hmem := List.getElem?_mem ht
      have hi : i < n := by
        have hlt : i < (threads ++ [(⟨(n - 1) * (xs.length / n), xs.length, .looping⟩ :
            find_element_thread)]).length := by
          by_contra hge
          rw [List.getElem?_eq_none (by omega)] at ht
          cases ht
        simp only [List.length_append, hlen, List.length_singleton] at hlt
        omega
      have := hfair i hi
      obtain ⟨hpc, _, h3⟩ := hall0 t hmem
      simp only [find_state_8_9.steps_left, hpc]
      omega)
    simp only [h, if_false, divide, hn, e, bind, Except.bind, pure, Except.pure]
    generalize List.foldl (find_state_8_9.step xs m)
      (⟨threads ++ [⟨(n - 1) * (xs.length / n), xs.length, .looping⟩], none, false⟩ :
        find_state_8_9) schedule = s at hinv hfin ⊢
    have hallb : s.threads.all (fun t => decide (t.pc = .finished)) = true := by
      rw [List.all_eq_true]
      intro t ht
      obtain ⟨i, hi⟩ := List.getElem?_of_mem ht
      simpa using hfin i t hi
    have hnostore : ¬ ∃ (i : Nat) (t : find_element_thread), s.threads[i]? = some t ∧
        t.pc = .storing := by
      rintro ⟨i, t, ht, hpc⟩
      rw [hfin i t ht] at hpc
      cases hpc
    simp only [hallb, if_true]
    by_cases hmem : m ∈ xs
    · obtain ⟨j, hj⟩ := List.getElem?_of_mem hmem
      have hjlt : j < xs.length := by
        by_contra hge
        rw [List.getElem?_eq_none (by omega)] at hj
        cases hj
      have hcover : ∃ t ∈ threads ++ [(⟨(n - 1) * (xs.length / n), xs.length, .looping⟩ :
          find_element_thread)], t.begin ≤ j ∧ j < t.block_end := by
        by_cases hjl : j < (n - 1) * (xs.length / n)
        · obtain ⟨t, ht, h3⟩ := hcov j (Nat.zero_le _) hjl
          exact ⟨t, List.mem_append_left _ ht, h3⟩
        · exact ⟨_, List.mem_append_right _ (List.mem_singleton_self _), by simp only; omega, hjlt⟩
      obtain ⟨t0, ht0, hb1, hb2⟩ := hcover
      obtain ⟨i, hi⟩ := List.getElem?_of_mem ht0
      have hilt : i < s.threads.length := by
        rw [hinv.lengths, List.length_map]
        by_contra hge
        rw [List.getElem?_eq_none (by omega)] at hi
        cases hi
      have hok := hinv.threads i (s.threads[i]) (t0.begin, t0.block_end)
        (List.getElem?_eq_getElem hilt) (by rw [List.getElem?_map, hi]; rfl)
      have hpc := hfin i _ (List.getElem?_eq_getElem hilt)
      unfold find_state_8_9.thread_ok at hok
      simp only [hpc] at hok
      have hsome : s.result.isSome = true := by
        rcases hok with hok | hok
        · exact absurd hj (hok j hb1 hb2)
        · exact hok
      have hdone : s.done_flag = true := by
        rcases hinv.pending hsome with hd | hd
        · exact hd
        · exact absurd hd hnostore
      obtain ⟨p, hp⟩ := Option.isSome_iff_exists.1 hsome
      refine ⟨p, ?_, Or.inr (hinv.found p hp)⟩
      simp [hdone, hp]
    · have hnone : s.result = none := by
        cases hr : s.result with
        | none => rfl
        | some p => exact absurd (List.getElem?_mem (hinv.found p hr)) hmem
      have hdone : s.done_flag = false := by
        cases hd : s.done_flag with
        | false => rfl
        | true =>
          have := hinv.flagged hd
          rw [hnone] at this
          cases this
      exact ⟨xs.length, by simp [hdone], Or.inl ⟨hmem, rfl⟩⟩
/-! ## Parallel find: Listing 8.10 -/

namespace find_call

theorem ok_mono {xs : List Int} {m : Int} {done done1 : Bool} (hmono : done = true → done1 = true) :
    ∀ {c : find_call} {a b : Nat}, ok xs m done a b c → ok xs m done1 a b c := by
  intro c
  induction c with
  | scan first last pc =>
    intro a b h
    unfold ok at h ⊢
    refine ⟨h.1, h.2.1, ?_⟩
    have h3 := h.2.2
    cases pc with
    | looping => exact h3
    | marking => exact h3
    | returned position =>
      simp only at h3 ⊢
      rcases h3 with ⟨h1, h2⟩ | ⟨h1, h2, h3, h4⟩
      · exact Or.inl ⟨h1, h2.imp id hmono⟩
      · exact Or.inr ⟨h1, h2, h3, hmono h4⟩
  | split mid_point direct async ihd iha =>
    intro a b h
    unfold ok at h ⊢
    exact ⟨h.1, h.2.1, ihd h.2.2.1, iha h.2.2.2⟩

theorem calls_step (xs : List Int) (m : Int) : ∀ (c : find_call) (i : Nat) (done : Bool),
    (c.step xs m i done).1.calls = c.calls := by
  intro c
  induction c with
  | scan first last pc =>
    intro i done
    unfold step
    by_cases hi : i = 0
    · simp only [hi, if_true]
      unfold scan_step
      cases pc with
      | looping =>
        simp only
        split
        · rfl
        · split <;> rfl
      | marking => rfl
      | returned position => rfl
    · simp only [hi, if_false]
  | split mid_point direct async ihd iha =>
    intro i done
    unfold step
    by_cases hi : i < direct.calls
    · simp only [hi, if_true, calls, ihd]
    · simp only [hi, if_false, calls, iha]

theorem step_ok {xs : List Int} {m : Int} : ∀ (c : find_call) (i : Nat) (done : Bool) (a b : Nat),
    ok xs m done a b c →
    ok xs m (c.step xs m i done).2 a b (c.step xs m i done).1 ∧
    (done = true → (c.step xs m i done).2 = true) ∧
    ((c.step xs m i done).2 = true → done = true ∨ found (c.step xs m i done).1) ∧
    (found c → found (c.step xs m i done).1) := by
  intro c
  induction c with
  | scan first last pc =>
    intro i done a b h
    unfold step
    by_cases hi : i = 0
    · simp only [hi, if_true]
      unfold ok at h
      obtain ⟨h1, h2, h3⟩ := h
      unfold scan_step
      cases pc with
      | looping =>
        simp only at h3 ⊢
        obtain ⟨h4, h5, h6⟩ := h3
        by_cases hc : first = last ∨ done = true
        · simp only [hc, if_true]
          refine ⟨?_, id, Or.inl, fun hf => by simp [found] at hf⟩
          unfold ok
          refine ⟨h1, h2, ?_⟩
          simp only
          left
          refine ⟨h1, ?_⟩
          rcases hc with hc | hc
          · left
            intro j hj1 hj2
            exact h6 j hj1 (by omega)
          · exact Or.inr hc
        · simp only [hc, if_false]
          have hne : first ≠ last := fun he => hc (Or.inl he)
          by_cases hm : xs[first]? = some m
          · simp only [hm, if_true]
            refine ⟨?_, id, Or.inl, fun hf => by simp [found] at hf⟩
            unfold ok
            exact ⟨h1, h2, h4, by omega, hm⟩
          · simp only [hm, if_false]
            refine ⟨?_, id, Or.inl, fun hf => by simp [found] at hf⟩
            unfold ok
            refine ⟨h1, h2, by omega, by omega, fun j hj1 hj2 => ?_⟩
            by_cases hj : j = first
            · rw [hj]
              exact hm
            · exact h6 j hj1 (by omega)
      | marking =>
        simp only at h3 ⊢
        obtain ⟨h4, h5, h6⟩ := h3
        refine ⟨?_, fun _ => trivial, fun _ => Or.inr ?_, fun hf => by simp [found] at hf⟩
        · unfold ok
          refine ⟨h1, h2, ?_⟩
          simp only
          exact Or.inr ⟨h4, h5, h6, trivial⟩
        · unfold found
          omega
      | returned position =>
        simp only at h3 ⊢
        refine ⟨?_, id, Or.inl, id⟩
        unfold ok
        exact ⟨h1, h2, h3⟩
    · simp only [hi, if_false]
      exact ⟨h, id, Or.inl, id⟩
  | split mid_point direct async ihd iha =>
    intro i done a b h
    unfold ok at h
    obtain ⟨h1, h2, h3, h4⟩ := h
    unfold step
    by_cases hi : i < direct.calls
    · simp only [hi, if_true]
      obtain ⟨k1, k2, k3, k4⟩ := ihd i done a mid_point h3
      refine ⟨?_, k2, fun hd => ?_, fun hf => ?_⟩
      · unfold ok
        exact ⟨h1, h2, k1, ok_mono k2 h4⟩
      · rcases k3 hd with hd | hd
        · exact Or.inl hd
        · exact Or.inr (Or.inl hd)
      · rcases hf with hf | hf
        · exact Or.inl (k4 hf)
        · exact Or.inr hf
    · simp only [hi, if_false]
      obtain ⟨k1, k2, k3, k4⟩ := iha (i - direct.calls) done mid_point b h4
      refine ⟨?_, k2, fun hd => ?_, fun hf => ?_⟩
      · unfold ok
        exact ⟨h1, h2, ok_mono k2 h3, k1⟩
      · rcases k3 hd with hd | hd
        · exact Or.inl hd
        · exact Or.inr (Or.inr hd)
      · rcases hf with hf | hf
        · exact Or.inl hf
        · exact Or.inr (k4 hf)

/-- A position a call returns is its `last` or holds a match. -/
theorem result_match {xs : List Int} {m : Int} {done : Bool} : ∀ (c : find_call) (a b p : Nat),
    ok xs m done a b c → c.result = .ok p → p = b ∨ (a ≤ p ∧ p < b ∧ xs[p]? = some m) := by
  intro c
  induction c with
  | scan first last pc =>
    intro a b p h hr
    unfold ok at h
    obtain ⟨_, _, h3⟩ := h
    cases pc with
    | looping => simp [result] at hr
    | marking => simp [result] at hr
    | returned position =>
      simp only [result, Except.ok.injEq] at hr
      subst hr
      simp only at h3
      rcases h3 with ⟨h1, _⟩ | ⟨h1, h2, h3, _⟩
      · exact Or.inl h1
      · exact Or.inr ⟨h1, h2, h3⟩
  | split mid_point direct async ihd iha =>
    intro a b p h hr
    unfold ok at h
    obtain ⟨h1, h2, h3, h4⟩ := h
    unfold result at hr
    cases hd : direct.result with
    | error e => simp [hd] at hr
    | ok dr =>
      simp only [hd] at hr
      by_cases he : dr = mid_point
      · simp only [he, if_true] at hr
        rcases iha mid_point b p h4 hr with h5 | ⟨h5, h6, h7⟩
        · exact Or.inl h5
        · exact Or.inr ⟨by omega, h6, h7⟩
      · simp only [he, if_false, Except.ok.injEq] at hr
        subst hr
        rcases ihd a mid_point dr h3 hd with h5 | ⟨h5, h6, h7⟩
        · exact absurd h5 he
        · exact Or.inr ⟨h5, by omega, h7⟩

/-- A call that returns its `last` has no match in its range, unless the flag is set. -/
theorem result_last {xs : List Int} {m : Int} {done : Bool} : ∀ (c : find_call) (a b : Nat),
    ok xs m done a b c → c.result = .ok b →
    (∀ j, a ≤ j → j < b → xs[j]? ≠ some m) ∨ done = true := by
  intro c
  induction c with
  | scan first last pc =>
    intro a b h hr
    unfold ok at h
    obtain ⟨_, _, h3⟩ := h
    cases pc with
    | looping => simp [result] at hr
    | marking => simp [result] at hr
    | returned position =>
      simp only [result, Except.ok.injEq] at hr
      subst hr
      simp only at h3
      rcases h3 with ⟨_, h2⟩ | ⟨_, h2, _, _⟩
      · exact h2
      · omega
  | split mid_point direct async ihd iha =>
    intro a b h hr
    unfold ok at h
    obtain ⟨h1, h2, h3, h4⟩ := h
    unfold result at hr
    cases hd : direct.result with
    | error e => simp [hd] at hr
    | ok dr =>
      simp only [hd] at hr
      by_cases he : dr = mid_point
      · simp only [he, if_true] at hr
        subst he
        rcases ihd a dr h3 hd with h5 | h5
        · rcases iha dr b h4 hr with h6 | h6
          · left
            intro j hj1 hj2
            by_cases hj : j < dr
            · exact h5 j hj1 hj
            · exact h6 j (by omega) hj2
          · exact Or.inr h6
        · exact Or.inr h5
      · simp only [he, if_false, Except.ok.injEq] at hr
        subst hr
        rcases result_match direct a mid_point dr h3 hd with h5 | ⟨_, h6, _⟩
        · exact absurd h5 he
        · omega

/-- Once a scanning call has found a match, the call does not return its `last`. -/
theorem result_found {xs : List Int} {m : Int} {done : Bool} : ∀ (c : find_call) (a b p : Nat),
    ok xs m done a b c → found c → c.result = .ok p → p ≠ b := by
  intro c
  induction c with
  | scan first last pc =>
    intro a b p h hf hr
    unfold ok at h
    obtain ⟨h1, _, _⟩ := h
    cases pc with
    | looping => simp [result] at hr
    | marking => simp [result] at hr
    | returned position =>
      simp only [result, Except.ok.injEq] at hr
      subst hr
      unfold found at hf
      omega
  | split mid_point direct async ihd iha =>
    intro a b p h hf hr
    unfold ok at h
    obtain ⟨h1, h2, h3, h4⟩ := h
    unfold result at hr
    cases hd : direct.result with
    | error e => simp [hd] at hr
    | ok dr =>
      simp only [hd] at hr
      by_cases he : dr = mid_point
      · simp only [he, if_true] at hr
        rcases hf with hf | hf
        · exact absurd he (ihd a mid_point dr h3 hf hd)
        · exact iha mid_point b p h4 hf hr
      · simp only [he, if_false, Except.ok.injEq] at hr
        subst hr
        rcases result_match direct a mid_point dr h3 hd with h5 | ⟨_, h6, _⟩
        · exact absurd h5 he
        · omega

theorem scan_steps_left_step {xs : List Int} {m : Int} : ∀ (c : find_call) (i : Nat) (done : Bool)
    (a b : Nat), ok xs m done a b c →
    ((c.step xs m i done).1.steps_left i + 1 ≤ c.steps_left i ∨
      (c.step xs m i done).1.steps_left i = 0) ∧
    ∀ j, j ≠ i → (c.step xs m i done).1.steps_left j = c.steps_left j := by
  intro c
  induction c with
  | scan first last pc =>
    intro i done a b h
    unfold ok at h
    obtain ⟨h1, h2, h3⟩ := h
    unfold step
    by_cases hi : i = 0
    · subst hi
      simp only [if_true]
      unfold scan_step
      cases pc with
      | looping =>
        simp only at h3 ⊢
        obtain ⟨h4, h5, h6⟩ := h3
        by_cases hc : first = last ∨ done = true
        · simp only [hc, if_true]
          exact ⟨Or.inr (by simp [steps_left]), fun j hj => by simp [steps_left, hj]⟩
        · simp only [hc, if_false]
          have hne : first ≠ last := fun he => hc (Or.inl he)
          by_cases hm : xs[first]? = some m
          · simp only [hm, if_true]
            exact ⟨Or.inl (by simp only [steps_left, if_true]; omega),
              fun j hj => by simp [steps_left, hj]⟩
          · simp only [hm, if_false]
            exact ⟨Or.inl (by simp only [steps_left, if_true]; omega),
              fun j hj => by simp [steps_left, hj]⟩
      | marking =>
        exact ⟨Or.inr (by simp [steps_left]), fun j hj => by simp [steps_left, hj]⟩
      | returned position =>
        exact ⟨Or.inr (by simp [steps_left]), fun j hj => by simp [steps_left, hj]⟩
    · simp only [hi, if_false]
      exact ⟨Or.inr (by simp [steps_left, hi]), fun j _ => trivial⟩
  | split mid_point direct async ihd iha =>
    intro i done a b h
    unfold ok at h
    obtain ⟨h1, h2, h3, h4⟩ := h
    unfold step
    by_cases hi : i < direct.calls
    · simp only [hi, if_true]
      obtain ⟨k1, k2⟩ := ihd i done a mid_point h3
      have hc := calls_step xs m direct i done
      refine ⟨?_, fun j hj => ?_⟩
      · simp only [steps_left, hc, hi, if_true]
        exact k1
      · simp only [steps_left, hc]
        by_cases hjd : j < direct.calls
        · simp only [hjd, if_true]
          exact k2 j hj
        · simp only [hjd, if_false]
    · simp only [hi, if_false]
      obtain ⟨k1, k2⟩ := iha (i - direct.calls) done mid_point b h4
      refine ⟨?_, fun j hj => ?_⟩
      · simp only [steps_left, hi, if_false]
        exact k1
      · simp only [steps_left]
        by_cases hjd : j < direct.calls
        · simp only [hjd, if_true]
        · simp only [hjd, if_false]
          exact k2 (j - direct.calls) (by omega)

theorem result_of_steps_left : ∀ (c : find_call), (∀ i, i < c.calls → c.steps_left i = 0) →
    ∃ p, c.result = .ok p := by
  intro c
  induction c with
  | scan first last pc =>
    intro h
    have h0 := h 0 (by simp [calls])
    cases pc with
    | looping => simp [steps_left] at h0
    | marking => simp [steps_left] at h0
    | returned position => exact ⟨position, rfl⟩
  | split mid_point direct async ihd iha =>
    intro h
    obtain ⟨dr, hd⟩ := ihd (fun i hi => by
      have := h i (by simp only [calls]; omega)
      simpa [steps_left, hi] using this)
    obtain ⟨ar, ha⟩ := iha (fun i hi => by
      have := h (i + direct.calls) (by simp only [calls]; omega)
      simpa [steps_left] using this)
    unfold result
    simp only [hd]
    by_cases he : dr = mid_point
    · exact ⟨ar, by simp [he, ha]⟩
    · exact ⟨dr, by simp [he]⟩

/-- The invariant of the calls and the flag through a schedule, and the steps left at its end. -/
theorem exec_ok {xs : List Int} {m : Int} {a b : Nat} (schedule : List Nat) :
    ∀ (s : find_call × Bool), ok xs m s.2 a b s.1 → (s.2 = true → found s.1) →
    ok xs m (schedule.foldl (fun (s : find_call × Bool) i => s.1.step xs m i s.2) s).2 a b
      (schedule.foldl (fun (s : find_call × Bool) i => s.1.step xs m i s.2) s).1 ∧
    ((schedule.foldl (fun (s : find_call × Bool) i => s.1.step xs m i s.2) s).2 = true →
      found (schedule.foldl (fun (s : find_call × Bool) i => s.1.step xs m i s.2) s).1) ∧
    ((∀ i, i < s.1.calls → s.1.steps_left i ≤ schedule.count i) →
      ∃ p, (schedule.foldl (fun (s : find_call × Bool) i => s.1.step xs m i s.2) s).1.result =
        .ok p) := by
  induction schedule with
  | nil =>
    intro s h1 h2
    refine ⟨h1, h2, fun h3 => result_of_steps_left s.1 (fun i hi => ?_)⟩
    have := h3 i hi
    simpa using this
  | cons k schedule ih =>
    intro s h1 h2
    obtain ⟨k1, k2, k3, k4⟩ := step_ok s.1 k s.2 a b h1
    obtain ⟨r1, r2, r3⟩ := ih (s.1.step xs m k s.2) k1 (fun hd => by
      rcases k3 hd with hd | hd
      · exact k4 (h2 hd)
      · exact hd)
    refine ⟨r1, r2, fun h3 => r3 (fun i hi => ?_)⟩
    rw [calls_step] at hi
    obtain ⟨d1, d2⟩ := scan_steps_left_step s.1 k s.2 a b h1
    have hb := h3 i hi
    by_cases hik : i = k
    · subst hik
      rw [List.count_cons_self] at hb
      rcases d1 with d1 | d1
      · omega
      · omega
    · rw [List.count_cons_of_ne hik] at hb
      rw [d2 i hik]
      exact hb

end find_call

theorem parallel_find_impl_8_10_ok (xs : List Int) (m : Int) : ∀ (fuel first last : Nat),
    first ≤ last → last - first < fuel →
    ∃ c, parallel_find_impl_8_10 fuel first last = .ok c ∧ c.ok xs m false first last ∧
      ¬ c.found ∧ (∀ i, c.steps_left i ≤ (last - first) + 2) ∧ c.calls ≤ (last - first) + 1 ∧
      (25 ≤ last - first → c.calls + 24 ≤ last - first) := by
  intro fuel
  induction fuel with
  | zero => intro first last _ h; omega
  | succ fuel ih =>
    intro first last hle hfuel
    unfold parallel_find_impl_8_10
    by_cases hl : last - first < 2 * 25
    · simp only [hl, if_true]
      refine ⟨_, rfl, ?_, by simp [find_call.found], fun i => ?_, by simp [find_call.calls],
        fun h25 => by simp only [find_call.calls]; omega⟩
      · unfold find_call.ok
        exact ⟨rfl, hle, le_refl _, hle, fun j h1 h2 => by omega⟩
      · simp only [find_call.steps_left]
        split <;> omega
    · simp only [hl, if_false]
      obtain ⟨ca, ea, oka, nfa, sla, _, cla⟩ := ih (first + (last - first) / 2) last (by omega)
        (by omega)
      obtain ⟨cd, ed, okd, nfd, sld, _, cld⟩ := ih first (first + (last - first) / 2) (by omega)
        (by omega)
      have hca := cla (by omega)
      have hcd := cld (by omega)
      refine ⟨.split (first + (last - first) / 2) cd ca, ?_, ?_, ?_, fun i => ?_, ?_, fun _ => ?_⟩
      · simp only [ea, ed, bind, Except.bind, pure, Except.pure]
      · unfold find_call.ok
        exact ⟨by omega, by omega, okd, oka⟩
      · unfold find_call.found
        exact fun h => h.elim nfd nfa
      · simp only [find_call.steps_left]
        split
        · have := sld i
          omega
        · have := sla (i - cd.calls)
          omega
      · simp only [find_call.calls]
        omega
      · simp only [find_call.calls]
        omega

theorem parallel_find_8_10_sound (xs : List Int) (m : Int) (schedule : List Nat) (p : Nat)
    (h : parallel_find_8_10 xs m schedule = .ok p) :
    (m ∉ xs ∧ p = xs.length) ∨ xs[p]? = some m := by
  obtain ⟨c, e, hok, hnf, _, _, _⟩ := parallel_find_impl_8_10_ok xs m (xs.length + 1) 0 xs.length
    (Nat.zero_le _) (by omega)
  obtain ⟨r1, r2, _⟩ := find_call.exec_ok schedule (c, false) hok (fun hd => by cases hd)
  unfold parallel_find_8_10 at h
  simp only [e, bind, Except.bind] at h
  rcases find_call.result_match _ 0 xs.length p r1 h with hp | ⟨_, _, hp⟩
  · subst hp
    left
    refine ⟨fun hmem => ?_, rfl⟩
    obtain ⟨j, hj⟩ := List.getElem?_of_mem hmem
    have hjlt : j < xs.length := by
      by_contra hge
      rw [List.getElem?_eq_none (by omega)] at hj
      cases hj
    rcases find_call.result_last _ 0 xs.length r1 h with hno | hd
    · exact hno j (Nat.zero_le _) hjlt hj
    · exact find_call.result_found _ 0 xs.length xs.length r1 (r2 hd) h rfl
  · exact Or.inr hp

theorem parallel_find_8_10_returns (xs : List Int) (m : Int) (schedule : List Nat)
    (hfair : ∀ i, i < xs.length + 1 → xs.length + 3 ≤ schedule.count i) :
    ∃ p, parallel_find_8_10 xs m schedule = .ok p := by
  obtain ⟨c, e, hok, hnf, hsl, hcl, _⟩ := parallel_find_impl_8_10_ok xs m (xs.length + 1) 0 xs.length
    (Nat.zero_le _) (by omega)
  obtain ⟨_, _, r3⟩ := find_call.exec_ok schedule (c, false) hok (fun hd => by cases hd)
  obtain ⟨p, hp⟩ := r3 (fun i hi => by
    have h1 := hsl i
    have h2 := hfair i (by simp only at hi; omega)
    simp only
    omega)
  exact ⟨p, by simp only [parallel_find_8_10, e, bind, Except.bind]; exact hp⟩
/-- C14: for every finite sequence `xs`, every value `m` and every value of
`hardware_concurrency`, whatever the order in which the threads of the search take their steps
(`schedule`, in which every thread gets the steps it needs to finish): `parallel_find_8_9` and
`parallel_find_8_10` return; when no element of `xs` equals `m` they return the end position
`last`, and otherwise they return a position inside the range whose element equals `m`. -/
theorem parallel_find_finds (hardware_concurrency : Nat) (xs : List Int) (m : Int)
    (schedule : List Nat) (hfair : ∀ i, i < xs.length + 1 → xs.length + 3 ≤ schedule.count i) :
    (∃ p, parallel_find_8_9 hardware_concurrency xs m schedule = .ok p ∧
      ((m ∉ xs ∧ p = xs.length) ∨ (m ∈ xs ∧ p < xs.length ∧ xs[p]? = some m))) ∧
    (∃ p, parallel_find_8_10 xs m schedule = .ok p ∧
      ((m ∉ xs ∧ p = xs.length) ∨ (m ∈ xs ∧ p < xs.length ∧ xs[p]? = some m))) := by
  have hpos : ∀ p, xs[p]? = some m → m ∈ xs ∧ p < xs.length ∧ xs[p]? = some m := by
    intro p hp
    refine ⟨List.getElem?_mem hp, ?_, hp⟩
    by_contra hge
    rw [List.getElem?_eq_none (by omega)] at hp
    cases hp
  constructor
  · obtain ⟨p, e, hp⟩ := parallel_find_8_9_ok hardware_concurrency xs m schedule (fun i hi => by
      refine hfair i ?_
      by_cases h0 : xs.length = 0
      · have : num_threads_for hardware_concurrency xs.length = 0 := by
          simp [num_threads_for, h0]
        omega
      · have := num_threads_for_le hardware_concurrency xs.length h0
        omega)
    exact ⟨p, e, hp.imp id (hpos p)⟩
  · obtain ⟨p, e⟩ := parallel_find_8_10_returns xs m schedule hfair
    exact ⟨p, e, (parallel_find_8_10_sound xs m schedule p e).imp id (hpos p)⟩

/-- Witness of C14: the sequence 1, ..., 9 of `Ch.8/source.cpp`, searched for 5, on a machine with
4 hardware threads, the threads taking turns. -/
theorem parallel_find_finds_witness :
    (∀ i, i < 9 + 1 → 9 + 3 ≤ (List.replicate 12 [0, 1, 2, 3, 4, 5, 6, 7, 8, 9]).flatten.count i) ∧
    (∃ p, parallel_find_8_9 4 [1, 2, 3, 4, 5, 6, 7, 8, 9] 5
        (List.replicate 12 [0, 1, 2, 3, 4, 5, 6, 7, 8, 9]).flatten = .ok p ∧
      (((5 : Int) ∉ ([1, 2, 3, 4, 5, 6, 7, 8, 9] : List Int) ∧ p = 9) ∨
        ((5 : Int) ∈ ([1, 2, 3, 4, 5, 6, 7, 8, 9] : List Int) ∧ p < 9 ∧
          ([1, 2, 3, 4, 5, 6, 7, 8, 9] : List Int)[p]? = some 5))) ∧
    (∃ p, parallel_find_8_10 [1, 2, 3, 4, 5, 6, 7, 8, 9] 5
        (List.replicate 12 [0, 1, 2, 3, 4, 5, 6, 7, 8, 9]).flatten = .ok p ∧
      (((5 : Int) ∉ ([1, 2, 3, 4, 5, 6, 7, 8, 9] : List Int) ∧ p = 9) ∨
        ((5 : Int) ∈ ([1, 2, 3, 4, 5, 6, 7, 8, 9] : List Int) ∧ p < 9 ∧
          ([1, 2, 3, 4, 5, 6, 7, 8, 9] : List Int)[p]? = some 5))) :=
  have hfair : ∀ i, i < 9 + 1 →
      9 + 3 ≤ (List.replicate 12 [0, 1, 2, 3, 4, 5, 6, 7, 8, 9]).flatten.count i := by decide
  ⟨hfair, parallel_find_finds 4 [1, 2, 3, 4, 5, 6, 7, 8, 9] 5 _ hfair⟩

/-! ## The destructors on an empty stack -/

theorem destroy_empty_7_2 {T : Type} (fuel : Nat) :
    ∀ (k : Nat) (s : stack_push T), stack_push.Holds s.heap s.head [] →
      lock_free_stack_7_2.destroy (fuel + 1) k s = .error .out_of_fuel := by
  intro k
  induction k with
  | zero => intro s _; rfl
  | succ k ih =>
    intro s h
    obtain ⟨s1, e, h1⟩ := lock_free_stack_7_2.pop_holds_7_2 h fuel
    simp only [lock_free_stack_7_2.destroy, e, bind, Except.bind, List.head?_nil, Option.isNone_none,
      if_true]
    exact ih s1 h1

theorem destroy_empty_7_4 {T : Type} (fuel : Nat) :
    ∀ (k : Nat) (s : lock_free_stack_7_4 T), lock_free_stack_7_4.Holds s [] →
      lock_free_stack_7_4.destroy (fuel + 1) k s = .error .out_of_fuel := by
  intro k
  induction k with
  | zero => intro s _; rfl
  | succ k ih =>
    intro s h
    obtain ⟨s1, e, h1⟩ := lock_free_stack_7_4.pop_holds_7_4 h fuel
    simp only [lock_free_stack_7_4.destroy, e, bind, Except.bind, List.head?_nil, Option.isNone_none,
      if_true]
    exact ih s1 h1

theorem destroy_empty_7_6 {T : Type} (fuel this_id : Nat) :
    ∀ (k : Nat) (s : lock_free_stack_7_6 T), lock_free_stack_7_6.Holds s [] →
      lock_free_stack_7_6.destroy (fuel + 1) this_id k s = .error .out_of_fuel := by
  intro k
  induction k with
  | zero => intro s _; rfl
  | succ k ih =>
    intro s h
    obtain ⟨s1, e, h1⟩ := lock_free_stack_7_6.pop_holds_7_6 h fuel this_id
    simp only [lock_free_stack_7_6.destroy, e, bind, Except.bind, List.head?_nil, Option.isNone_none,
      if_true]
    exact ih s1 h1

theorem destroy_empty_7_11 {T : Type} (fuel : Nat) :
    ∀ (k : Nat) (s : lock_free_stack_7_11 T), lock_free_stack_7_11.Holds s [] →
      lock_free_stack_7_11.destroy (fuel + 1) k s = .error .out_of_fuel := by
  intro k
  induction k with
  | zero => intro s _; rfl
  | succ k ih =>
    intro s h
    obtain ⟨s1, e, h1⟩ := lock_free_stack_7_11.pop_holds_7_11 h fuel
    simp only [lock_free_stack_7_11.destroy, e, bind, Except.bind, List.head?_nil, Option.isNone_none,
      if_true]
    exact ih s1 h1

/-- C28: the destructor of each stack variant does not terminate on an empty stack.  On a freshly
constructed stack every `pop` of the loop `while (!pop())` returns the null result, so that for
every number `k` of pop calls the loop has not ended after `k` of them (the model, which stops after
`k` calls, reports that it ran out). -/
theorem stack_destructor_spins_on_empty {T : Type} (fuel this_id k : Nat) :
    lock_free_stack_7_2.destroy (fuel + 1) k (stack_push.fresh : stack_push T) = .error .out_of_fuel ∧
    lock_free_stack_7_4.destroy (fuel + 1) k (lock_free_stack_7_4.fresh : lock_free_stack_7_4 T) =
      .error .out_of_fuel ∧
    lock_free_stack_7_6.destroy (fuel + 1) this_id k
      (lock_free_stack_7_6.fresh hazardous_pointer_machinery.table.zero : lock_free_stack_7_6 T) =
      .error .out_of_fuel ∧
    lock_free_stack_7_11.destroy (fuel + 1) k (lock_free_stack_7_11.fresh : lock_free_stack_7_11 T) =
      .error .out_of_fuel :=
  ⟨destroy_empty_7_2 fuel k _ lock_free_stack_7_2.fresh_holds_7_2,
   destroy_empty_7_4 fuel k _ lock_free_stack_7_4.fresh_holds_7_4,
   destroy_empty_7_6 fuel this_id k _
     (lock_free_stack_7_6.fresh_holds_7_6 _ ⟨⟨0, by decide⟩, rfl⟩),
   destroy_empty_7_11 fuel k _ lock_free_stack_7_11.fresh_holds_7_11⟩

/-! ## Listing 7.5: `pop` on an empty stack while another thread is in `pop` -/

/-- C29: `lock_free_stack_7_4::pop` dereferences a null pointer.  Called on an empty stack while
one other thread is inside `pop` (`threads_in_pop` is 1 before the call and 2 after its increment),
it passes the null `old_head` to `try_reclaim`, which sees `threads_in_pop != 1` and calls
`chain_pending_node(nullptr)`, whose `last->next = to_delete` dereferences the null pointer; the
same holds for `try_reclaim(nullptr)` on its own whenever `threads_in_pop` is 2 or more. -/
theorem pop_of_empty_chains_null {T : Type} (fuel : Nat) :
    lock_free_stack_7_4.pop (fuel + 1)
      ({ (lock_free_stack_7_4.fresh : lock_free_stack_7_4 T) with threads_in_pop := 1 }) =
      .error .null_deref ∧
    ∀ (s : lock_free_stack_7_4 T) (others : Nat),
      ref_count_delete_machinery.try_reclaim fuel { s with threads_in_pop := others + 2 } none =
        .error .null_deref := by
  refine ⟨rfl, ?_⟩
  intro s others
  have h : others + 2 ≠ 1 := by omega
  simp only [ref_count_delete_machinery.try_reclaim, if_neg h,
    ref_count_delete_machinery.chain_pending_node,
    ref_count_delete_machinery.chain_pending_nodes_range, bind, Except.bind]

/-! ## Listing 7.13: the shape of the chain -/

theorem Seg.seg_payload {N T : Type} {dataOf : N → Option T} {nextOf : N → Option Nat}
    {cells : List N} {q : Option Nat} :
    ∀ {al : List (Nat × T)} {p : Option Nat}, Seg dataOf nextOf cells p q al →
      ∀ x ∈ al, ∃ n, cells[x.1]? = some n ∧ dataOf n = some x.2 := by
  intro al
  induction al with
  | nil => intro p _ x hx; cases hx
  | cons y al ih =>
    intro p hc x hx
    obtain ⟨n, _, hn, hd, hrest⟩ := hc
    rcases List.mem_cons.1 hx with rfl | hx
    · exact ⟨n, hn, hd⟩
    · exact ih hrest x hx

theorem head_node_SPSC {T : Type} {s : lock_free_queue_7_13_SPSC T} {l : List T}
    (h : lock_free_queue_7_13_SPSC.Holds s l) :
    ∃ a n, s.head = some a ∧ s.heap.cells[a]? = some n ∧ n.data = l.head? ∧
      (n.data = none ↔ s.head = s.tail) := by
  obtain ⟨al, t, hi, hl⟩ := h
  subst hl
  cases al with
  | nil =>
    have hh : s.head = some t := hi.seg
    obtain ⟨n, hn, hd, _⟩ := hi.tail_node
    exact ⟨t, n, hh, hn, hd, fun _ => hh.trans hi.tail_eq.symm, fun _ => hd⟩
  | cons x al =>
    obtain ⟨n, hp, hn, hd, _, _, _, hne⟩ := hi.front
    refine ⟨x.1, n, hp, hn, hd, fun h0 => ?_, fun h0 => absurd h0 hne⟩
    rw [hd] at h0
    cases h0

/-- C26: in every state of `lock_free_queue_7_13_SPSC` reached from construction by pushes and
pops of one thread, the nodes `al` lead along the `next` links from `head` to the node `t` that
`tail` points to, so that `tail` is reached after as many steps as there are queued values; the
nodes reachable from `head` are these and `t`, all distinct; every node before `t` holds a
payload, the queued values in order; the node `t` holds no payload and a null `next`; and the chain
has one node more than there are queued values. -/
theorem spsc_chain_ends_in_sentinel {T : Type} (ops : List (Op T)) :
    ∃ (results : List (Option T)) (s : lock_free_queue_7_13_SPSC T) (al : List (Nat × T)) (t : Nat),
      lock_free_queue_7_13_SPSC.run ops lock_free_queue_7_13_SPSC.fresh = .ok (results, s) ∧
      Seg lock_free_queue_7_13_SPSC.node.data lock_free_queue_7_13_SPSC.node.next s.heap.cells
        s.head (some t) al ∧
      s.tail = some t ∧
      (∀ a, Reachable lock_free_queue_7_13_SPSC.node.next s.heap.cells s.head a ↔
        a ∈ t :: al.map Prod.fst) ∧
      (t :: al.map Prod.fst).Nodup ∧
      (∀ x ∈ al, ∃ n, s.heap.cells[x.1]? = some n ∧ n.data = some x.2) ∧
      al.map Prod.snd = spec_state fifo_put ops [] ∧
      s.heap.cells[t]? = some ⟨none, none⟩ ∧
      (t :: al.map Prod.fst).length = (spec_state fifo_put ops []).length + 1 := by
  obtain ⟨s, hrun, al, t, hi, hl⟩ := lock_free_queue_7_13_SPSC.run_refines_SPSC ops
    lock_free_queue_7_13_SPSC.fresh [] lock_free_queue_7_13_SPSC.fresh_holds_SPSC
  obtain ⟨nt, hnt, hd, hnx⟩ := hi.tail_node
  have hnt1 : s.heap.cells[t]? = some ⟨none, none⟩ := by
    rw [hnt]
    cases nt
    simp only [lock_free_queue_7_13_SPSC.node.mk.injEq] at hd hnx ⊢
    exact congrArg some (by cases hd; cases hnx; rfl)
  refine ⟨_, s, al, t, hrun, hi.seg, hi.tail_eq, fun a => ⟨fun hr => ?_, fun hm => ?_⟩, hi.nodup,
    hi.seg.seg_payload, hl, hnt1, ?_⟩
  · exact Reachable.mem_of_seg hnt hnx hi.seg hr
  · exact Reachable.of_mem_seg hi.seg hm
  · rw [← hl]
    simp

/-- Counterexample to C27: it is not the case that in every reachable state the node at `head`
holds no payload; after `push(1)` on a fresh queue the node at `head` holds 1. -/
theorem spsc_head_holds_payload :
    ¬ ∀ (ops : List (Op Nat)) (results : List (Option Nat)) (s : lock_free_queue_7_13_SPSC Nat),
      lock_free_queue_7_13_SPSC.run ops lock_free_queue_7_13_SPSC.fresh = .ok (results, s) →
      ∃ a n, s.head = some a ∧ s.heap.cells[a]? = some n ∧ n.data = none := by
  intro h
  obtain ⟨a, n, ha, hn, hd⟩ := h [Op.push 1] [] ⟨⟨[⟨some 1, some 1⟩, ⟨none, none⟩], []⟩, some 0, some 1⟩ rfl
  cases ha
  cases hn
  cases hd

/-- C27, amended: in every state of `lock_free_queue_7_13_SPSC` reached from construction by
pushes and pops of one thread, `head` points to a node whose payload is the oldest queued value
when there is one and empty when the queue is empty; this node holds no payload exactly when
`head` equals `tail`, and the node that `tail` points to is an empty placeholder. -/
theorem spsc_head_holds_oldest {T : Type} (ops : List (Op T)) :
    ∃ (results : List (Option T)) (s : lock_free_queue_7_13_SPSC T) (a t : Nat)
      (n : lock_free_queue_7_13_SPSC.node T),
      lock_free_queue_7_13_SPSC.run ops lock_free_queue_7_13_SPSC.fresh = .ok (results, s) ∧
      s.head = some a ∧ s.heap.cells[a]? = some n ∧
      n.data = (spec_state fifo_put ops []).head? ∧
      (n.data = none ↔ s.head = s.tail) ∧
      s.tail = some t ∧ s.heap.cells[t]? = some ⟨none, none⟩ := by
  obtain ⟨s, hrun, hh⟩ := lock_free_queue_7_13_SPSC.run_refines_SPSC ops
    lock_free_queue_7_13_SPSC.fresh [] lock_free_queue_7_13_SPSC.fresh_holds_SPSC
  obtain ⟨a, n, ha, hn, hd, hiff⟩ := head_node_SPSC hh
  obtain ⟨al, t, hi, _⟩ := hh
  obtain ⟨nt, hnt, hd1, hnx⟩ := hi.tail_node
  refine ⟨_, s, a, t, n, hrun, ha, hn, hd, hiff, hi.tail_eq, ?_⟩
  rw [hnt]
  cases nt
  simp only [lock_free_queue_7_13_SPSC.node.mk.injEq] at hd1 hnx ⊢
  exact congrArg some (by cases hd1; cases hnx; rfl)

/-! ## Listing 7.5: chaining the popped node while other threads are in `pop` -/

theorem Links.links_same_cells {N : Type} {nextOf : N → Option Nat} {cells cells1 : List N} :
    ∀ {pl : List Nat} {p : Option Nat}, Links nextOf cells p pl →
      (∀ b ∈ pl, cells1[b]? = cells[b]?) → Links nextOf cells1 p pl := by
  intro pl
  induction pl with
  | nil => intro p h _; exact h
  | cons a pl ih =>
    intro p h hsame
    obtain ⟨n, hp, hn, hrest⟩ := h
    exact ⟨n, hp, (hsame a (List.mem_cons_self _ _)).trans hn,
      ih hrest (fun b hb => hsame b (List.mem_cons_of_mem _ hb))⟩

namespace ref_count_delete_machinery

variable {T : Type}

/-- The path of `try_reclaim` taken when `threads_in_pop` is not 1. -/
theorem try_reclaim_busy_eq (fuel : Nat) (s : lock_free_stack_7_4 T) (a : Nat)
    (n : stack_data.node T) (htp : s.threads_in_pop ≠ 1) (hn : s.heap.cells[a]? = some n)
    (hf : a ∉ s.heap.freed) :
    try_reclaim (fuel + 1) s (some a) =
      .ok ⟨⟨⟨s.heap.cells.set a { n with next := s.to_delete }, s.heap.freed⟩, s.head⟩, some a,
        unsigned_dec s.threads_in_pop⟩ := by
  obtain ⟨⟨⟨cells, freed⟩, head⟩, td, tp⟩ := s
  simp only at htp hn hf
  have hlt : a < cells.length := by
    by_contra hlt
    rw [List.getElem?_eq_none (by omega)] at hn
    cases hn
  have hr := Heap.read_ok (h := (⟨cells, freed⟩ : Heap (stack_data.node T))) hf hn
  have hw := Heap.write_ok (h := (⟨cells, freed⟩ : Heap (stack_data.node T)))
    { n with next := td } hf hlt
  have hr1 : (⟨cells.set a { n with next := td }, freed⟩ : Heap (stack_data.node T)).read a =
      .ok { n with next := td } :=
    Heap.read_ok hf (List.getElem?_set_self hlt)
  unfold try_reclaim
  simp only [if_neg htp, chain_pending_node, chain_pending_nodes_range, hr, hw, chain_loop, hr1,
    compare_exchange, if_true, bind, Except.bind, pure, Except.pure]

end ref_count_delete_machinery

/-- C21: `try_reclaim(old_head)` with a non-null `old_head`, a live node at `a`, when it observes
`threads_in_pop != 1`.  With the pending chain `pl` linked from `to_delete` and `old_head` not on
it, the call returns after one round of the loop of `chain_pending_nodes`; `to_delete` then points
to `old_head`, and the chain from it is `old_head` followed by the nodes of `pl` in their order,
every other node as it was; the log of deletions is unchanged, so no node is deleted; `head` is
unchanged; and `threads_in_pop` has had its `--` applied once, which is one less for every value
but 0. -/
theorem try_reclaim_chains_old_head {T : Type} (fuel : Nat) (s : lock_free_stack_7_4 T) (a : Nat)
    (n : stack_data.node T) (pl : List Nat) (htp : s.threads_in_pop ≠ 1)
    (hn : s.heap.cells[a]? = some n) (hf : a ∉ s.heap.freed)
    (hlinks : Links stack_data.node.next s.heap.cells s.to_delete pl) (ha : a ∉ pl) :
    ∃ s1, ref_count_delete_machinery.try_reclaim (fuel + 1) s (some a) = .ok s1 ∧
      s1.to_delete = some a ∧
      Links stack_data.node.next s1.heap.cells s1.to_delete (a :: pl) ∧
      (∀ b, b ≠ a → s1.heap.cells[b]? = s.heap.cells[b]?) ∧
      s1.heap.cells[a]? = some { n with next := s.to_delete } ∧
      s1.heap.freed = s.heap.freed ∧ s1.head = s.head ∧
      s1.threads_in_pop = unsigned_dec s.threads_in_pop ∧
      (s.threads_in_pop ≠ 0 → s.threads_in_pop < unsigned_mod →
        s1.threads_in_pop + 1 = s.threads_in_pop) := by
  have hlt : a < s.heap.cells.length := by
    by_contra hlt
    rw [List.getElem?_eq_none (by omega)] at hn
    cases hn
  have hself : (s.heap.cells.set a { n with next := s.to_delete })[a]? =
      some { n with next := s.to_delete } := List.getElem?_set_self hlt
  refine ⟨_, ref_count_delete_machinery.try_reclaim_busy_eq fuel s a n htp hn hf, rfl,
    ⟨{ n with next := s.to_delete }, rfl, hself, ?_⟩, fun b hb => ?_, hself, rfl, rfl, rfl, ?_⟩
  · refine Links.links_same_cells hlinks (fun b hb => ?_)
    have hne : a ≠ b := fun h => ha (h ▸ hb)
    exact List.getElem?_set_ne hne
  · exact List.getElem?_set_ne (Ne.symm hb)
  · intro h0 hlt1
    show unsigned_dec s.threads_in_pop + 1 = s.threads_in_pop
    unfold unsigned_dec
    rw [if_neg h0, Nat.mod_eq_of_lt (by omega)]
    omega

/-- Witness of C21: the node at address 0 has just been popped while one other thread is in
`pop` (`threads_in_pop` is 2), and the node at address 1 is pending. -/
theorem try_reclaim_chains_old_head_witness :
    (2 : Nat) ≠ 1 ∧ (0 : Nat) ∉ ([1] : List Nat) ∧
    ∃ s1, ref_count_delete_machinery.try_reclaim 1
        (⟨⟨⟨[⟨none, none⟩, ⟨none, none⟩], []⟩, none⟩, some 1, 2⟩ : lock_free_stack_7_4 Nat)
        (some 0) = .ok s1 ∧
      s1.to_delete = some 0 ∧
      Links stack_data.node.next s1.heap.cells s1.to_delete [0, 1] ∧
      (∀ b, b ≠ 0 → s1.heap.cells[b]? = ([⟨none, none⟩, ⟨none, none⟩] : List (stack_data.node Nat))[b]?) ∧
      s1.heap.cells[0]? = some ⟨none, some 1⟩ ∧
      s1.heap.freed = [] ∧ s1.head = none ∧
      s1.threads_in_pop = unsigned_dec 2 ∧
      ((2 : Nat) ≠ 0 → 2 < unsigned_mod → s1.threads_in_pop + 1 = 2) :=
  ⟨by decide, by decide, try_reclaim_chains_old_head 0
    (⟨⟨⟨[⟨none, none⟩, ⟨none, none⟩], []⟩, none⟩, some 1, 2⟩ : lock_free_stack_7_4 Nat) 0
    ⟨none, none⟩ [1] (by decide) rfl (by decide) ⟨⟨none, none⟩, rfl, rfl, rfl⟩ (by decide)⟩

/-! ## Listing 7.15: the counters of a node -/

namespace lock_free_queue_RC_tail

variable {T : Type}

theorem release_ref_eq (fuel : Nat) (h : Heap (node T)) (a : Nat) (n : node T) (hf : a ∉ h.freed)
    (hn : h.cells[a]? = some n) :
    release_ref (fuel + 1) h (some a) =
      .ok ⟨h.cells.set a { n with count := released n.count },
        if (released n.count).internal_count = 0 ∧ (released n.count).external_counters = 0
        then a :: h.freed else h.freed⟩ := by
  have hlt : a < h.cells.length := by
    by_contra hlt
    rw [List.getElem?_eq_none (by omega)] at hn
    cases hn
  have hloop := count_loop_eq released fuel h a n hf hn
  have hlt1 : a < (h.cells.set a { n with count := released n.count }).length := by simpa using hlt
  simp only [release_ref, Heap.read_ok hf hn, bind, Except.bind]
  rw [hloop]
  by_cases hz : (released n.count).internal_count = 0 ∧ (released n.count).external_counters = 0
  · simp only [hz, and_self, if_true]
    exact Heap.delete_ok hf hlt1
  · simp only [hz, if_false]
    rfl

theorem free_external_counter_eq (fuel : Nat) (h : Heap (node T)) (c : counted_node_ptr) (a : Nat)
    (n : node T) (hc : c.ptr = some a) (hf : a ∉ h.freed) (hn : h.cells[a]? = some n) :
    free_external_counter (fuel + 1) h c =
      .ok ⟨h.cells.set a { n with count := freed_external c.external_count n.count },
        if (freed_external c.external_count n.count).internal_count = 0 ∧
          (freed_external c.external_count n.count).external_counters = 0
        then a :: h.freed else h.freed⟩ := by
  have hlt : a < h.cells.length := by
    by_contra hlt
    rw [List.getElem?_eq_none (by omega)] at hn
    cases hn
  have hloop := count_loop_eq (freed_external c.external_count) fuel h a n hf hn
  have hlt1 : a < (h.cells.set a { n with count := freed_external c.external_count n.count }).length := by
    simpa using hlt
  simp only [free_external_counter, hc, Heap.read_ok hf hn, bind, Except.bind]
  rw [hloop]
  by_cases hz : (freed_external c.external_count n.count).internal_count = 0 ∧
      (freed_external c.external_count n.count).external_counters = 0
  · simp only [hz, and_self, if_true]
    exact Heap.delete_ok hf hlt1
  · simp only [hz, if_false]
    rfl

theorem freed_external_internal (e : Int) (c : node_counter) :
    ((freed_external e c).internal_count : Int) = ((c.internal_count : Int) + e - 2) % 1073741824 := by
  obtain ⟨i, x⟩ := c
  simp only [freed_external, wrap_int]
  rw [Int.toNat_of_nonneg (Int.emod_nonneg _ (by decide))]
  omega

theorem freed_external_external (e : Int) (c : node_counter) :
    ((freed_external e c).external_counters : Int) = ((c.external_counters : Int) - 1) % 4 := by
  obtain ⟨i, x⟩ := c
  simp only [freed_external]
  omega

theorem released_internal (c : node_counter) :
    ((released c).internal_count : Int) = ((c.internal_count : Int) - 1) % 1073741824 := by
  obtain ⟨i, x⟩ := c
  simp only [released, internal_dec]
  split <;> omega

end lock_free_queue_RC_tail

/-- C24: counted release in `lock_free_queue_RC_tail`.  A fresh node has the counter
(`internal_count` 0, `external_counters` 2).  On a live node at `a` with the counter `(i, x)`,
`free_external_counter` called with a counted pointer to `a` of `external_count` `e` stores the
counter `((i + e - 2) mod 2^30, (x - 1) mod 4)`, and `release_ref` stores
`((i - 1) mod 2^30, x)` (1073741824 is 2 to the power 30); each of them returns after one round
of its loop, changes nothing else in the node, and deletes the node, once, if and only if both
fields of the counter it has stored are zero. -/
theorem counted_release_updates_counter {T : Type} (fuel : Nat)
    (h : Heap (lock_free_queue_RC_tail.node T)) (c : lock_free_queue_RC_tail.counted_node_ptr)
    (a : Nat) (n : lock_free_queue_RC_tail.node T) (hc : c.ptr = some a) (hf : a ∉ h.freed)
    (hn : h.cells[a]? = some n) :
    (lock_free_queue_RC_tail.node.new : lock_free_queue_RC_tail.node T).count = ⟨0, 2⟩ ∧
    (∃ fe : lock_free_queue_RC_tail.node_counter,
      (fe.internal_count : Int) = ((n.count.internal_count : Int) + c.external_count - 2) % 1073741824 ∧
      (fe.external_counters : Int) = ((n.count.external_counters : Int) - 1) % 4 ∧
      ∃ h1, lock_free_queue_RC_tail.free_external_counter (fuel + 1) h c = .ok h1 ∧
        h1.cells = h.cells.set a { n with count := fe } ∧
        h1.freed = (if fe.internal_count = 0 ∧ fe.external_counters = 0 then a :: h.freed
          else h.freed) ∧
        (a ∈ h1.freed ↔ fe.internal_count = 0 ∧ fe.external_counters = 0)) ∧
    (∃ rc : lock_free_queue_RC_tail.node_counter,
      (rc.internal_count : Int) = ((n.count.internal_count : Int) - 1) % 1073741824 ∧
      rc.external_counters = n.count.external_counters ∧
      ∃ h1, lock_free_queue_RC_tail.release_ref (fuel + 1) h (some a) = .ok h1 ∧
        h1.cells = h.cells.set a { n with count := rc } ∧
        h1.freed = (if rc.internal_count = 0 ∧ rc.external_counters = 0 then a :: h.freed
          else h.freed) ∧
        (a ∈ h1.freed ↔ rc.internal_count = 0 ∧ rc.external_counters = 0)) := by
  refine ⟨rfl, ⟨lock_free_queue_RC_tail.freed_external c.external_count n.count,
    lock_free_queue_RC_tail.freed_external_internal _ _,
    lock_free_queue_RC_tail.freed_external_external _ _, _,
    lock_free_queue_RC_tail.free_external_counter_eq fuel h c a n hc hf hn, rfl, rfl, ?_⟩,
    ⟨lock_free_queue_RC_tail.released n.count, lock_free_queue_RC_tail.released_internal _,
    lock_free_queue_RC_tail.released_external_counters _, _,
    lock_free_queue_RC_tail.release_ref_eq fuel h a n hf hn, rfl, rfl, ?_⟩⟩
  · show a ∈ (if _ then a :: h.freed else h.freed) ↔ _
    split
    · rename_i hz
      exact ⟨fun _ => hz, fun _ => List.mem_cons_self _ _⟩
    · rename_i hz
      exact ⟨fun hm => absurd hm hf, fun hz1 => absurd hz1 hz⟩
  · show a ∈ (if _ then a :: h.freed else h.freed) ↔ _
    split
    · rename_i hz
      exact ⟨fun _ => hz, fun _ => List.mem_cons_self _ _⟩
    · rename_i hz
      exact ⟨fun hm => absurd hm hf, fun hz1 => absurd hz1 hz⟩

/-- Witness of C24: the live node at address 0 has the counter (1, 1).  `free_external_counter`
with `external_count` 1 stores (0, 0) and deletes the node; `release_ref` stores (0, 1) and does
not. -/
theorem counted_release_updates_counter_witness :
    (0 : Nat) ∉ ([] : List Nat) ∧
    lock_free_queue_RC_tail.free_external_counter 1
      (⟨[⟨none, ⟨1, 1⟩, ⟨0, none⟩⟩], []⟩ : Heap (lock_free_queue_RC_tail.node Nat)) ⟨1, some 0⟩ =
      .ok ⟨[⟨none, ⟨0, 0⟩, ⟨0, none⟩⟩], [0]⟩ ∧
    lock_free_queue_RC_tail.release_ref 1
      (⟨[⟨none, ⟨1, 1⟩, ⟨0, none⟩⟩], []⟩ : Heap (lock_free_queue_RC_tail.node Nat)) (some 0) =
      .ok ⟨[⟨none, ⟨0, 1⟩, ⟨0, none⟩⟩], []⟩ ∧
    (lock_free_queue_RC_tail.node.new : lock_free_queue_RC_tail.node Nat).count = ⟨0, 2⟩ :=
  ⟨by decide, by decide, by decide,
    (counted_release_updates_counter 0
      (⟨[⟨none, ⟨1, 1⟩, ⟨0, none⟩⟩], []⟩ : Heap (lock_free_queue_RC_tail.node Nat)) ⟨1, some 0⟩ 0
      ⟨none, ⟨1, 1⟩, ⟨0, none⟩⟩ rfl (by decide) rfl).1⟩

/-! ## Listing 7.21: `set_new_tail` -/

namespace lock_free_queue_RC_tail_modified

open lock_free_queue_RC_tail (counted_node_ptr node_counter node release_ref free_external_counter)

variable {T : Type}

/-- The loop of `set_new_tail` ends within two rounds: `tail` is replaced when it points to the
node of `old_tail`, and `old_tail` ends as the content `tail` had. -/
theorem set_new_tail_loop_eq (fuel : Nat) (tail old_tail new_tail : counted_node_ptr) :
    set_new_tail_loop old_tail.ptr new_tail (fuel + 2) tail old_tail =
      .ok (if tail.ptr = old_tail.ptr then new_tail else tail, tail) := by
  by_cases h1 : tail = old_tail
  · subst h1
    simp [set_new_tail_loop, compare_exchange, pure, Except.pure]
  · by_cases h2 : tail.ptr = old_tail.ptr
    · simp [set_new_tail_loop, compare_exchange, h1, h2, pure, Except.pure]
    · simp [set_new_tail_loop, compare_exchange, h1, h2, pure, Except.pure]

end lock_free_queue_RC_tail_modified

/-- C25: `set_new_tail(old_tail, new_tail)` in `lock_free_queue_RC_tail_modified`, run without
interference.  Its loop ends within two rounds.  If `tail` points to the node of `old_tail`, the
call is `free_external_counter` on that node, with the counted pointer read from `tail`, and
`tail` becomes `new_tail`; if `tail` points to a different node, the call is `release_ref` on the
node of `old_tail` and `tail` is left as it was.  So exactly one of the two releases is performed,
on the original node; in both cases `old_tail` ends as the content `tail` had.  Two runs: a stale
count in `old_tail` (the node at 0 goes from the counter (0, 2) to (0, 1) and `tail` moves to
the node at 1), and a `tail` that has moved on (the node at 0 goes from (1, 1) to (0, 1) and
`tail` stays). -/
theorem set_new_tail_releases_once {T : Type} (fuel : Nat) (s : lock_free_queue_RC_tail_modified T)
    (old_tail new_tail : lock_free_queue_RC_tail.counted_node_ptr) :
    lock_free_queue_RC_tail_modified.set_new_tail (fuel + 2) s old_tail new_tail =
      (if s.tail.ptr = old_tail.ptr then
        (lock_free_queue_RC_tail.free_external_counter (fuel + 2) s.heap s.tail).map
          (fun heap2 => ({ s with heap := heap2, tail := new_tail }, s.tail))
      else
        (lock_free_queue_RC_tail.release_ref (fuel + 2) s.heap old_tail.ptr).map
          (fun heap2 => ({ s with heap := heap2 }, s.tail))) ∧
    lock_free_queue_RC_tail_modified.set_new_tail 2
      (⟨⟨[⟨some 7, ⟨0, 2⟩, ⟨1, some 1⟩⟩, lock_free_queue_RC_tail.node.new], []⟩, ⟨0, some 0⟩, ⟨2, some 0⟩⟩ :
        lock_free_queue_RC_tail_modified Nat) ⟨1, some 0⟩ ⟨1, some 1⟩ =
      .ok (⟨⟨[⟨some 7, ⟨0, 1⟩, ⟨1, some 1⟩⟩, lock_free_queue_RC_tail.node.new], []⟩, ⟨0, some 0⟩,
        ⟨1, some 1⟩⟩, ⟨2, some 0⟩) ∧
    lock_free_queue_RC_tail_modified.set_new_tail 2
      (⟨⟨[⟨some 7, ⟨1, 1⟩, ⟨1, some 1⟩⟩, lock_free_queue_RC_tail.node.new], []⟩, ⟨0, some 0⟩, ⟨1, some 1⟩⟩ :
        lock_free_queue_RC_tail_modified Nat) ⟨2, some 0⟩ ⟨1, some 1⟩ =
      .ok (⟨⟨[⟨some 7, ⟨0, 1⟩, ⟨1, some 1⟩⟩, lock_free_queue_RC_tail.node.new], []⟩, ⟨0, some 0⟩,
        ⟨1, some 1⟩⟩, ⟨1, some 1⟩) := by
  refine ⟨?_, by decide, by decide⟩
  unfold lock_free_queue_RC_tail_modified.set_new_tail
  simp only [lock_free_queue_RC_tail_modified.set_new_tail_loop_eq, bind, Except.bind]
  by_cases h2 : s.tail.ptr = old_tail.ptr
  · simp only [h2, if_true]
    cases lock_free_queue_RC_tail.free_external_counter (fuel + 2) s.heap s.tail <;> rfl
  · simp only [h2, if_false]
    cases lock_free_queue_RC_tail.release_ref (fuel + 2) s.heap old_tail.ptr <;> rfl

/-! ## The blocks of the thread-based skeletons -/

theorem for_each_blocks_ok (block_size : Nat) : ∀ (count : Nat) (rest : List Int),
    count * block_size ≤ rest.length →
    ∃ blocks, for_each_blocks block_size count rest = .ok (blocks, rest.drop (count * block_size)) ∧
      blocks.length = count ∧ (∀ b ∈ blocks, b.length = block_size) ∧
      blocks.flatten = rest.take (count * block_size) := by
  intro count
  induction count with
  | zero =>
    intro rest _
    exact ⟨[], by simp [for_each_blocks], rfl, by simp, by simp⟩
  | succ count ih =>
    intro rest h
    have hm : (count + 1) * block_size = block_size + count * block_size := by
      rw [Nat.succ_mul]; omega
    have hb : block_size ≤ rest.length := by omega
    obtain ⟨blocks, e, hlen, hall, hflat⟩ := ih (rest.drop block_size) (by simp; omega)
    refine ⟨rest.take block_size :: blocks, ?_, by simp [hlen], ?_, ?_⟩
    · simp only [for_each_blocks, advance_ok hb, e, bind, Except.bind, pure, Except.pure]
      rw [hm, List.drop_drop]
    · intro b hb1
      rcases List.mem_cons.1 hb1 with rfl | hb1
      · simp [hb]
      · exact hall b hb1
    · rw [List.flatten_cons, hflat, hm, List.take_add]

theorem start_blocks_eq_for_each (task : List Int → Int) (block_size : Nat) :
    ∀ (count : Nat) (rest : List Int),
    start_blocks task block_size count rest =
      (for_each_blocks block_size count rest).map (fun r => (r.1.map task, r.2)) := by
  intro count
  induction count with
  | zero => intro rest; rfl
  | succ count ih =>
    intro rest
    simp only [start_blocks, for_each_blocks, bind, Except.bind]
    cases advance rest block_size with
    | error e => rfl
    | ok r =>
      simp only [ih]
      cases for_each_blocks block_size count r.2 <;> rfl

theorem find_blocks_eq (block_size last : Nat) : ∀ (count start : Nat),
    start + count * block_size ≤ last →
    find_blocks block_size last count start =
      .ok ((List.range count).map
        (fun i => ⟨start + i * block_size, start + (i + 1) * block_size, .looping⟩),
        start + count * block_size) := by
  intro count
  induction count with
  | zero => intro start _; simp [find_blocks]
  | succ count ih =>
    intro start h
    have hm : (count + 1) * block_size = block_size + count * block_size := by
      rw [Nat.succ_mul]; omega
    have hb : start + block_size ≤ last := by omega
    have e := ih (start + block_size) (by omega)
    simp only [find_blocks, if_pos hb, e, bind, Except.bind, pure, Except.pure]
    rw [List.range_succ_eq_map, List.map_cons, List.map_map]
    have h1 : start + block_size + count * block_size = start + (count + 1) * block_size := by omega
    rw [h1]
    congr 2
    simp only [List.cons.injEq, List.map_inj_left, Function.comp, find_element_thread.mk.injEq,
      and_true]
    refine ⟨by simp, fun i _ => ⟨by simp only [Nat.succ_eq_add_one]; ring,
      by simp only [Nat.succ_eq_add_one]; ring⟩⟩

theorem block_of_index (n bs length : Nat) (hn : 1 ≤ n) (hbs : 0 < bs) (j : Nat) (hj : j < length) :
    ∃! i, i < n ∧ i * bs ≤ j ∧ j < (if i + 1 = n then length else (i + 1) * bs) := by
  have hq1 : ∀ i, i ≤ j / bs ↔ i * bs ≤ j := fun i => Nat.le_div_iff_mul_le hbs
  have hq2 : ∀ i, j / bs < i ↔ j < i * bs := fun i => Nat.div_lt_iff_lt_mul hbs
  generalize j / bs = q at hq1 hq2
  by_cases hc : q < n - 1
  · refine ⟨q, ⟨by omega, (hq1 _).1 le_rfl, ?_⟩, ?_⟩
    · rw [if_neg (by omega)]
      exact (hq2 _).1 (Nat.lt_succ_self _)
    · rintro i ⟨hi, h1, h2⟩
      have h3 := (hq1 i).2 h1
      by_cases he : i + 1 = n
      · omega
      · rw [if_neg he] at h2
        have h4 := (hq2 _).2 h2
        omega
  · refine ⟨n - 1, ⟨by omega, (hq1 _).1 (by omega), ?_⟩, ?_⟩
    · rw [if_pos (by omega)]
      exact hj
    · rintro i ⟨hi, h1, h2⟩
      have h3 := (hq1 i).2 h1
      by_cases he : i + 1 = n
      · omega
      · rw [if_neg he] at h2
        have h4 := (hq2 _).2 h2
        omega

/-- C30: the block partition of `parallel_accumulate_8_2`, `parallel_accumulate_8_4`,
`parallel_for_each_8_7`, `parallel_find_8_9` and `parallel_partial_sum_8_11`.  For every
non-empty range and every value of `hardware_concurrency`, 2 being used for 0: `max_threads` is
the length divided by 25 and rounded up, and `num_threads`, the smaller of the hardware threads
and `max_threads`, is at least 1 and at most the length; the division that computes `block_size`
does not divide by zero, and `block_size` is at least 1; the `num_threads - 1` blocks of
`block_size` elements fit in the range and leave at least `block_size` elements, so the final
block is not empty; every position of the range lies in exactly one block, the blocks being
those of the indices `i * block_size` up to `(i + 1) * block_size` and the final block reaching
to the end.  The loops of the five functions that hand out the blocks run without fault and
produce these blocks: the blocks of `parallel_for_each_8_7`, concatenated, are the range. -/
theorem block_partition_covers_range (hardware_concurrency : Nat) (xs : List Int) (h : xs ≠ []) :
    ∃ max_threads num_threads block_size : Nat,
      (max_threads - 1) * 25 < xs.length ∧ xs.length ≤ max_threads * 25 ∧
      num_threads_for hardware_concurrency xs.length = num_threads ∧
      num_threads = min (if hardware_concurrency = 0 then 2 else hardware_concurrency) max_threads ∧
      1 ≤ num_threads ∧ num_threads ≤ xs.length ∧
      divide xs.length num_threads = .ok block_size ∧ 1 ≤ block_size ∧
      (num_threads - 1) * block_size + block_size ≤ xs.length ∧
      (∀ j, j < xs.length → ∃! i, i < num_threads ∧ i * block_size ≤ j ∧
        j < (if i + 1 = num_threads then xs.length else (i + 1) * block_size)) ∧
      (∃ blocks : List (List Int),
        parallel_for_each_8_7 hardware_concurrency xs =
          .ok (blocks ++ [xs.drop ((num_threads - 1) * block_size)]) ∧
        blocks.length = num_threads - 1 ∧ (∀ b ∈ blocks, b.length = block_size) ∧
        blocks.flatten ++ xs.drop ((num_threads - 1) * block_size) = xs ∧
        xs.drop ((num_threads - 1) * block_size) ≠ [] ∧
        ∀ task : List Int → Int, start_blocks task block_size (num_threads - 1) xs =
          .ok (blocks.map task, xs.drop ((num_threads - 1) * block_size))) ∧
      find_blocks block_size xs.length (num_threads - 1) 0 =
        .ok ((List.range (num_threads - 1)).map
          (fun i => ⟨0 + i * block_size, 0 + (i + 1) * block_size, .looping⟩),
          0 + (num_threads - 1) * block_size) ∧
      ∃ chunks last_end, chunk_threads block_size (num_threads - 1) xs none =
        .ok (chunks, xs.drop ((num_threads - 1) * block_size), last_end) := by
  have hlen : xs.length ≠ 0 := fun h0 => h (List.length_eq_zero.1 h0)
  obtain ⟨hn0, hfit⟩ := num_threads_for_pos hardware_concurrency xs.length hlen
  have hnle := num_threads_for_le hardware_concurrency xs.length hlen
  have hmin : num_threads_for hardware_concurrency xs.length =
      min (if hardware_concurrency = 0 then 2 else hardware_concurrency)
        ((xs.length + 25 - 1) / 25) := by
    unfold num_threads_for
    by_cases h0 : hardware_concurrency = 0 <;> simp [h0]
  generalize hn : num_threads_for hardware_concurrency xs.length = n at hn0 hfit hnle hmin
  have hbs : 1 ≤ xs.length / n := (Nat.le_div_iff_mul_le (by omega)).2 (by omega)
  have hdiv : divide xs.length n = .ok (xs.length / n) := by simp [divide, hn0]
  have hsplit : ∀ q, n * q = (n - 1) * q + q := by
    intro q
    obtain ⟨k, hk⟩ : ∃ k, n = k + 1 := ⟨n - 1, by omega⟩
    rw [hk]
    simp [Nat.succ_mul]
  have hfull : (n - 1) * (xs.length / n) + xs.length / n ≤ xs.length := by
    rw [← hsplit]
    exact Nat.mul_div_le _ _
  generalize xs.length / n = bs at hfit hbs hdiv hfull
  obtain ⟨blocks, e, hblen, hball, hflat⟩ := for_each_blocks_ok bs (n - 1) xs hfit
  have hlast : xs.drop ((n - 1) * bs) ≠ [] := by
    intro h0
    have h1 := congrArg List.length h0
    simp only [List.length_drop, List.length_nil] at h1
    omega
  refine ⟨(xs.length + 25 - 1) / 25, n, bs, by omega, by omega, rfl, hmin, by omega, hnle, hdiv,
    hbs, hfull, block_of_index n bs xs.length (by omega) hbs, ⟨blocks, ?_, hblen, hball, ?_,
    hlast, fun task => ?_⟩, find_blocks_eq bs xs.length (n - 1) 0 (by omega), ?_⟩
  · unfold parallel_for_each_8_7
    simp only [if_neg hlen, hn, hdiv, e, bind, Except.bind, pure, Except.pure]
  · rw [hflat, List.take_append_drop]
  · rw [start_blocks_eq_for_each, e]
    rfl
  · obtain ⟨last_end, e1, _⟩ := chunk_threads_ok bs (by omega) (n - 1) xs none hfit
    exact ⟨_, last_end, e1⟩

/-- Witness of C30: a range of 60 elements with 4 hardware threads. -/
theorem block_partition_covers_range_witness :
    List.replicate 60 (1 : Int) ≠ [] ∧
    ∃ num_threads block_size : Nat,
      num_threads_for 4 (List.replicate 60 (1 : Int)).length = num_threads ∧
      1 ≤ num_threads ∧ num_threads ≤ (List.replicate 60 (1 : Int)).length ∧
      divide (List.replicate 60 (1 : Int)).length num_threads = .ok block_size ∧
      1 ≤ block_size ∧
      (num_threads - 1) * block_size + block_size ≤ (List.replicate 60 (1 : Int)).length := by
  have hne : List.replicate 60 (1 : Int) ≠ [] := by simp
  obtain ⟨_, n, bs, _, _, h3, _, h5, h6, h7, h8, h9, _⟩ :=
    block_partition_covers_range 4 (List.replicate 60 (1 : Int)) hne
  exact ⟨hne, n, bs, h3, h5, h6, h7, h8, h9⟩

/-! ## Listing 7.7: deleting the retired nodes that no hazard pointer publishes -/

namespace hazardous_pointer_machinery

theorem outstanding_iff (t : table) (p : Option Nat) :
    outstanding_hazard_pointers_for t p = true ↔ ∃ i, (t i).pointer = p := by
  simp [outstanding_hazard_pointers_for, List.any_eq_true, List.mem_finRange]

theorem not_outstanding_iff (t : table) (p : Option Nat) :
    outstanding_hazard_pointers_for t p = false ↔ ∀ i, (t i).pointer ≠ p := by
  rw [← Bool.not_eq_true, outstanding_iff]
  simp

end hazardous_pointer_machinery

namespace lock_free_stack_7_6

open hazardous_pointer_machinery

variable {T : Type}

/-- The loop of `delete_nodes_with_no_hazards` deletes the entries that no hazard pointer
publishes, in the order of the list, and puts the others back, the last one first. -/
theorem delete_nodes_loop_eq (t : table) : ∀ (cur : List Nat) (s : lock_free_stack_7_6 T),
    s.hazard_pointers = t →
    (cur.filter (fun d => !outstanding_hazard_pointers_for t (some d))).Nodup →
    (∀ d ∈ cur, outstanding_hazard_pointers_for t (some d) = false →
      d ∉ s.heap.freed ∧ d < s.heap.cells.length) →
    delete_nodes_loop cur s = .ok
      { s with
        heap := ⟨s.heap.cells,
          (cur.filter (fun d => !outstanding_hazard_pointers_for t (some d))).reverse ++ s.heap.freed⟩
        nodes_to_reclaim :=
          (cur.filter (fun d => outstanding_hazard_pointers_for t (some d))).reverse ++
            s.nodes_to_reclaim } := by
  intro cur
  induction cur with
  | nil => intro s _ _ _; rfl
  | cons d rest ih =>
    intro s ht hnd hlive
    subst ht
    by_cases ho : outstanding_hazard_pointers_for s.hazard_pointers (some d) = true
    · have hnd1 : (rest.filter (fun d => !outstanding_hazard_pointers_for s.hazard_pointers (some d))).Nodup := by
        simpa [List.filter_cons, ho] using hnd
      have e := ih (reclaim_later s d) rfl hnd1
        (fun e he hu => hlive e (List.mem_cons_of_mem _ he) hu)
      simp only [delete_nodes_loop, ho, Bool.not_true, Bool.false_eq_true, if_false, e]
      simp [List.filter_cons, ho, reclaim_later]
    · have ho1 : outstanding_hazard_pointers_for s.hazard_pointers (some d) = false := by simpa using ho
      have hnd0 : (d :: rest.filter (fun d => !outstanding_hazard_pointers_for s.hazard_pointers (some d))).Nodup := by
        simpa [List.filter_cons, ho1] using hnd
      rw [List.nodup_cons] at hnd0
      obtain ⟨hf, hlt⟩ := hlive d (List.mem_cons_self _ _) ho1
      have hdel := Heap.delete_ok hf hlt
      have e := ih { s with heap := ⟨s.heap.cells, d :: s.heap.freed⟩ } rfl hnd0.2
        (fun e he hu => by
          obtain ⟨h1, h2⟩ := hlive e (List.mem_cons_of_mem _ he) hu
          refine ⟨fun hm => ?_, h2⟩
          rcases List.mem_cons.1 hm with hed | hm
          · exact hnd0.1 (hed ▸ List.mem_filter.2 ⟨he, by simp [hu]⟩)
          · exact h1 hm)
      simp only [delete_nodes_loop, ho1, Bool.not_false, if_true, hdel, bind, Except.bind, e]
      simp [List.filter_cons, ho1]

end lock_free_stack_7_6

/-- C23: `delete_nodes_with_no_hazards`, the hazard table being fixed during the call, on a retire
list of distinct entries whose nodes have not been deleted.  The call returns; the log of
deletions gains the nodes `deleted`, each once, and these are exactly the entries of the retire
list whose address no slot of the table publishes; the retire list is afterwards made of exactly
the entries whose address some slot publishes, each once; the table, the nodes and `head` are
unchanged. -/
theorem delete_nodes_with_no_hazards_splits {T : Type} (s : lock_free_stack_7_6 T)
    (hnd : s.nodes_to_reclaim.Nodup)
    (hlive : ∀ d ∈ s.nodes_to_reclaim, d ∉ s.heap.freed ∧ d < s.heap.cells.length) :
    ∃ (s1 : lock_free_stack_7_6 T) (deleted : List Nat),
      lock_free_stack_7_6.delete_nodes_with_no_hazards s = .ok s1 ∧
      s1.hazard_pointers = s.hazard_pointers ∧ s1.heap.cells = s.heap.cells ∧ s1.head = s.head ∧
      s1.hazard = s.hazard ∧
      s1.heap.freed = deleted ++ s.heap.freed ∧ deleted.Nodup ∧
      (∀ d, d ∈ deleted ↔ d ∈ s.nodes_to_reclaim ∧ ∀ i, (s.hazard_pointers i).pointer ≠ some d) ∧
      (∀ d ∈ deleted, s1.heap.freed.count d = 1) ∧
      s1.nodes_to_reclaim.Nodup ∧
      (∀ d, d ∈ s1.nodes_to_reclaim ↔
        d ∈ s.nodes_to_reclaim ∧ ∃ i, (s.hazard_pointers i).pointer = some d) := by
  have e := lock_free_stack_7_6.delete_nodes_loop_eq s.hazard_pointers s.nodes_to_reclaim
    { s with nodes_to_reclaim := [] } rfl (hnd.filter _) (fun d hd _ => hlive d hd)
  have hdn : (s.nodes_to_reclaim.filter
      (fun d => !hazardous_pointer_machinery.outstanding_hazard_pointers_for s.hazard_pointers
        (some d))).reverse.Nodup := List.nodup_reverse.2 (hnd.filter _)
  have hmem : ∀ d, d ∈ (s.nodes_to_reclaim.filter
      (fun d => !hazardous_pointer_machinery.outstanding_hazard_pointers_for s.hazard_pointers
        (some d))).reverse ↔
      d ∈ s.nodes_to_reclaim ∧ ∀ i, (s.hazard_pointers i).pointer ≠ some d := by
    intro d
    rw [List.mem_reverse, List.mem_filter, Bool.not_eq_true',
      hazardous_pointer_machinery.not_outstanding_iff]
  refine ⟨_, _, e, rfl, rfl, rfl, rfl, rfl, hdn, hmem, fun d hd => ?_, ?_, fun d => ?_⟩
  · show List.count d (_ ++ s.heap.freed) = 1
    rw [List.count_append, List.count_eq_one_of_mem hdn hd,
      List.count_eq_zero_of_not_mem (hlive d ((hmem d).1 hd).1).1]
  · show (_ ++ ([] : List Nat)).Nodup
    rw [List.append_nil]
    exact List.nodup_reverse.2 (hnd.filter _)
  · show d ∈ _ ++ ([] : List Nat) ↔ _
    rw [List.append_nil, List.mem_reverse, List.mem_filter,
      hazardous_pointer_machinery.outstanding_iff]

/-- Witness of C23: the nodes at the addresses 0 and 2 are retired and the entry 5 of the table
publishes the address 2. -/
theorem delete_nodes_with_no_hazards_splits_witness :
    ∃ s : lock_free_stack_7_6 Nat,
      s = ⟨⟨⟨[⟨none, none⟩, ⟨some 7, none⟩, ⟨none, none⟩], []⟩, some 1⟩,
        Function.update hazardous_pointer_machinery.table.zero ⟨5, by decide⟩ ⟨some 9, some 2⟩, none, [0, 2]⟩ ∧
      s.nodes_to_reclaim.Nodup ∧
      (∀ d ∈ s.nodes_to_reclaim, d ∉ s.heap.freed ∧ d < s.heap.cells.length) ∧
      ∃ (s1 : lock_free_stack_7_6 Nat) (deleted : List Nat),
        lock_free_stack_7_6.delete_nodes_with_no_hazards s = .ok s1 ∧
        s1.hazard_pointers = s.hazard_pointers ∧ s1.heap.cells = s.heap.cells ∧ s1.head = s.head ∧
        s1.hazard = s.hazard ∧
        s1.heap.freed = deleted ++ s.heap.freed ∧ deleted.Nodup ∧
        (∀ d, d ∈ deleted ↔ d ∈ s.nodes_to_reclaim ∧ ∀ i, (s.hazard_pointers i).pointer ≠ some d) ∧
        (∀ d ∈ deleted, s1.heap.freed.count d = 1) ∧
        s1.nodes_to_reclaim.Nodup ∧
        (∀ d, d ∈ s1.nodes_to_reclaim ↔
          d ∈ s.nodes_to_reclaim ∧ ∃ i, (s.hazard_pointers i).pointer = some d) :=
  ⟨_, rfl, by decide, by decide,
    delete_nodes_with_no_hazards_splits
      (⟨⟨⟨[⟨none, none⟩, ⟨some 7, none⟩, ⟨none, none⟩], []⟩, some 1⟩,
        Function.update hazardous_pointer_machinery.table.zero ⟨5, by decide⟩ ⟨some 9, some 2⟩, none, [0, 2]⟩ :
        lock_free_stack_7_6 Nat) (by decide) (by decide)⟩

/-! ## Listing 7.6: `pop` deletes the node or retires it -/

namespace lock_free_stack_7_6

open hazardous_pointer_machinery

variable {T : Type}

theorem get_hazard_pointer_keeps_pointers (this_id : Nat) (s : lock_free_stack_7_6 T)
    (h : s.hazard.isSome ∨ ∃ i, (s.hazard_pointers i).id = none) :
    ∃ hp t1, get_hazard_pointer_for_current_thread this_id s =
        .ok (hp, { s with hazard_pointers := t1, hazard := some hp }) ∧
      ∀ j, (t1 j).pointer = (s.hazard_pointers j).pointer := by
  cases hh : s.hazard with
  | some hp =>
    refine ⟨hp, s.hazard_pointers, ?_, fun _ => rfl⟩
    obtain ⟨b, t, hz, r⟩ := s
    simp only at hh
    subst hh
    rfl
  | none =>
    have hfree : ∃ i, (s.hazard_pointers i).id = none := by
      rcases h with h | h
      · simp [hh] at h
      · exact h
    obtain ⟨i, hi⟩ := hp_owner_of_free this_id s.hazard_pointers hfree
    refine ⟨i, claim this_id s.hazard_pointers i,
      by simp [get_hazard_pointer_for_current_thread, hh, hi, pure, Except.pure], fun j => ?_⟩
    unfold claim
    by_cases hj : j = i
    · subst hj
      simp
    · simp [Function.update, hj]

/-- What `pop` leaves when it has detached the node at the head of a non-empty stack. -/
theorem pop_detached_eq {s : lock_free_stack_7_6 T} {x : Nat × T} {al : List (Nat × T)}
    (hi : ChainInv stack_data.node.data stack_data.node.next s.heap s.head (x :: al))
    (hr : Retired s.heap (x :: al) s.nodes_to_reclaim)
    (hz : s.hazard.isSome ∨ ∃ i, (s.hazard_pointers i).id = none) (fuel this_id : Nat) :
    ∃ (hp : Fin max_hazard_pointers) (t2 : table) (cells : List (stack_data.node T)),
      s.head = some x.1 ∧ x.1 ∉ s.heap.freed ∧ x.1 ∉ s.nodes_to_reclaim ∧
      (t2 hp).pointer = none ∧ (∀ j, j ≠ hp → (t2 j).pointer = (s.hazard_pointers j).pointer) ∧
      pop (fuel + 1) this_id s = .ok (some x.2,
        if outstanding_hazard_pointers_for t2 (some x.1) = true then
          { heap := ⟨cells, (s.nodes_to_reclaim.filter
              (fun d => !outstanding_hazard_pointers_for t2 (some d))).reverse ++ s.heap.freed⟩
            head := (s.heap.cells[x.1]?.bind stack_data.node.next)
            hazard_pointers := t2
            hazard := some hp
            nodes_to_reclaim := (s.nodes_to_reclaim.filter
              (fun d => outstanding_hazard_pointers_for t2 (some d))).reverse ++ [x.1] }
        else
          { heap := ⟨cells, (s.nodes_to_reclaim.filter
              (fun d => !outstanding_hazard_pointers_for t2 (some d))).reverse ++
                x.1 :: s.heap.freed⟩
            head := (s.heap.cells[x.1]?.bind stack_data.node.next)
            hazard_pointers := t2
            hazard := some hp
            nodes_to_reclaim := (s.nodes_to_reclaim.filter
              (fun d => outstanding_hazard_pointers_for t2 (some d))).reverse }) := by
  obtain ⟨hp, t1, hget, hptr⟩ := get_hazard_pointer_keeps_pointers this_id s hz
  obtain ⟨n, hhd, hn, hd, hf, hlt, hne, hrest⟩ := hi.inv_top
  have hxoff : x.1 ∉ s.nodes_to_reclaim := fun hm => hr.off x.1 hm x (List.mem_cons_self _ _) rfl
  refine ⟨hp, Function.update t1 hp { t1 hp with pointer := none },
    s.heap.cells.set x.1 { n with data := none }, hhd, hf, hxoff, by simp, fun j hj => ?_, ?_⟩
  · rw [Function.update_noteq hj]
    exact hptr j
  have hnx : s.heap.cells[x.1]?.bind stack_data.node.next = n.next := by rw [hn]; rfl
  rw [hnx]
  by_cases ho : outstanding_hazard_pointers_for (detached s t1 hp x.1 n).hazard_pointers
      (some x.1) = true
  · have ho1 : outstanding_hazard_pointers_for
        (Function.update t1 hp { t1 hp with pointer := none }) (some x.1) = true := ho
    have e := delete_nodes_loop_eq (Function.update t1 hp { t1 hp with pointer := none })
      (x.1 :: s.nodes_to_reclaim)
      { reclaim_later (detached s t1 hp x.1 n) x.1 with nodes_to_reclaim := [] } rfl
      ((List.nodup_cons.2 ⟨hxoff, hr.nodup⟩).filter _)
      (fun d hd hu => by
        rcases List.mem_cons.1 hd with rfl | hd
        · rw [ho1] at hu
          cases hu
        · refine ⟨hr.live d hd, ?_⟩
          show d < (s.heap.cells.set x.1 _).length
          rw [List.length_set]
          exact hr.lt d hd)
    rw [pop_some_retire fuel this_id s t1 hp x.1 n hget hhd hf hn ho]
    have e1 : delete_nodes_with_no_hazards (reclaim_later (detached s t1 hp x.1 n) x.1) = _ := e
    rw [e1, if_pos ho1, hd]
    simp [List.filter_cons, ho1, detached, reclaim_later]
  · have ho1 : outstanding_hazard_pointers_for
        (Function.update t1 hp { t1 hp with pointer := none }) (some x.1) = false := by
      simpa using ho
    have e := delete_nodes_loop_eq (Function.update t1 hp { t1 hp with pointer := none })
      s.nodes_to_reclaim
      { detached s t1 hp x.1 n with
        heap := ⟨(detached s t1 hp x.1 n).heap.cells, x.1 :: (detached s t1 hp x.1 n).heap.freed⟩
        nodes_to_reclaim := [] } rfl
      (hr.nodup.filter _)
      (fun d hd _ => by
        refine ⟨fun hm => ?_, ?_⟩
        · rcases List.mem_cons.1 hm with he | hm
          · exact hxoff (he ▸ hd)
          · exact hr.live d hd hm
        · show d < (s.heap.cells.set x.1 _).length
          rw [List.length_set]
          exact hr.lt d hd)
    rw [pop_some_delete fuel this_id s t1 hp x.1 n hget hhd hf hn ho1]
    have e1 : delete_nodes_with_no_hazards
      { detached s t1 hp x.1 n with
        heap := ⟨(detached s t1 hp x.1 n).heap.cells, x.1 :: (detached s t1 hp x.1 n).heap.freed⟩ } =
        _ := e
    rw [e1, hd]
    simp [ho1, detached]

end lock_free_stack_7_6

/-- C22: `lock_free_stack_7_6::pop` on a stack that holds `v` on top, in a state reached between
two calls of the thread, with the other entries of the hazard table arbitrary and the table not
changing during the call.  The call returns `v` and has detached the node at the address `a`
that `head` pointed to.  When it returns, the slot `hp` of the caller publishes the null pointer
and every other slot publishes what it did before the call.  If no slot of the table publishes
`a`, the node is deleted, as the first deletion of the call, and is not on the retire list; if
some slot publishes `a`, the node is not deleted and is on the retire list.  So the node is
deleted if and only if no slot publishes its address. -/
theorem pop_deletes_or_retires {T : Type} (fuel this_id : Nat) (s : lock_free_stack_7_6 T) (v : T)
    (l : List T) (h : lock_free_stack_7_6.Holds s (v :: l)) :
    ∃ (a : Nat) (hp : Fin hazardous_pointer_machinery.max_hazard_pointers)
      (s1 : lock_free_stack_7_6 T),
      s.head = some a ∧ a ∉ s.heap.freed ∧
      lock_free_stack_7_6.pop (fuel + 1) this_id s = .ok (some v, s1) ∧
      s1.hazard = some hp ∧ (s1.hazard_pointers hp).pointer = none ∧
      (∀ j, j ≠ hp → (s1.hazard_pointers j).pointer = (s.hazard_pointers j).pointer) ∧
      ((∀ i, (s1.hazard_pointers i).pointer ≠ some a) →
        a ∉ s1.nodes_to_reclaim ∧
        ∃ later, s1.heap.freed = later ++ a :: s.heap.freed ∧ a ∉ later) ∧
      ((∃ i, (s1.hazard_pointers i).pointer = some a) →
        a ∉ s1.heap.freed ∧ a ∈ s1.nodes_to_reclaim) ∧
      (a ∈ s1.heap.freed ↔ ∀ i, (s1.hazard_pointers i).pointer ≠ some a) := by
  obtain ⟨al, hi, hl, hr, hz⟩ := h
  cases al with
  | nil => cases hl
  | cons x al =>
    simp only [List.map_cons, List.cons.injEq] at hl
    obtain ⟨hp, t2, cells, hhd, hf, hxoff, hnone, hsame, e⟩ :=
      lock_free_stack_7_6.pop_detached_eq hi hr hz fuel this_id
    rw [hl.1] at e
    have hnotin : ∀ (p : Nat → Bool), x.1 ∉ (s.nodes_to_reclaim.filter p).reverse := by
      intro p hm
      exact hxoff (List.mem_of_mem_filter (List.mem_reverse.1 hm))
    by_cases ho : hazardous_pointer_machinery.outstanding_hazard_pointers_for t2 (some x.1) = true
    · rw [if_pos ho] at e
      have hex := (hazardous_pointer_machinery.outstanding_iff t2 (some x.1)).1 ho
      have hnf : x.1 ∉ (s.nodes_to_reclaim.filter (fun d =>
          !hazardous_pointer_machinery.outstanding_hazard_pointers_for t2 (some d))).reverse ++
          s.heap.freed := by
        intro hm
        rcases List.mem_append.1 hm with hm | hm
        · exact hnotin _ hm
        · exact hf hm
      refine ⟨x.1, hp, _, hhd, hf, e, rfl, hnone, hsame, fun hall => ?_, fun _ => ⟨hnf, ?_⟩,
        ⟨fun hm => absurd hm hnf, fun hall => ?_⟩⟩
      · obtain ⟨i, hi1⟩ := hex
        exact absurd hi1 (hall i)
      · show x.1 ∈ _ ++ [x.1]
        simp
      · obtain ⟨i, hi1⟩ := hex
        exact absurd hi1 (hall i)
    · rw [if_neg ho] at e
      have hall : ∀ i, (t2 i).pointer ≠ some x.1 :=
        (hazardous_pointer_machinery.not_outstanding_iff t2 (some x.1)).1 (by simpa using ho)
      refine ⟨x.1, hp, _, hhd, hf, e, rfl, hnone, hsame, fun _ => ⟨hnotin _, _, rfl, hnotin _⟩,
        fun hex => ?_, ⟨fun _ => hall, fun _ => ?_⟩⟩
      · obtain ⟨i, hi1⟩ := hex
        exact absurd hi1 (hall i)
      · show x.1 ∈ _ ++ x.1 :: s.heap.freed
        simp

/-- Witness of C22: the stack holds 7 in the node at address 1, on top of 8 in the node at 0, and
the thread owns the entry 0 of the table. -/
theorem pop_deletes_or_retires_witness :
    ∃ s : lock_free_stack_7_6 Nat,
      s = ⟨⟨⟨[⟨some 8, none⟩, ⟨some 7, some 0⟩], []⟩, some 1⟩,
        Function.update hazardous_pointer_machinery.table.zero ⟨0, by decide⟩ ⟨some 3, none⟩,
        some ⟨0, by decide⟩, []⟩ ∧
      lock_free_stack_7_6.Holds s [7, 8] ∧
      ∃ (a : Nat) (hp : Fin hazardous_pointer_machinery.max_hazard_pointers)
        (s1 : lock_free_stack_7_6 Nat),
        s.head = some a ∧ a ∉ s.heap.freed ∧
        lock_free_stack_7_6.pop 1 3 s = .ok (some 7, s1) ∧
        s1.hazard = some hp ∧ (s1.hazard_pointers hp).pointer = none ∧
        (∀ j, j ≠ hp → (s1.hazard_pointers j).pointer = (s.hazard_pointers j).pointer) ∧
        ((∀ i, (s1.hazard_pointers i).pointer ≠ some a) →
          a ∉ s1.nodes_to_reclaim ∧
          ∃ later, s1.heap.freed = later ++ a :: s.heap.freed ∧ a ∉ later) ∧
        ((∃ i, (s1.hazard_pointers i).pointer = some a) →
          a ∉ s1.heap.freed ∧ a ∈ s1.nodes_to_reclaim) ∧
        (a ∈ s1.heap.freed ↔ ∀ i, (s1.hazard_pointers i).pointer ≠ some a) := by
  have hh : lock_free_stack_7_6.Holds
      (⟨⟨⟨[⟨some 8, none⟩, ⟨some 7, some 0⟩], []⟩, some 1⟩,
        Function.update hazardous_pointer_machinery.table.zero ⟨0, by decide⟩ ⟨some 3, none⟩,
        some ⟨0, by decide⟩, []⟩ : lock_free_stack_7_6 Nat) [7, 8] :=
    ⟨[(1, 7), (0, 8)],
      ⟨⟨⟨some 7, some 0⟩, rfl, rfl, rfl, ⟨some 8, none⟩, rfl, rfl, rfl, rfl⟩, by decide, by decide,
        by decide⟩,
      rfl, ⟨List.nodup_nil, by simp, by simp, by simp⟩, Or.inl rfl⟩
  exact ⟨_, rfl, hh, pop_deletes_or_retires 0 3 _ 7 [8] hh⟩

/-! ## Listing 7.21: several consumers on one queue -/

namespace lock_free_queue_RC_tail_modified

open lock_free_queue_RC_tail (counted_node_ptr node_counter node release_ref increase_external_count
  free_external_counter)

variable {T : Type}

/-- The two parts in which a consumer runs `pop` make up `pop`. -/
theorem pop_eq_parts (fuel : Nat) (s : lock_free_queue_RC_tail_modified T) :
    pop (fuel + 1) s =
      (increase_external_count (fuel + 1) s.head s.head).bind
        (fun r => pop_after_increase (fuel + 1) fuel { s with head := r.1 } r.2) := by
  unfold pop
  simp only [pop_loop, pop_after_increase, bind, Except.bind]

/-- A consumer that is scheduled twice in a row runs a call of `pop`. -/
theorem consume_twice (fuel : Nat) (queue : lock_free_queue_RC_tail_modified T)
    (popped : List (Option T)) (consumer : Nat) :
    run_threads fuel [.consume consumer, .consume consumer] ⟨queue, [], popped⟩ =
      (pop (fuel + 1) queue).map (fun r => ⟨r.2, [], popped ++ [r.1]⟩) := by
  rw [pop_eq_parts]
  simp only [run_threads, threads_run.step, List.lookup, bind, Except.bind, pure, Except.pure]
  cases increase_external_count (fuel + 1) queue.head queue.head with
  | error e => rfl
  | ok r =>
    simp only [List.lookup, beq_self_eq_true, Except.map]
    cases pop_after_increase (fuel + 1) fuel { queue with head := r.1 } r.2 with
    | error e => rfl
    | ok r1 => simp

end lock_free_queue_RC_tail_modified

/-- C11: conservation fails for `lock_free_queue_RC_tail_modified` with one producer and three
consumers.  The producer pushes 1 on a freshly constructed queue; the consumers 1 and 2 enter
`pop` and raise the count of `head`; the consumer 3 runs a whole `pop`, which returns 1 and
deletes the first node, while the consumers 1 and 2 still hold a pointer to it; the consumer 1
then reads `ptr->next` of the deleted node.  The same happens with two consumers when the
consumer 1 has run a `pop` on the empty queue before the push.  A consumer that is scheduled
twice in a row runs a call of `pop`. -/
theorem consumer_reads_deleted_node :
    lock_free_queue_RC_tail_modified.run_threads 2
      [.produce 1, .consume 1, .consume 2, .consume 3, .consume 3, .consume 1]
      (lock_free_queue_RC_tail_modified.threads_run.fresh :
        lock_free_queue_RC_tail_modified.threads_run Nat) = .error .use_after_free ∧
    (lock_free_queue_RC_tail_modified.run_threads 2
      [.produce 1, .consume 1, .consume 2, .consume 3, .consume 3]
      (lock_free_queue_RC_tail_modified.threads_run.fresh :
        lock_free_queue_RC_tail_modified.threads_run Nat)).map
      (fun r => (r.popped, r.queue.heap.freed, r.inside_pop.map (fun e => (e.1, e.2.ptr)))) =
      .ok ([some 1], [0], [(2, some 0), (1, some 0)]) ∧
    lock_free_queue_RC_tail_modified.run_threads 2
      [.consume 1, .consume 1, .produce 1, .consume 1, .consume 2, .consume 2, .consume 1]
      (lock_free_queue_RC_tail_modified.threads_run.fresh :
        lock_free_queue_RC_tail_modified.threads_run Nat) = .error .use_after_free ∧
    ∀ (fuel consumer : Nat) (queue : lock_free_queue_RC_tail_modified Nat)
      (popped : List (Option Nat)),
      lock_free_queue_RC_tail_modified.run_threads fuel [.consume consumer, .consume consumer]
        ⟨queue, [], popped⟩ =
        (lock_free_queue_RC_tail_modified.pop (fuel + 1) queue).map
          (fun r => ⟨r.2, [], popped ++ [r.1]⟩) := by
  refine ⟨by decide, by decide, by decide, fun fuel consumer queue popped => ?_⟩
  exact lock_free_queue_RC_tail_modified.consume_twice fuel queue popped consumer

end LockFree
